import Mathlib

/-!
# dmenu: the filter-and-navigate engine of `dmenu.c`

A shallow embedding of the parts of `dmenu.c` that decide which candidates are
shown and how the query buffer is edited.

* Bytes are natural numbers below 256.  A C string is the list of its bytes up
  to, and without, the terminating NUL.
* `char text[BUFSIZ]` is a list of `BUFSIZ` bytes; the query is `cstr text`.
* The doubly linked list `matches .. matchend` is the list of the indices (into
  `items`) of its nodes.  A pointer to a node (`prev`, `curr`, `next`, `sel`) is
  the position of the node in that list, `none` being `NULL`; `p->right` is
  position `p + 1` when it exists and `p->left` is position `p - 1`.
* The `int` values of `calcoffsets` (the budget `n`, the running total `i`) are
  integers brought back to 32 bits by `toInt` after each operation: `lines * bh`
  is an unsigned product stored in an `int`, and signed overflow, undefined in
  C, is taken to wrap around.  The statements about pages assume a bounded
  layout (`Config.Bounded`), in which no value leaves the range of `int`.
-/

namespace Dmenu

/-! ## libc string functions -/

/-- The function `tolower` of the C locale. -/
def tolower (c : Nat) : Nat := if 65 ≤ c ∧ c ≤ 90 then c + 32 else c

/-- Truth of `strncmp(s1, s2, n) == 0` for two C strings. -/
def strncmp : List Nat → List Nat → Nat → Bool
  | _, _, 0 => true
  | [], [], _ + 1 => true
  | [], _ :: _, _ + 1 => false
  | _ :: _, [], _ + 1 => false
  | a :: s1, b :: s2, n + 1 => a == b && strncmp s1 s2 n

/-- Truth of `strncasecmp(s1, s2, n) == 0` for two C strings. -/
def strncasecmp : List Nat → List Nat → Nat → Bool
  | _, _, 0 => true
  | [], [], _ + 1 => true
  | [], _ :: _, _ + 1 => false
  | _ :: _, [], _ + 1 => false
  | a :: s1, b :: s2, n + 1 => tolower a == tolower b && strncasecmp s1 s2 n

/-- Truth of `strstr(s, sub) != NULL`: `sub` starts at some position of `s`. -/
def strstr : List Nat → List Nat → Bool
  | [], sub => strncmp [] sub sub.length
  | c :: s, sub => strncmp (c :: s) sub sub.length || strstr s sub

/-- Truth of `cistrstr(s, sub) != NULL`: the loop `for(; *s; s++)` returns at
the first position where `strncasecmp(s, sub, len)` is zero. -/
def cistrstr : List Nat → List Nat → Bool
  | [], _ => false
  | c :: s, sub => strncasecmp (c :: s) sub sub.length || cistrstr s sub

/-- The function pointer `fstrncmp`: `strncasecmp` under `-i`, else `strncmp`. -/
def fstrncmp (ci : Bool) (s1 s2 : List Nat) (n : Nat) : Bool :=
  if ci then strncasecmp s1 s2 n else strncmp s1 s2 n

/-- The function pointer `fstrstr`: `cistrstr` under `-i`, else `strstr`. -/
def fstrstr (ci : Bool) (s sub : List Nat) : Bool :=
  if ci then cistrstr s sub else strstr s sub

/-- The tokens `strtok(buf, " ")`, `strtok(NULL, " ")`, ... of a C string;
`cur` is the token being read, last byte first. -/
def strtok : List Nat → List Nat → List (List Nat)
  | [], cur => if cur = [] then [] else [cur.reverse]
  | c :: s, cur =>
    if c = 32 then
      if cur = [] then strtok s [] else cur.reverse :: strtok s []
    else strtok s (c :: cur)

/-- The vector `tokv[0 .. tokc)` that `match` builds from the query. -/
def tokens (text : List Nat) : List (List Nat) := strtok text []

/-! ## match: the three lists and their concatenation -/

/-- The three lists `match` appends to: `matches` (exact), the one headed by
`lprefix` and the one headed by `lsubstr`. -/
structure Tiers where
  exact : List Nat
  pfx : List Nat
  substr : List Nat
deriving DecidableEq, Repr

/-- The function `appenditem`: the item becomes the last node of the list. -/
def appenditem (item : Nat) (list : List Nat) : List Nat := list ++ [item]

/-- One iteration of the loop over `items` in `match`, for the item with
index `idx` and text `t`. -/
def matchItem (ci : Bool) (tokv : List (List Nat)) (acc : Tiers) (idx : Nat)
    (t : List Nat) : Tiers :=
  let len := (tokv.headD []).length
  if tokv.all (fun tok => fstrstr ci t tok) then
    if tokv.isEmpty || fstrncmp ci (tokv.headD []) t (len + 1) then
      { acc with exact := appenditem idx acc.exact }
    else if fstrncmp ci (tokv.headD []) t len then
      { acc with pfx := appenditem idx acc.pfx }
    else
      { acc with substr := appenditem idx acc.substr }
  else acc

/-- The loop `for(item = items; item && item->text; item++)` of `match`. -/
def matchLoop (ci : Bool) (tokv : List (List Nat)) :
    List (List Nat) → Nat → Tiers → Tiers
  | [], _, acc => acc
  | t :: rest, idx, acc => matchLoop ci tokv rest (idx + 1) (matchItem ci tokv acc idx t)

/-- The two `if(lprefix)` / `if(lsubstr)` blocks of `match` that splice the
three lists into `matches`. -/
def linkTiers (l : Tiers) : List Nat :=
  let m1 := if l.pfx ≠ [] then (if l.exact ≠ [] then l.exact ++ l.pfx else l.pfx) else l.exact
  if l.substr ≠ [] then (if m1 ≠ [] then m1 ++ l.substr else l.substr) else m1

/-- The list `matches` that `match` leaves for the query `text`. -/
def matchList (ci : Bool) (items : List (List Nat)) (text : List Nat) : List Nat :=
  linkTiers (matchLoop ci (tokens text) items 0 ⟨[], [], []⟩)

/-- The bytes of an ASCII string literal. -/
def bytes (s : String) : List Nat := s.toList.map Char.toNat

/-! ## Session configuration and state -/

/-- What is fixed before `run` starts: the size of the array `text`, the lines
read by `readstdin`, the option `-i`, and the geometry that `calcoffsets`
reads (`lines`, `bh`, `mw`, `inputw` and the measurement `textw(dc, ·)`). -/
structure Config where
  BUFSIZ : Nat
  items : List (List Nat)
  ci : Bool
  lines : Nat
  bh : Int
  mw : Int
  inputw : Int
  textw : List Nat → Int

/-- The globals that `keypress`, `insert`, `match` and `calcoffsets` write;
`mlist` is the list `matches`, `out` lists the strings passed to `puts`. -/
structure State where
  text : List Nat
  cursor : Nat
  mlist : List Nat
  prev : Option Nat
  curr : Option Nat
  next : Option Nat
  sel : Option Nat
  running : Bool
  ret : Int
  out : List (List Nat)
deriving DecidableEq, Repr

/-- The value of `EXIT_SUCCESS`. -/
def EXIT_SUCCESS : Int := 0

/-- The value of `EXIT_FAILURE`. -/
def EXIT_FAILURE : Int := 1

/-- The C string held by an array: its bytes before the first NUL. -/
def cstr (buf : List Nat) : List Nat := buf.takeWhile (fun b => b != 0)

/-- The value of `strlen` on an array that holds a terminated string. -/
def strlen (buf : List Nat) : Nat := (cstr buf).length

/-- The pointer `matches`: the first node, or `NULL`. -/
def listHead (ml : List Nat) : Option Nat := if ml = [] then none else some 0

/-- The pointer `matchend`: the last node, or `NULL`. -/
def matchend (ml : List Nat) : Option Nat := if ml = [] then none else some (ml.length - 1)

/-- The field `p->right`. -/
def right (ml : List Nat) (p : Nat) : Option Nat := if p + 1 < ml.length then some (p + 1) else none

/-- The field `p->left`. -/
def left (p : Nat) : Option Nat := if p = 0 then none else some (p - 1)

/-- The field `item->text` of the item with index `it`. -/
def itemText (cfg : Config) (it : Nat) : List Nat := cfg.items.getD it []

/-- The field `p->text` of the node at position `p` of `matches`. -/
def nodeText (cfg : Config) (ml : List Nat) (p : Nat) : List Nat := itemText cfg (ml.getD p 0)

/-! ## calcoffsets -/

/-- The value of the type `int` (32 bits, two's complement) that is congruent
to `x` modulo `2^32`: what storing an `unsigned int` in an `int` gives, and
what an `int` operation gives when its result wraps around. -/
def toInt (x : Int) : Int := if x % 2 ^ 32 < 2 ^ 31 then x % 2 ^ 32 else x % 2 ^ 32 - 2 ^ 32

/-- The budget `int n` of `calcoffsets`.  With `lines > 0` it is `lines * bh`,
the product of an `unsigned int` and an `int`, computed modulo `2^32` and stored
in an `int`; otherwise it is the `int` expression
`mw - (inputw + textw(dc, "<") + textw(dc, ">"))`.  An `int` operation whose
result leaves the range of `int`, undefined in C, is taken to wrap around, here
and in the running totals of the two loops. -/
def budget (cfg : Config) : Int :=
  if cfg.lines > 0 then toInt ((cfg.lines : Int) * cfg.bh)
  else toInt (cfg.mw - (cfg.inputw + cfg.textw [60] + cfg.textw [62]))

/-- The amount `(lines > 0) ? bh : MIN(textw(dc, item->text), n)` that one item adds. -/
def itemw (cfg : Config) (it : Nat) : Int :=
  if cfg.lines > 0 then cfg.bh else min (cfg.textw (itemText cfg it)) (budget cfg)

/-- The first loop of `calcoffsets`: `rest` holds the nodes from `next`
rightwards, `p` is the position of `next`, `i` the running total, an `int`. -/
def nextLoop (cfg : Config) : List Nat → Nat → Int → Option Nat
  | [], _, _ => none
  | it :: rest, p, i =>
    if toInt (i + itemw cfg it) > budget cfg then some p
    else nextLoop cfg rest (p + 1) (toInt (i + itemw cfg it))

/-- The second loop of `calcoffsets`: `lefts` holds the nodes to the left of
`prev`, nearest first, `p` is the position of `prev`, `i` the running total, an
`int`. -/
def prevLoop (cfg : Config) : List Nat → Nat → Int → Nat
  | [], p, _ => p
  | it :: lefts, p, i =>
    if toInt (i + itemw cfg it) > budget cfg then p
    else prevLoop cfg lefts (p - 1) (toInt (i + itemw cfg it))

/-- The value `calcoffsets` gives `next` when `curr` is at position `c`. -/
def nextOf (cfg : Config) (ml : List Nat) (c : Nat) : Option Nat := nextLoop cfg (ml.drop c) c 0

/-- The position `calcoffsets` gives `prev` when `curr` is at position `c`. -/
def prevOf (cfg : Config) (ml : List Nat) (c : Nat) : Nat := prevLoop cfg (ml.take c).reverse c 0

/-- The function `calcoffsets`. -/
def calcoffsets (cfg : Config) (s : State) : State :=
  match s.curr with
  | none => { s with next := none, prev := none }
  | some c => { s with next := nextOf cfg s.mlist c, prev := some (prevOf cfg s.mlist c) }

/-- The function `match`: the list is rebuilt from the query, `curr` and `sel`
are set to its first node and `calcoffsets` runs. -/
def match_ (cfg : Config) (s : State) : State :=
  let ml := matchList cfg.ci cfg.items (cstr s.text)
  calcoffsets cfg { s with mlist := ml, curr := listHead ml, sel := listHead ml }

/-! ## nextrune and insert -/

/-- The test `(c & 0xc0) == 0x80`: `c` is a UTF-8 continuation byte. -/
def isCont (c : Nat) : Bool := c &&& 0xc0 == 0x80

/-- The loop of `nextrune` for `inc = +1`, where `n + inc >= 0` always holds:
`rest` holds `text[n ..]`; reading `text[n]` past the array gives `none`. -/
def runeUp : List Nat → Nat → Option Nat
  | [], _ => none
  | b :: rest, n => if isCont b then runeUp rest (n + 1) else some n

/-- The loop of `nextrune` for `inc = -1`, entered with `n >= 0`: at `n = 0`
the test `n + inc >= 0` fails before `text[n]` is read. -/
def runeDown (text : List Nat) : Nat → Option Nat
  | 0 => some 0
  | n + 1 =>
    match text[n + 1]? with
    | none => none
    | some b => if isCont b then runeDown text n else some (n + 1)

/-- The function `nextrune`, called with `inc = +1` or `inc = -1` only; `none`
stands for a read outside the array `text`.  With `inc = -1` and `cursor = 0`
the loop is not entered and `-1` is returned as a `size_t`. -/
def nextrune (text : List Nat) (cursor : Nat) (inc : Int) : Option Nat :=
  if inc = 1 then runeUp (text.drop (cursor + 1)) (cursor + 1)
  else if cursor = 0 then some (2 ^ 64 - 1)
  else runeDown text (cursor - 1)

/-- The conversion of a `size_t` difference to `ssize_t`. -/
def toSsize (x : Int) : Int := if x % 2 ^ 64 < 2 ^ 63 then x % 2 ^ 64 else x % 2 ^ 64 - 2 ^ 64

/-- The call `memmove(&buf[dst], &buf[src], cnt)`, `none` when it leaves the array. -/
def memmove (buf : List Nat) (dst src cnt : Int) : Option (List Nat) :=
  if 0 ≤ dst ∧ 0 ≤ src ∧ 0 ≤ cnt ∧ dst + cnt ≤ buf.length ∧ src + cnt ≤ buf.length then
    some (buf.take dst.toNat ++ (buf.drop src.toNat).take cnt.toNat ++ buf.drop (dst + cnt).toNat)
  else none

/-- The call `memcpy(&buf[dst], str, cnt)`, `none` when it leaves `buf` or `str`. -/
def memcpy (buf : List Nat) (dst : Int) (str : List Nat) (cnt : Int) : Option (List Nat) :=
  if 0 ≤ dst ∧ 0 ≤ cnt ∧ dst + cnt ≤ buf.length ∧ cnt ≤ str.length then
    some (buf.take dst.toNat ++ str.take cnt.toNat ++ buf.drop (dst + cnt).toNat)
  else none

/-- The function `insert`; `sizeof text` is the length of the array. -/
def insert (cfg : Config) (s : State) (str : List Nat) (n : Int) : Option State :=
  if ((strlen s.text : Int) + n) % 2 ^ 64 > ((s.text.length : Int) - 1) % 2 ^ 64 then some s
  else
    match memmove s.text (s.cursor + n) s.cursor ((s.text.length : Int) - s.cursor - max n 0) with
    | none => none
    | some t1 =>
      match (if n > 0 then memcpy t1 s.cursor str n else some t1) with
      | none => none
      | some t2 =>
        some (match_ cfg { s with text := t2, cursor := (((s.cursor : Int) + n) % 2 ^ 64).toNat })

/-! ## keypress, paste and run -/

/-- The key symbols `keypress` tells apart; `other` is any other one. -/
inductive KeySym
  | XK_a | XK_b | XK_c | XK_d | XK_e | XK_f | XK_g | XK_G | XK_h | XK_i | XK_j | XK_J
  | XK_k | XK_l | XK_m | XK_M | XK_n | XK_p | XK_u | XK_w | XK_y
  | XK_Home | XK_Left | XK_Escape | XK_Delete | XK_End | XK_Right | XK_BackSpace | XK_Tab
  | XK_Return | XK_KP_Enter | XK_Down | XK_Up | XK_Next | XK_Prior
  | other
deriving DecidableEq, Repr

/-- A key event together with what `XmbLookupString` reports for it: the key
symbol, whether the status is `XBufferOverflow`, the modifier bits of
`ev->state`, the contents of `buf` and the length `len`. -/
structure XKeyEvent where
  ksym : KeySym
  overflow : Bool
  control : Bool
  mod1 : Bool
  shift : Bool
  buf : List Nat
  len : Int
deriving DecidableEq, Repr

/-- The function `iscntrl` of the C locale. -/
def iscntrl (c : Nat) : Bool := c < 32 || c == 127

/-- The call `strncpy(dst, src, n)`. -/
def strncpy (dst src : List Nat) (n : Nat) : List Nat :=
  (src ++ List.replicate n 0).take n ++ dst.drop n

/-- The statement `insert(NULL, nextrune(-1) - cursor)`. -/
def deleteBack (cfg : Config) (s : State) : Option State :=
  match nextrune s.text s.cursor (-1) with
  | none => none
  | some r => insert cfg s [] (toSsize ((r : Int) - s.cursor))

/-- The test of the two loops of the case `XK_w` on the byte `b` left of the
cursor: `b == ' '` in the first, `b != ' ' && b != '/'` in the second. -/
def wordTest (spaces : Bool) (b : Nat) : Bool :=
  if spaces then b == 32 else b != 32 && b != 47

/-- The two `while` loops of the case `XK_w`: the first (`spaces = true`)
deletes while the rune on the left is a space, the second while it is neither
a space nor `/`.  Every pass that deletes lowers `cursor`, so `cursor + 1`
passes are enough; `none` is a read outside `text` or a loop that does not end. -/
def wordLoop (cfg : Config) (spaces : Bool) : Nat → State → Option State
  | 0, _ => none
  | fuel + 1, s =>
    if s.cursor > 0 then
      match nextrune s.text s.cursor (-1) with
      | none => none
      | some r =>
        match s.text[r]? with
        | none => none
        | some b =>
          if wordTest spaces b then
            match insert cfg s [] (toSsize ((r : Int) - s.cursor)) with
            | none => none
            | some s1 => wordLoop cfg spaces fuel s1
          else some s
    else some s

/-- How the two modifier switches of `keypress` end: with `return`, or by going
on to `switch(ksym)` with a key symbol. -/
inductive Flow
  | done (s : State)
  | sym (s : State) (k : KeySym)

/-- The `switch(ksym)` under `ev->state & ControlMask`. -/
def controlSwitch (cfg : Config) (s : State) (ev : XKeyEvent) : Option Flow :=
  match ev.ksym with
  | .XK_a => some (.sym s .XK_Home)
  | .XK_b => some (.sym s .XK_Left)
  | .XK_c => some (.sym s .XK_Escape)
  | .XK_d => some (.sym s .XK_Delete)
  | .XK_e => some (.sym s .XK_End)
  | .XK_f => some (.sym s .XK_Right)
  | .XK_g => some (.sym s .XK_Escape)
  | .XK_h => some (.sym s .XK_BackSpace)
  | .XK_i => some (.sym s .XK_Tab)
  | .XK_j => some (.sym s .XK_Return)
  | .XK_J => some (.sym s .XK_Return)
  | .XK_m => some (.sym s .XK_Return)
  | .XK_M => some (.sym s .XK_Return)
  | .XK_n => some (.sym s .XK_Down)
  | .XK_p => some (.sym s .XK_Up)
  | .XK_k =>
    if s.cursor < s.text.length then
      some (.sym (match_ cfg { s with text := s.text.set s.cursor 0 }) .XK_k)
    else none
  | .XK_u =>
    match insert cfg s [] (toSsize (0 - (s.cursor : Int))) with
    | none => none
    | some s1 => some (.sym s1 .XK_u)
  | .XK_w =>
    match wordLoop cfg true (s.cursor + 1) s with
    | none => none
    | some s1 =>
      match wordLoop cfg false (s1.cursor + 1) s1 with
      | none => none
      | some s2 => some (.sym s2 .XK_w)
  | _ => some (.done s)

/-- The `switch(ksym)` under `ev->state & Mod1Mask`. -/
def mod1Switch (s : State) (ev : XKeyEvent) : Flow :=
  match ev.ksym with
  | .XK_g => .sym s .XK_Home
  | .XK_G => .sym s .XK_End
  | .XK_h => .sym s .XK_Up
  | .XK_j => .sym s .XK_Next
  | .XK_k => .sym s .XK_Prior
  | .XK_l => .sym s .XK_Down
  | _ => .done s

/-- The case `XK_Down`. -/
def kDown (cfg : Config) (s : State) : State :=
  match s.sel with
  | none => s
  | some p =>
    match right s.mlist p with
    | none => s
    | some q =>
      if some q = s.next then calcoffsets cfg { s with sel := some q, curr := s.next }
      else { s with sel := some q }

/-- The case `XK_Up`. -/
def kUp (cfg : Config) (s : State) : State :=
  match s.sel with
  | none => s
  | some p =>
    match left p with
    | none => s
    | some q =>
      if right s.mlist q = s.curr then calcoffsets cfg { s with sel := some q, curr := s.prev }
      else { s with sel := some q }

/-- The case `XK_Right`. -/
def kRight (cfg : Config) (s : State) : Option State :=
  match s.text[s.cursor]? with
  | none => none
  | some b =>
    if b ≠ 0 then
      match nextrune s.text s.cursor 1 with
      | none => none
      | some r => some { s with cursor := r }
    else if cfg.lines > 0 then some s
    else some (kDown cfg s)

/-- The case `XK_Left`. -/
def kLeft (cfg : Config) (s : State) : Option State :=
  if s.cursor > 0 ∧ (s.sel = none ∨ s.sel.bind left = none ∨ cfg.lines > 0) then
    match nextrune s.text s.cursor (-1) with
    | none => none
    | some r => some { s with cursor := r }
  else if cfg.lines > 0 then some s
  else some (kUp cfg s)

/-- The case `XK_Home`. -/
def kHome (cfg : Config) (s : State) : State :=
  if s.sel = listHead s.mlist then { s with cursor := 0 }
  else calcoffsets cfg { s with sel := listHead s.mlist, curr := listHead s.mlist }

/-- The case `XK_BackSpace`. -/
def kBackSpace (cfg : Config) (s : State) : Option State :=
  if s.cursor = 0 then some s else deleteBack cfg s

/-- The loop `while(next && (curr = curr->right)) calcoffsets();` of the case
`XK_End`.  Every pass moves `curr` one node to the right, so it ends within
`length + 1` passes; `none` is the dereference of a `NULL` `curr`. -/
def endLoop (cfg : Config) : Nat → State → Option State
  | 0, _ => none
  | fuel + 1, s =>
    match s.next with
    | none => some s
    | some _ =>
      match s.curr with
      | none => none
      | some c =>
        match right s.mlist c with
        | none => some { s with curr := none }
        | some c1 => endLoop cfg fuel (calcoffsets cfg { s with curr := some c1 })

/-- The statements `curr = matchend; calcoffsets(); curr = prev; calcoffsets();`
of the case `XK_End`. -/
def endStart (cfg : Config) (s : State) : State :=
  let s1 := calcoffsets cfg { s with curr := matchend s.mlist }
  calcoffsets cfg { s1 with curr := s1.prev }

/-- The case `XK_End`. -/
def kEnd (cfg : Config) (s : State) : Option State :=
  match s.text[s.cursor]? with
  | none => none
  | some b =>
    if b ≠ 0 then some { s with cursor := strlen s.text }
    else
      match s.next with
      | none => some { s with sel := matchend s.mlist }
      | some _ =>
        match endLoop cfg ((endStart cfg s).mlist.length + 1) (endStart cfg s) with
        | none => none
        | some s3 => some { s3 with sel := matchend s3.mlist }

/-- The argument of `puts` in the case `XK_Return`. -/
def outLine (cfg : Config) (s : State) (ev : XKeyEvent) : List Nat :=
  match s.sel with
  | none => cstr s.text
  | some p => if ev.shift then cstr s.text else nodeText cfg s.mlist p

/-- The final `switch(ksym)` of `keypress`. -/
def mainSwitch (cfg : Config) (s : State) (ev : XKeyEvent) (k : KeySym) : Option State :=
  match k with
  | .XK_Delete =>
    match s.text[s.cursor]? with
    | none => none
    | some b =>
      if b = 0 then some s
      else
        match nextrune s.text s.cursor 1 with
        | none => none
        | some r => kBackSpace cfg { s with cursor := r }
  | .XK_BackSpace => kBackSpace cfg s
  | .XK_End => kEnd cfg s
  | .XK_Escape => some (kHome cfg { s with ret := EXIT_FAILURE, running := false })
  | .XK_Home => some (kHome cfg s)
  | .XK_Left => kLeft cfg s
  | .XK_Up => some (kUp cfg s)
  | .XK_Next =>
    match s.next with
    | none => some s
    | some q => some (calcoffsets cfg { s with sel := some q, curr := some q })
  | .XK_Prior =>
    match s.prev with
    | none => some s
    | some q => some (calcoffsets cfg { s with sel := some q, curr := some q })
  | .XK_Return =>
    kRight cfg { s with out := s.out ++ [outLine cfg s ev], ret := EXIT_SUCCESS, running := false }
  | .XK_KP_Enter =>
    kRight cfg { s with out := s.out ++ [outLine cfg s ev], ret := EXIT_SUCCESS, running := false }
  | .XK_Right => kRight cfg s
  | .XK_Down => some (kDown cfg s)
  | .XK_Tab =>
    match s.sel with
    | none => some s
    | some p =>
      if (nodeText cfg s.mlist p).length < s.text.length then
        some (match_ cfg { s with
          text := strncpy s.text (nodeText cfg s.mlist p) s.text.length,
          cursor := strlen (strncpy s.text (nodeText cfg s.mlist p) s.text.length) })
      else none
  | _ => if iscntrl (ev.buf.headD 0) then some s else insert cfg s ev.buf ev.len

/-- The function `keypress`; drawing is left out. -/
def keypress (cfg : Config) (s : State) (ev : XKeyEvent) : Option State :=
  if ev.overflow then some s
  else
    match (if ev.control then controlSwitch cfg s ev
           else if ev.mod1 then some (mod1Switch s ev)
           else some (.sym s ev.ksym)) with
    | none => none
    | some (.done s1) => some s1
    | some (.sym s1 k) => mainSwitch cfg s1 ev k

/-- The function `paste`, for the property data `p`: up to the first newline
of the string, or all of it. -/
def paste (cfg : Config) (s : State) (p : List Nat) : Option State :=
  insert cfg s p (((cstr p).takeWhile (fun b => b != 10)).length : Nat)

/-- The events of `run` that reach the engine: a key press, or the arrival of
the selection. -/
inductive Event
  | key (ev : XKeyEvent)
  | selection (p : List Nat)

/-- One pass of the loop of `run`. -/
def handle (cfg : Config) (s : State) : Event → Option State
  | .key ev => keypress cfg s ev
  | .selection p => paste cfg s p

/-- The loop `while(running && !XNextEvent(...))` of `run` over the events `evs`. -/
def run (cfg : Config) : State → List Event → Option State
  | s, [] => some s
  | s, e :: evs =>
    if s.running then
      match handle cfg s e with
      | none => none
      | some s1 => run cfg s1 evs
    else some s

/-- The state in which `run` starts: the zeroed array `text`, and the lists as
the call of `match` in `setup` leaves them. -/
def init (cfg : Config) : State :=
  match_ cfg
    { text := List.replicate cfg.BUFSIZ 0, cursor := 0, mlist := [], prev := none, curr := none,
      next := none, sel := none, running := true, ret := 0, out := [] }

/-! ## The matcher as the specification words it -/

/-- A string as the comparison mode sees it: letters folded to lower case under
`-i`, unchanged otherwise. -/
def caseFold (ci : Bool) (s : List Nat) : List Nat := if ci then s.map tolower else s

/-- The token `tok` is a substring of `s` under the comparison mode. -/
def Occurs (ci : Bool) (tok s : List Nat) : Prop := caseFold ci tok <:+: caseFold ci s

instance (ci : Bool) (tok s : List Nat) : Decidable (Occurs ci tok s) := by
  unfold Occurs
  infer_instance

/-- The candidate text `t` passes the token filter: every token is a substring of it. -/
def passes (ci : Bool) (toks : List (List Nat)) (t : List Nat) : Bool :=
  decide (∀ tok ∈ toks, Occurs ci tok t)

/-- The candidate text `t` equals the first token, or there is no token. -/
def isExact (ci : Bool) (toks : List (List Nat)) (t : List Nat) : Bool :=
  match toks with
  | [] => true
  | tok0 :: _ => decide (caseFold ci t = caseFold ci tok0)

/-- The candidate text `t` starts with the first token. -/
def startsWith (ci : Bool) (toks : List (List Nat)) (t : List Nat) : Bool :=
  match toks with
  | [] => false
  | tok0 :: _ => decide (caseFold ci tok0 <+: caseFold ci t)

/-- The candidates whose text satisfies `P`, as indices in CandidateStore order. -/
def candidatesWith (items : List (List Nat)) (P : List Nat → Bool) : List Nat :=
  (items.enum.filter (fun p => P p.2)).map Prod.fst

/-- The exact tier of the specification. -/
def exactTier (ci : Bool) (items : List (List Nat)) (toks : List (List Nat)) : List Nat :=
  candidatesWith items (fun t => passes ci toks t && isExact ci toks t)

/-- The tier of the candidates that start with the first token and are not exact. -/
def startTier (ci : Bool) (items : List (List Nat)) (toks : List (List Nat)) : List Nat :=
  candidatesWith items (fun t => passes ci toks t && (startsWith ci toks t && !isExact ci toks t))

/-- The substring tier of the specification: the candidates that pass and are
in neither of the other two tiers. -/
def substringTier (ci : Bool) (items : List (List Nat)) (toks : List (List Nat)) : List Nat :=
  candidatesWith items (fun t => passes ci toks t && (!startsWith ci toks t && !isExact ci toks t))

/-! ## Commands and sample data -/

/-- The key events that reach `case XK_Return` / `case XK_KP_Enter`: the accept
command.  With `ShiftMask` set it is accept-alternate. -/
def isAccept (ev : XKeyEvent) : Bool :=
  !ev.overflow &&
    (if ev.control then
      ev.ksym == .XK_j || ev.ksym == .XK_J || ev.ksym == .XK_m || ev.ksym == .XK_M
    else !ev.mod1 && (ev.ksym == .XK_Return || ev.ksym == .XK_KP_Enter))

/-- The key events that reach `case XK_Escape`: the cancel command. -/
def isCancel (ev : XKeyEvent) : Bool :=
  !ev.overflow &&
    (if ev.control then ev.ksym == .XK_c || ev.ksym == .XK_g
    else !ev.mod1 && ev.ksym == .XK_Escape)

/-- A key event with no modifier and no text. -/
def plainKey (k : KeySym) : XKeyEvent :=
  { ksym := k, overflow := false, control := false, mod1 := false, shift := false,
    buf := [], len := 0 }

/-- A sample session: four candidates, `-i`, horizontal layout, a 16 byte array. -/
def demoCfg : Config :=
  { BUFSIZ := 16,
    items := [bytes "apple", bytes "application", bytes "apply", bytes "banana"],
    ci := true, lines := 0, bh := 10, mw := 100, inputw := 20,
    textw := fun t => 5 * t.length + 4 }

/-- A sample state of `demoCfg`: the query "aéb" with the cursor after "a". -/
def demoState : State :=
  { text := [97, 195, 169, 98, 0, 0, 0, 0, 0, 0, 0, 0, 0, 0, 0, 0], cursor := 1, mlist := [],
    prev := none, curr := none, next := none, sel := none, running := true, ret := 0, out := [] }

/-- A sample state of `demoCfg` whose array is full: fifteen bytes and the NUL. -/
def fullState : State :=
  { text := List.replicate 15 97 ++ [0], cursor := 15, mlist := [],
    prev := none, curr := none, next := none, sel := none, running := true, ret := 0, out := [] }

/-! ## Pages -/

/-- What the items `l` add together to the running total of `calcoffsets`. -/
def wsum (cfg : Config) (l : List Nat) : Int := (l.map (itemw cfg)).sum

/-- The visible page: the nodes from `curr` up to, and without, `next`. -/
def page (s : State) : List Nat :=
  match s.curr with
  | none => []
  | some c => (s.mlist.take (s.next.getD s.mlist.length)).drop c

/-- The state with the anchor and the selection on the first match, as
`sel = curr = matches; calcoffsets();` leaves it. -/
def atFirst (cfg : Config) (s : State) : State :=
  calcoffsets cfg { s with sel := listHead s.mlist, curr := listHead s.mlist }

/-- The value `x` is in the range of the type `int`. -/
def IntRange (x : Int) : Prop := -2 ^ 31 ≤ x ∧ x < 2 ^ 31

/-- The layouts in which no `int` of `calcoffsets` leaves its range and no
measurement is negative.  In a vertical list: `bh >= 0` and
`(lines + 1) * bh <= INT_MAX`, the largest running total.  In a horizontal
list: the sums inside the budget expression are in range, the budget `n`
satisfies `0 <= n` and `2 * n <= INT_MAX` (a running total is at most `n` before
an amount of at most `n` is added), and no text has a negative width. -/
def Config.Bounded (cfg : Config) : Prop :=
  if cfg.lines > 0 then 0 ≤ cfg.bh ∧ ((cfg.lines : Int) + 1) * cfg.bh < 2 ^ 31
  else
    IntRange (cfg.inputw + cfg.textw [60]) ∧
      IntRange (cfg.inputw + cfg.textw [60] + cfg.textw [62]) ∧
      0 ≤ cfg.mw - (cfg.inputw + cfg.textw [60] + cfg.textw [62]) ∧
      2 * (cfg.mw - (cfg.inputw + cfg.textw [60] + cfg.textw [62])) < 2 ^ 31 ∧
      ∀ t, 0 ≤ cfg.textw t

/-- What the statements about the two loops of `calcoffsets` use of a bounded
layout: every amount added is between 0 and the budget, and the budget plus an
amount is in the range of `int`. -/
def NoWrap (cfg : Config) : Prop :=
  (∀ it, itemw cfg it ≤ budget cfg) ∧ (∀ it, 0 ≤ itemw cfg it) ∧
    ∀ it, budget cfg + itemw cfg it < 2 ^ 31

/-- The pointers of a state agree with the list and with `calcoffsets`: with no
anchor the list is empty and every pointer is `NULL`; otherwise `next` and
`prev` are the ones `calcoffsets` computes for the anchor `curr`, and the
selection is a node of the visible page. -/
def PageInv (cfg : Config) (s : State) : Prop :=
  match s.curr with
  | none => s.mlist = [] ∧ s.sel = none ∧ s.next = none ∧ s.prev = none
  | some c =>
    c < s.mlist.length ∧ s.next = nextOf cfg s.mlist c ∧
      s.prev = some (prevOf cfg s.mlist c) ∧
      ∃ p, s.sel = some p ∧ c ≤ p ∧ p < s.mlist.length ∧ ∀ q, s.next = some q → p < q

/-- A key event that carries the one byte `c` as its text. -/
def charKey (c : Nat) : XKeyEvent :=
  { ksym := .other, overflow := false, control := false, mod1 := false, shift := false,
    buf := [c], len := 1 }

/-- The scanner behind `utf8`: `k` continuation bytes are still due.  A lead
byte `01..7F` stands alone, `C2..DF` takes one continuation byte, `E0..EF` two
and `F0..F4` three. -/
def utf8Scan : Nat → List Nat → Bool
  | 0, [] => true
  | _ + 1, [] => false
  | 0, b :: rest =>
    if 1 ≤ b ∧ b < 0x80 then utf8Scan 0 rest
    else if 0xc2 ≤ b ∧ b < 0xe0 then utf8Scan 1 rest
    else if 0xe0 ≤ b ∧ b < 0xf0 then utf8Scan 2 rest
    else if 0xf0 ≤ b ∧ b < 0xf5 then utf8Scan 3 rest
    else false
  | k + 1, b :: rest => isCont b && utf8Scan k rest

/-- The bytes are well-formed UTF-8 text: a sequence of encoded code points
other than NUL, each a lead byte followed by the number of continuation bytes
the lead byte asks for.  (Overlong forms and surrogates are let through, so
this admits every strictly well-formed text.) -/
def utf8 (l : List Nat) : Bool := utf8Scan 0 l

/-- The bytes that `paste` inserts for the property data `p`: the string up to
its first newline. -/
def pasted (p : List Nat) : List Nat := (cstr p).takeWhile (fun b => b != 10)

/-- A key event as `XmbLookupString` fills it in: `len`, an `int`, counts the
bytes at the start of `buf`, and these are well-formed UTF-8 text when
`keypress` inserts them (`*buf` is not a control character). -/
def XKeyEvent.WF (ev : XKeyEvent) : Prop :=
  0 ≤ ev.len ∧ ev.len ≤ ev.buf.length ∧ ev.len < 2 ^ 31 ∧
    (iscntrl (ev.buf.headD 0) = false → utf8 (ev.buf.take ev.len.toNat) = true)

/-- An event whose inserted bytes are well-formed UTF-8 text (and, for a paste,
whose count fits the `ssize_t` argument of `insert`). -/
def Event.WF : Event → Prop
  | .key ev => ev.WF
  | .selection p => (pasted p).length < 2 ^ 63 ∧ utf8 (pasted p) = true

/-- The candidates as `readstdin` stores them for an array of `BUFSIZ` bytes:
each is well-formed UTF-8 text shorter than `BUFSIZ`; and `BUFSIZ` is positive
and fits a `ssize_t`. -/
def Config.WF (cfg : Config) : Prop :=
  0 < cfg.BUFSIZ ∧ cfg.BUFSIZ < 2 ^ 63 ∧
    ∀ t ∈ cfg.items, utf8 t = true ∧ t.length < cfg.BUFSIZ

/-- The array holds a string, the cursor is inside it and on a byte that is not
a continuation byte, and the string does not start with a continuation byte. -/
def TextInv (cfg : Config) (s : State) : Prop :=
  s.text.length = cfg.BUFSIZ ∧ cfg.BUFSIZ < 2 ^ 63 ∧ strlen s.text < s.text.length ∧
    s.cursor ≤ strlen s.text ∧ isCont (s.text.getD s.cursor 0) = false ∧
    isCont (s.text.getD 0 0) = false

/-- A key event with `ControlMask` set, as `XmbLookupString` reports it for the
letter key `k`: one control byte in `buf`. -/
def controlKey (k : KeySym) (c : Nat) : XKeyEvent :=
  { ksym := k, overflow := false, control := true, mod1 := false, shift := false,
    buf := [c], len := 1 }

/-- A sample sequence of edits: paste "aé b", cursor left, delete the rune on
the left, delete the word on the left (Ctrl-w), go to the start, delete the rune
on the right, go to the end, type "z". -/
def demoEdits : List Event :=
  [Event.selection [97, 195, 169, 32, 98], Event.key (plainKey .XK_Left),
    Event.key (plainKey .XK_BackSpace), Event.key (controlKey .XK_w 23),
    Event.key (plainKey .XK_Home), Event.key (plainKey .XK_Home),
    Event.key (plainKey .XK_Delete), Event.key (plainKey .XK_End), Event.key (charKey 122)]

/-! ## Tokens and match lists as the specification words them -/

/-- The texts of the candidates of the match list, in order. -/
def matchTexts (ci : Bool) (items : List (List Nat)) (text : List Nat) : List (List Nat) :=
  (matchList ci items text).map (fun i => items.getD i [])

/-- Maximal runs of bytes that are neither a space nor a tab. -/
def whitespaceRuns (text : List Nat) : List (List Nat) :=
  (text.splitOnP (fun b => b == 32 || b == 9)).filter (fun t => !t.isEmpty)

/-- Maximal runs of bytes other than the space (0x20). -/
def spaceRuns (text : List Nat) : List (List Nat) :=
  (text.splitOnP (fun b => b == 32)).filter (fun t => !t.isEmpty)

/-! ## Widths and sample layouts -/

/-- The sum of the measured widths `textw(dc, item->text)` of the items of `l`. -/
def measuredSum (cfg : Config) (l : List Nat) : Int :=
  (l.map (fun it => cfg.textw (itemText cfg it))).sum

/-- The sum of the measured widths of the items of `l`, each capped at `W`. -/
def cappedSum (cfg : Config) (W : Int) (l : List Nat) : Int :=
  (l.map (fun it => min (cfg.textw (itemText cfg it)) W)).sum

/-- A vertical list of three rows over the sample candidates. -/
def linesCfg : Config := { demoCfg with lines := 3 }

/-- A horizontal list whose first candidate is wider than the budget. -/
def wideCfg : Config :=
  { demoCfg with BUFSIZ := 64, items := [bytes "abcdefghijklmnopqrst", bytes "b"] }

/-- The four sample candidates, all matching, with the anchor on the second. -/
def anchorState (cfg : Config) : State :=
  { init cfg with mlist := [0, 1, 2, 3], curr := some 1, sel := some 1 }

/-! ## Cursor keys and completion -/

/-- The key events that reach `case XK_Left`: the cursor-left command. -/
def isLeft (ev : XKeyEvent) : Bool :=
  !ev.overflow && (if ev.control then ev.ksym == .XK_b else !ev.mod1 && ev.ksym == .XK_Left)

/-- The key events that reach `case XK_Right`: the cursor-right command. -/
def isRight (ev : XKeyEvent) : Bool :=
  !ev.overflow && (if ev.control then ev.ksym == .XK_f else !ev.mod1 && ev.ksym == .XK_Right)

/-- The key events that reach `case XK_Prior`: the page-up command (Prior, or
Mod1-k). -/
def isPageUp (ev : XKeyEvent) : Bool :=
  !ev.overflow && !ev.control &&
    (if ev.mod1 then ev.ksym == .XK_k else ev.ksym == .XK_Prior)

/-- The key events that reach `case XK_Tab`: the complete command. -/
def isComplete (ev : XKeyEvent) : Bool :=
  !ev.overflow && (if ev.control then ev.ksym == .XK_i else !ev.mod1 && ev.ksym == .XK_Tab)

/-- A state of `demoCfg` with the query "aéb" and the second match selected. -/
def selState : State :=
  { demoState with mlist := [0, 1, 2, 3], curr := some 1, sel := some 1 }

/-! ## match on the pointers of the items -/

/-- The fields `left` and `right` of the items, by item index; `none` is `NULL`. -/
structure Links where
  left : Nat → Option Nat
  right : Nat → Option Nat

/-- A list as `match` holds it: the pointer to its first node (`matches`,
`lprefix`, `lsubstr`) and the pointer to its last node (`matchend`,
`prefixend`, `substrend`). -/
structure Ends where
  first : Option Nat
  last : Option Nat
deriving DecidableEq, Repr

/-- The function `appenditem` on the pointers: `(*last)->right = item` or
`*list = item`, then `item->left = *last; item->right = NULL; *last = item`. -/
def Ptr.appenditem (item : Nat) (lk : Links) (e : Ends) : Links × Ends :=
  match e.last with
  | some l =>
    ({ left := Function.update lk.left item (some l),
       right := Function.update (Function.update lk.right l (some item)) item none },
     { first := e.first, last := some item })
  | none =>
    ({ left := Function.update lk.left item none,
       right := Function.update lk.right item none },
     { first := some item, last := some item })

/-- The variables of `match` while it builds the three lists: the links of the
items, `matches`/`matchend`, `lprefix`/`prefixend` and `lsubstr`/`substrend`. -/
structure PtrState where
  links : Links
  exact : Ends
  pfx : Ends
  substr : Ends

/-- One iteration of the loop over `items` in `match`, on the pointers. -/
def Ptr.matchItem (ci : Bool) (tokv : List (List Nat)) (acc : PtrState) (idx : Nat)
    (t : List Nat) : PtrState :=
  let len := (tokv.headD []).length
  if tokv.all (fun tok => fstrstr ci t tok) then
    if tokv.isEmpty || fstrncmp ci (tokv.headD []) t (len + 1) then
      { acc with links := (Ptr.appenditem idx acc.links acc.exact).1,
                 exact := (Ptr.appenditem idx acc.links acc.exact).2 }
    else if fstrncmp ci (tokv.headD []) t len then
      { acc with links := (Ptr.appenditem idx acc.links acc.pfx).1,
                 pfx := (Ptr.appenditem idx acc.links acc.pfx).2 }
    else
      { acc with links := (Ptr.appenditem idx acc.links acc.substr).1,
                 substr := (Ptr.appenditem idx acc.links acc.substr).2 }
  else acc

/-- The loop `for(item = items; item && item->text; item++)` of `match`, on the
pointers. -/
def Ptr.matchLoop (ci : Bool) (tokv : List (List Nat)) :
    List (List Nat) → Nat → PtrState → PtrState
  | [], _, acc => acc
  | t :: rest, idx, acc => Ptr.matchLoop ci tokv rest (idx + 1) (Ptr.matchItem ci tokv acc idx t)

/-- The block `if(l) { if(matches) { matchend->right = l; l->left = matchend; }
else matches = l; matchend = lend; }` of `match`, for `l = lprefix` and for
`l = lsubstr`; `none` is the dereference of a `NULL` `matchend`. -/
def Ptr.splice (lk : Links) (m l : Ends) : Option (Links × Ends) :=
  match l.first with
  | none => some (lk, m)
  | some lf =>
    match m.first with
    | none => some (lk, { first := some lf, last := l.last })
    | some _ =>
      match m.last with
      | none => none
      | some me =>
        some ({ left := Function.update lk.left lf (some me),
                right := Function.update lk.right me (some lf) },
              { first := m.first, last := l.last })

/-- The statements of `match` from `matches = lprefix = ... = NULL` to the end
of the second splice, run on items whose links are `lk0`, whatever an earlier
call left in them: the links and `matches`/`matchend` at the end. -/
def Ptr.matchList (ci : Bool) (items : List (List Nat)) (text : List Nat) (lk0 : Links) :
    Option (Links × Ends) :=
  let st := Ptr.matchLoop ci (tokens text) items 0
    { links := lk0, exact := ⟨none, none⟩, pfx := ⟨none, none⟩, substr := ⟨none, none⟩ }
  match Ptr.splice st.links st.exact st.pfx with
  | none => none
  | some r => Ptr.splice r.1 r.2 st.substr

/-- The nodes met from the node `p` by following `right`, at most `fuel` of them. -/
def Ptr.toList (lk : Links) : Nat → Option Nat → List Nat
  | 0, _ => []
  | _ + 1, none => []
  | fuel + 1, some x => x :: Ptr.toList lk fuel (lk.right x)

/-- The nodes of `l` are doubly linked in this order: `left` of the first is
`p`, `right` of the last is `NULL`. -/
def Linked (lk : Links) : Option Nat → List Nat → Prop
  | _, [] => True
  | p, x :: l => lk.left x = p ∧ lk.right x = l.head? ∧ Linked lk (some x) l

/-- The pointers `e` and the links `lk` hold the list `l`. -/
def Represents (lk : Links) (e : Ends) (l : List Nat) : Prop :=
  e.first = l.head? ∧ e.last = l.getLast? ∧ Linked lk none l

/-! ## The cursor-end command -/

theorem strncmp_iff (a b : List Nat) (n : Nat) :
    strncmp a b n = true ↔ a.take n = b.take n := by
  induction n generalizing a b with
  | zero => simp [strncmp]
  | succ n ih =>
    cases a with
    | nil => cases b <;> simp [strncmp]
    | cons x a =>
      cases b with
      | nil => simp [strncmp]
      | cons y b => simp [strncmp, ih]

theorem strncasecmp_eq (a b : List Nat) (n : Nat) :
    strncasecmp a b n = strncmp (a.map tolower) (b.map tolower) n := by
  induction n generalizing a b with
  | zero => simp [strncmp, strncasecmp]
  | succ n ih =>
    cases a with
    | nil => cases b <;> simp [strncmp, strncasecmp]
    | cons x a =>
      cases b with
      | nil => simp [strncmp, strncasecmp]
      | cons y b => simp [strncmp, strncasecmp, ih]

theorem caseFold_length (ci : Bool) (s : List Nat) : (caseFold ci s).length = s.length := by
  unfold caseFold; split <;> simp

theorem caseFold_take (ci : Bool) (s : List Nat) (n : Nat) :
    caseFold ci (s.take n) = (caseFold ci s).take n := by
  unfold caseFold; split <;> simp [List.map_take]

theorem caseFold_cons (ci : Bool) (c : Nat) (s : List Nat) :
    caseFold ci (c :: s) = (caseFold ci [c]) ++ caseFold ci s := by
  unfold caseFold; split <;> simp

theorem caseFold_eq_nil (ci : Bool) (s : List Nat) : caseFold ci s = [] ↔ s = [] := by
  unfold caseFold; split <;> simp

theorem fstrncmp_iff (ci : Bool) (a b : List Nat) (n : Nat) :
    fstrncmp ci a b n = true ↔ (caseFold ci a).take n = (caseFold ci b).take n := by
  unfold fstrncmp caseFold
  split
  · rw [strncasecmp_eq, strncmp_iff]
  · rw [strncmp_iff]

theorem fstrncmp_exact (ci : Bool) (tok t : List Nat) :
    fstrncmp ci tok t (tok.length + 1) = true ↔ caseFold ci t = caseFold ci tok := by
  rw [fstrncmp_iff]
  have h1 : (caseFold ci tok).take (tok.length + 1) = caseFold ci tok := by
    apply List.take_of_length_le
    rw [caseFold_length]; omega
  rw [h1]
  constructor
  · intro h
    have hl : (caseFold ci t).length = tok.length := by
      have := congrArg List.length h
      simp [caseFold_length] at this
      rw [caseFold_length]
      omega
    rw [h, List.take_of_length_le (by omega)]
  · intro h
    rw [h, h1]

theorem fstrncmp_start (ci : Bool) (tok t : List Nat) :
    fstrncmp ci tok t tok.length = true ↔ caseFold ci tok <+: caseFold ci t := by
  rw [fstrncmp_iff, List.prefix_iff_eq_take, caseFold_length]
  rw [List.take_of_length_le (by rw [caseFold_length])]

theorem strstr_iff (s sub : List Nat) : strstr s sub = true ↔ sub <:+: s := by
  induction s with
  | nil =>
    simp [strstr, strncmp_iff]
  | cons c s ih =>
    simp only [strstr, Bool.or_eq_true, ih, strncmp_iff, List.infix_cons_iff]
    rw [List.prefix_iff_eq_take, List.take_of_length_le (le_refl _)]
    constructor
    · rintro (h | h)
      · exact Or.inl h.symm
      · exact Or.inr h
    · rintro (h | h)
      · exact Or.inl h.symm
      · exact Or.inr h

theorem cistrstr_eq (s sub : List Nat) (h : sub ≠ []) :
    cistrstr s sub = strstr (s.map tolower) (sub.map tolower) := by
  induction s with
  | nil =>
    cases sub with
    | nil => exact absurd rfl h
    | cons x sub => simp [cistrstr, strstr, strncmp]
  | cons c s ih =>
    simp [cistrstr, strstr, ih, strncasecmp_eq]

theorem fstrstr_iff (ci : Bool) (s tok : List Nat) (h : tok ≠ []) :
    fstrstr ci s tok = true ↔ Occurs ci tok s := by
  unfold fstrstr Occurs caseFold
  split
  · rw [cistrstr_eq s tok h, strstr_iff]
  · rw [strstr_iff]

theorem strtok_ne_nil (s cur : List Nat) : ∀ tok ∈ strtok s cur, tok ≠ [] := by
  induction s generalizing cur with
  | nil =>
    intro tok htok
    unfold strtok at htok
    split at htok
    · simp at htok
    · simp at htok; subst htok; simpa using ‹¬cur = []›
  | cons c s ih =>
    intro tok htok
    unfold strtok at htok
    split at htok
    · split at htok
      · exact ih [] tok htok
      · simp at htok
        rcases htok with h | h
        · subst h; simpa using ‹¬cur = []›
        · exact ih [] tok h
    · exact ih (c :: cur) tok htok

theorem tokens_ne_nil (text : List Nat) : ∀ tok ∈ tokens text, tok ≠ [] :=
  strtok_ne_nil text []


/-! ## The loop of match -/

theorem linkTiers_eq (l : Tiers) : linkTiers l = l.exact ++ l.pfx ++ l.substr := by
  unfold linkTiers
  by_cases h1 : l.pfx = [] <;> by_cases h2 : l.exact = [] <;> by_cases h3 : l.substr = [] <;>
    simp [h1, h2, h3]

theorem matchLoop_eq (ci : Bool) (tokv : List (List Nat)) (items : List (List Nat)) (idx : Nat)
    (acc : Tiers) :
    matchLoop ci tokv items idx acc =
      ⟨acc.exact ++ ((items.enumFrom idx).filter (fun p =>
          tokv.all (fun tok => fstrstr ci p.2 tok) &&
            (tokv.isEmpty || fstrncmp ci (tokv.headD []) p.2 ((tokv.headD []).length + 1)))).map
          Prod.fst,
        acc.pfx ++ ((items.enumFrom idx).filter (fun p =>
          tokv.all (fun tok => fstrstr ci p.2 tok) &&
            (!(tokv.isEmpty || fstrncmp ci (tokv.headD []) p.2 ((tokv.headD []).length + 1)) &&
              fstrncmp ci (tokv.headD []) p.2 (tokv.headD []).length))).map Prod.fst,
        acc.substr ++ ((items.enumFrom idx).filter (fun p =>
          tokv.all (fun tok => fstrstr ci p.2 tok) &&
            (!(tokv.isEmpty || fstrncmp ci (tokv.headD []) p.2 ((tokv.headD []).length + 1)) &&
              !fstrncmp ci (tokv.headD []) p.2 (tokv.headD []).length))).map Prod.fst⟩ := by
  induction items generalizing idx acc with
  | nil => simp [matchLoop]
  | cons t rest ih =>
    rw [matchLoop, ih]
    simp only [List.enumFrom_cons, List.filter_cons, matchItem, appenditem]
    cases hp : tokv.all (fun tok => fstrstr ci t tok) <;>
      cases he : (tokv.isEmpty || fstrncmp ci (tokv.headD []) t ((tokv.headD []).length + 1)) <;>
      cases hs : fstrncmp ci (tokv.headD []) t (tokv.headD []).length <;>
      simp only [Bool.true_and, Bool.false_and, Bool.not_true, Bool.not_false, if_true,
        if_false, List.map_cons, List.append_assoc, List.singleton_append, Bool.false_eq_true,
        Bool.and_self, Bool.and_false, Bool.and_true]

theorem code_pass (ci : Bool) (toks : List (List Nat)) (h : ∀ tok ∈ toks, tok ≠ [])
    (t : List Nat) : toks.all (fun tok => fstrstr ci t tok) = passes ci toks t := by
  rw [Bool.eq_iff_iff]
  simp only [List.all_eq_true, passes, decide_eq_true_eq]
  constructor
  · intro hh tok htok
    exact (fstrstr_iff ci t tok (h tok htok)).1 (hh tok htok)
  · intro hh tok htok
    exact (fstrstr_iff ci t tok (h tok htok)).2 (hh tok htok)

theorem code_exact (ci : Bool) (toks : List (List Nat)) (t : List Nat) :
    (toks.isEmpty || fstrncmp ci (toks.headD []) t ((toks.headD []).length + 1)) =
      isExact ci toks t := by
  cases toks with
  | nil => simp [isExact]
  | cons tok0 rest =>
    rw [Bool.eq_iff_iff]
    simp [isExact, fstrncmp_exact]

theorem code_start (ci : Bool) (toks : List (List Nat)) (t : List Nat)
    (h : isExact ci toks t = false) :
    fstrncmp ci (toks.headD []) t (toks.headD []).length = startsWith ci toks t := by
  cases toks with
  | nil => simp [isExact] at h
  | cons tok0 rest =>
    rw [Bool.eq_iff_iff]
    simp [startsWith, fstrncmp_start]

theorem matchList_eq_tiers (ci : Bool) (items : List (List Nat)) (text : List Nat) :
    matchList ci items text =
      exactTier ci items (tokens text) ++ startTier ci items (tokens text) ++
        substringTier ci items (tokens text) := by
  unfold matchList
  rw [linkTiers_eq, matchLoop_eq]
  simp only [List.nil_append, exactTier, startTier, substringTier, candidatesWith, List.enum]
  have hne := tokens_ne_nil text
  have e1 : ∀ p : Nat × List Nat, p ∈ List.enumFrom 0 items →
      ((tokens text).all (fun tok => fstrstr ci p.2 tok) &&
        ((tokens text).isEmpty || fstrncmp ci ((tokens text).headD []) p.2
          (((tokens text).headD []).length + 1))) =
      (passes ci (tokens text) p.2 && isExact ci (tokens text) p.2) := by
    intro p _
    rw [code_pass ci _ hne, code_exact]
  have e2 : ∀ p : Nat × List Nat, p ∈ List.enumFrom 0 items →
      ((tokens text).all (fun tok => fstrstr ci p.2 tok) &&
        (!((tokens text).isEmpty || fstrncmp ci ((tokens text).headD []) p.2
          (((tokens text).headD []).length + 1)) &&
          fstrncmp ci ((tokens text).headD []) p.2 ((tokens text).headD []).length)) =
      (passes ci (tokens text) p.2 &&
        (startsWith ci (tokens text) p.2 && !isExact ci (tokens text) p.2)) := by
    intro p _
    rw [code_pass ci _ hne, code_exact]
    cases he : isExact ci (tokens text) p.2
    · rw [code_start ci _ _ he]; simp
    · simp
  have e3 : ∀ p : Nat × List Nat, p ∈ List.enumFrom 0 items →
      ((tokens text).all (fun tok => fstrstr ci p.2 tok) &&
        (!((tokens text).isEmpty || fstrncmp ci ((tokens text).headD []) p.2
          (((tokens text).headD []).length + 1)) &&
          !fstrncmp ci ((tokens text).headD []) p.2 ((tokens text).headD []).length)) =
      (passes ci (tokens text) p.2 &&
        (!startsWith ci (tokens text) p.2 && !isExact ci (tokens text) p.2)) := by
    intro p _
    rw [code_pass ci _ hne, code_exact]
    cases he : isExact ci (tokens text) p.2
    · rw [code_start ci _ _ he]; simp
    · simp
  rw [List.filter_congr e1, List.filter_congr e2, List.filter_congr e3]

theorem mem_candidatesWith (items : List (List Nat)) (P : List Nat → Bool) (i : Nat) :
    i ∈ candidatesWith items P ↔ i < items.length ∧ P (items.getD i []) = true := by
  unfold candidatesWith
  simp only [List.mem_map, List.mem_filter, Prod.exists, exists_and_right, exists_eq_right]
  constructor
  · rintro ⟨t, ht, hP⟩
    rw [List.mk_mem_enum_iff_getElem?] at ht
    have hlt : i < items.length := by
      by_contra hc
      rw [List.getElem?_eq_none (by omega)] at ht
      exact absurd ht (by simp)
    refine ⟨hlt, ?_⟩
    rw [List.getD_eq_getElem?_getD, ht]
    exact hP
  · rintro ⟨hlt, hP⟩
    refine ⟨items[i], ?_, ?_⟩
    · rw [List.mk_mem_enum_iff_getElem?]
      exact List.getElem?_eq_getElem hlt
    · rw [List.getD_eq_getElem?_getD, List.getElem?_eq_getElem hlt] at hP
      exact hP

theorem candidatesWith_sublist (items : List (List Nat)) (P : List Nat → Bool) :
    (candidatesWith items P).Sublist (List.range items.length) := by
  unfold candidatesWith
  have h := (List.filter_sublist (p := fun p : Nat × List Nat => P p.2) items.enum).map Prod.fst
  rwa [List.enum_map_fst] at h

theorem matchList_mem (ci : Bool) (items : List (List Nat)) (text : List Nat) (i : Nat) :
    i ∈ matchList ci items text ↔
      i < items.length ∧ ∀ tok ∈ tokens text, Occurs ci tok (items.getD i []) := by
  rw [matchList_eq_tiers]
  simp only [List.mem_append, exactTier, startTier, substringTier, mem_candidatesWith]
  cases hp : passes ci (tokens text) (items.getD i []) <;>
    cases he : isExact ci (tokens text) (items.getD i []) <;>
    cases hs : startsWith ci (tokens text) (items.getD i []) <;>
    simp [passes] at hp ⊢ <;> first | exact hp | (intro _; exact hp)

theorem matchList_nodup (ci : Bool) (items : List (List Nat)) (text : List Nat) :
    (matchList ci items text).Nodup := by
  rw [matchList_eq_tiers]
  have nd : ∀ P, (candidatesWith items P).Nodup := fun P =>
    (List.nodup_range _).sublist (candidatesWith_sublist items P)
  rw [List.nodup_append, List.nodup_append]
  refine ⟨⟨nd _, nd _, ?_⟩, nd _, ?_⟩
  · intro i h1 h2
    simp only [exactTier, startTier, mem_candidatesWith] at h1 h2
    have a := h1.2; have b := h2.2
    simp at a b
    simp [a.2] at b
  · intro i h1 h2
    simp only [List.mem_append, exactTier, startTier, substringTier, mem_candidatesWith] at h1 h2
    have b := h2.2
    simp at b
    rcases h1 with h1 | h1
    · have a := h1.2; simp at a; simp [a.2] at b
    · have a := h1.2; simp at a; simp [a.2.1] at b


/-! ## Statements about match -/

theorem calcoffsets_mlist (cfg : Config) (s : State) : (calcoffsets cfg s).mlist = s.mlist := by
  unfold calcoffsets
  split <;> rfl

theorem match_mlist (cfg : Config) (s : State) :
    (match_ cfg s).mlist = matchList cfg.ci cfg.items (cstr s.text) := by
  unfold match_
  rw [calcoffsets_mlist]

/-- C1: after `match`, for either comparison mode, a candidate (an index `i` into
the store) is in the match list exactly when it is a candidate of the store and
every token that `match` cuts from the query is a substring of its text under
the comparison mode; and no candidate is listed twice. -/
theorem C1_match_members (cfg : Config) (s : State) :
    (∀ i, i ∈ (match_ cfg s).mlist ↔
      i < cfg.items.length ∧ ∀ tok ∈ tokens (cstr s.text), Occurs cfg.ci tok (itemText cfg i)) ∧
    (match_ cfg s).mlist.Nodup := by
  rw [match_mlist]
  exact ⟨fun i => matchList_mem cfg.ci cfg.items (cstr s.text) i,
    matchList_nodup cfg.ci cfg.items (cstr s.text)⟩

theorem matchList_nil (ci : Bool) (items : List (List Nat)) :
    matchList ci items [] = List.range items.length := by
  rw [matchList_eq_tiers]
  simp [tokens, strtok, exactTier, startTier, substringTier, candidatesWith, passes, isExact,
    startsWith, List.enum_map_fst]

/-- C2: the match list that `match` builds is the exact tier, then the tier of
the candidates that start with the first token without being exact, then the
rest of the candidates that pass the token filter, each tier in CandidateStore
order; the query "app" over apple, application, apply, banana lists the first
three in that order, and the empty query lists the whole store in order. -/
theorem C2_match_tiers :
    (∀ (cfg : Config) (s : State),
      (match_ cfg s).mlist =
        exactTier cfg.ci cfg.items (tokens (cstr s.text)) ++
          startTier cfg.ci cfg.items (tokens (cstr s.text)) ++
          substringTier cfg.ci cfg.items (tokens (cstr s.text))) ∧
    (∀ ci : Bool,
      (matchList ci [bytes "apple", bytes "application", bytes "apply", bytes "banana"]
          (bytes "app")).map
        (fun i => [bytes "apple", bytes "application", bytes "apply", bytes "banana"].getD i [])
        = [bytes "apple", bytes "application", bytes "apply"]) ∧
    (∀ (ci : Bool) (items : List (List Nat)), matchList ci items [] = List.range items.length) := by
  refine ⟨fun cfg s => ?_, fun ci => ?_, matchList_nil⟩
  · rw [match_mlist, matchList_eq_tiers]
  · cases ci <;> decide

/-! ## The array text and insert -/

theorem cstr_nul_free (t : List Nat) : ∀ b ∈ cstr t, b ≠ 0 := by
  intro b hb
  have := List.mem_takeWhile_imp hb
  simpa using this

theorem cstr_append_nul (a g : List Nat) (ha : ∀ b ∈ a, b ≠ 0) : cstr (a ++ 0 :: g) = a := by
  unfold cstr
  rw [List.takeWhile_append_of_pos]
  · simp
  · intro b hb; simpa using ha b hb

theorem cstr_decomp (t : List Nat) (h : strlen t < t.length) : ∃ g, t = cstr t ++ 0 :: g := by
  unfold strlen cstr at *
  induction t with
  | nil => simp at h
  | cons b t ih =>
    by_cases hb : b = 0
    · subst hb; exact ⟨t, by simp [List.takeWhile]⟩
    · have hb1 : (b != 0) = true := by simpa using hb
      simp only [List.takeWhile_cons, hb1, if_true, List.length_cons] at h ⊢
      obtain ⟨g, hg⟩ := ih (by omega)
      exact ⟨g, by rw [List.cons_append, ← hg]⟩

theorem strlen_le (t : List Nat) : strlen t ≤ t.length := by
  unfold strlen cstr
  exact (List.takeWhile_sublist _).length_le

theorem insert_ins (cfg : Config) (s : State) (str w g : List Nat) (k : Nat)
    (ht : s.text = w ++ 0 :: g) (hw : ∀ b ∈ w, b ≠ 0) (hc : s.cursor ≤ w.length)
    (hk : k ≤ str.length) (hk0 : 0 < k) (hfit : w.length + k < s.text.length)
    (hsz : s.text.length < 2 ^ 63) :
    ∃ g1, insert cfg s str (k : Int) =
        some (match_ cfg { s with
          text := w.take s.cursor ++ str.take k ++ w.drop s.cursor ++ 0 :: g1,
          cursor := s.cursor + k }) ∧
      (w.take s.cursor ++ str.take k ++ w.drop s.cursor ++ 0 :: g1).length = s.text.length := by
  have hlen : strlen s.text = w.length := by
    unfold strlen; rw [ht, cstr_append_nul w g hw]
  have hL : s.text.length = w.length + 1 + g.length := by rw [ht]; simp; omega
  refine ⟨g.take (s.text.length - w.length - k - 1), ?_, ?_⟩
  · unfold insert
    rw [hlen]
    have hguard : ¬ (((w.length : Int) + (k : Int)) % 2 ^ 64 > ((s.text.length : Int) - 1) % 2 ^ 64) := by
      omega
    rw [if_neg hguard]
    have hmm : memmove s.text ((s.cursor : Int) + (k : Int)) s.cursor
        ((s.text.length : Int) - s.cursor - max (k : Int) 0) =
        some (s.text.take (s.cursor + k) ++ (s.text.drop s.cursor).take (s.text.length - s.cursor - k)) := by
      unfold memmove
      have e1 : max (k : Int) 0 = k := by omega
      rw [e1, if_pos (by omega)]
      have e2 : ((s.cursor : Int) + k).toNat = s.cursor + k := by omega
      have e3 : ((s.text.length : Int) - s.cursor - k).toNat = s.text.length - s.cursor - k := by omega
      have e4 : ((s.cursor : Int) + k + ((s.text.length : Int) - s.cursor - k)).toNat = s.text.length := by omega
      have e5 : ((s.cursor : Int)).toNat = s.cursor := by omega
      rw [e2, e3, e4, e5, List.drop_length, List.append_nil]
    rw [hmm]
    simp only []
    have hk1 : ((k : Int) > 0) := by omega
    rw [if_pos hk1]
    unfold memcpy
    rw [if_pos (by simp; omega)]
    simp only []
    have e2 : ((s.cursor : Int) + k).toNat = s.cursor + k := by omega
    have e5 : ((s.cursor : Int)).toNat = s.cursor := by omega
    have e6 : ((k : Int)).toNat = k := by omega
    have e7 : (((s.cursor : Int) + k) % 2 ^ 64).toNat = s.cursor + k := by omega
    rw [e2, e5, e6, e7]
    congr 3
    rw [ht]
    have a1 : List.take s.cursor (List.take (s.cursor + k) (w ++ 0 :: g) ++
        List.take ((w ++ 0 :: g).length - s.cursor - k) (List.drop s.cursor (w ++ 0 :: g))) = w.take s.cursor := by
      rw [List.take_append_of_le_length (by simp; omega), List.take_take,
        List.take_append_of_le_length (by omega)]
      congr 1; omega
    have a2 : List.drop (s.cursor + k) (List.take (s.cursor + k) (w ++ 0 :: g) ++
        List.take ((w ++ 0 :: g).length - s.cursor - k) (List.drop s.cursor (w ++ 0 :: g))) =
        w.drop s.cursor ++ 0 :: g.take ((w ++ 0 :: g).length - w.length - k - 1) := by
      rw [List.drop_append_of_le_length (by simp; omega)]
      rw [List.drop_eq_nil_of_le (by simp), List.nil_append, List.drop_append_of_le_length hc]
      rw [List.take_append_eq_append_take]
      rw [List.take_of_length_le (by simp; omega)]
      congr 1
      have : (w ++ 0 :: g).length - s.cursor - k - (List.drop s.cursor w).length =
          ((w ++ 0 :: g).length - w.length - k - 1) + 1 := by
        simp; omega
      rw [this, List.take_succ_cons]
    rw [a1, a2]
    simp [List.append_assoc]
  · simp
    omega

theorem insert_del (cfg : Config) (s : State) (str w g : List Nat) (k : Nat)
    (ht : s.text = w ++ 0 :: g) (hw : ∀ b ∈ w, b ≠ 0) (hc : s.cursor ≤ w.length)
    (hk : k ≤ s.cursor) (hsz : s.text.length < 2 ^ 63) :
    ∃ g1, insert cfg s str (-(k : Int)) =
        some (match_ cfg { s with
          text := w.take (s.cursor - k) ++ w.drop s.cursor ++ 0 :: g1,
          cursor := s.cursor - k }) ∧
      (w.take (s.cursor - k) ++ w.drop s.cursor ++ 0 :: g1).length = s.text.length := by
  have hlen : strlen s.text = w.length := by
    unfold strlen; rw [ht, cstr_append_nul w g hw]
  have hL : s.text.length = w.length + 1 + g.length := by rw [ht]; simp; omega
  refine ⟨g ++ s.text.drop (s.text.length - k), ?_, ?_⟩
  · unfold insert
    rw [hlen]
    have hguard : ¬ (((w.length : Int) + -(k : Int)) % 2 ^ 64 > ((s.text.length : Int) - 1) % 2 ^ 64) := by
      omega
    rw [if_neg hguard]
    have hmm : memmove s.text ((s.cursor : Int) + -(k : Int)) s.cursor
        ((s.text.length : Int) - s.cursor - max (-(k : Int)) 0) =
        some (s.text.take (s.cursor - k) ++ (s.text.drop s.cursor) ++
          s.text.drop (s.text.length - k)) := by
      unfold memmove
      have e1 : max (-(k : Int)) 0 = 0 := by omega
      rw [e1, if_pos (by omega)]
      have e2 : ((s.cursor : Int) + -(k : Int)).toNat = s.cursor - k := by omega
      have e3 : ((s.text.length : Int) - s.cursor - 0).toNat = s.text.length - s.cursor := by omega
      have e4 : ((s.cursor : Int) + -(k : Int) + ((s.text.length : Int) - s.cursor - 0)).toNat =
          s.text.length - k := by omega
      have e5 : ((s.cursor : Int)).toNat = s.cursor := by omega
      rw [e2, e3, e4, e5]
      have e6 : (s.text.drop s.cursor).take (s.text.length - s.cursor) = s.text.drop s.cursor :=
        List.take_of_length_le (by simp)
      rw [e6]
    rw [hmm]
    simp only []
    have hk1 : ¬ (-(k : Int) > 0) := by omega
    rw [if_neg hk1]
    simp only []
    have e7 : (((s.cursor : Int) + -(k : Int)) % 2 ^ 64).toNat = s.cursor - k := by omega
    rw [e7]
    congr 3
    have a1 : s.text.take (s.cursor - k) = w.take (s.cursor - k) := by
      rw [ht, List.take_append_of_le_length (by omega)]
    have a2 : s.text.drop s.cursor = w.drop s.cursor ++ 0 :: g := by
      rw [ht, List.drop_append_of_le_length hc]
    rw [a1, a2]
    simp [List.append_assoc]
  · simp
    omega


/-! ## nextrune -/

theorem runeUp_some (rest : List Nat) (n r : Nat) (h : runeUp rest n = some r) :
    n ≤ r ∧ r < n + rest.length ∧ isCont (rest.getD (r - n) 0) = false ∧
      ∀ j, j < r - n → isCont (rest.getD j 0) = true := by
  induction rest generalizing n with
  | nil => simp [runeUp] at h
  | cons b rest ih =>
    unfold runeUp at h
    split at h
    · rename_i hb
      obtain ⟨h1, h2, h3, h4⟩ := ih (n + 1) h
      refine ⟨by omega, by simp; omega, ?_, ?_⟩
      · have : r - n = (r - (n + 1)) + 1 := by omega
        rw [this]; simpa using h3
      · intro j hj
        cases j with
        | zero => simpa using hb
        | succ j =>
          have := h4 j (by omega)
          simpa using this
    · rename_i hb
      simp at h; subst h
      refine ⟨le_refl _, by simp, ?_, ?_⟩
      · simpa using hb
      · intro j hj; omega

theorem runeUp_defined (rest : List Nat) (n j : Nat) (hj : j < rest.length)
    (hnc : isCont (rest.getD j 0) = false) : ∃ r, runeUp rest n = some r ∧ r ≤ n + j := by
  induction rest generalizing n j with
  | nil => simp at hj
  | cons b rest ih =>
    unfold runeUp
    by_cases hb : isCont b = true
    · rw [if_pos hb]
      cases j with
      | zero => simp [hb] at hnc
      | succ j =>
        obtain ⟨r, hr, hle⟩ := ih (n + 1) j (by simpa using hj) (by simpa using hnc)
        exact ⟨r, hr, by omega⟩
    · rw [if_neg hb]
      exact ⟨n, rfl, by omega⟩

theorem runeDown_back (text : List Nat) (c m : Nat) (hm : m < text.length) (hcm : c ≤ m)
    (hb : c = 0 ∨ isCont (text.getD c 0) = false)
    (hmid : ∀ j, c < j → j ≤ m → isCont (text.getD j 0) = true) :
    runeDown text m = some c := by
  induction m with
  | zero =>
    have : c = 0 := by omega
    subst this; rfl
  | succ m ih =>
    unfold runeDown
    rw [List.getElem?_eq_getElem hm]
    simp only []
    by_cases hc : c = m + 1
    · subst hc
      rcases hb with hb | hb
      · omega
      · rw [List.getD_eq_getElem?_getD, List.getElem?_eq_getElem hm] at hb
        simp only [Option.getD_some] at hb
        rw [if_neg (by simp [hb])]
    · have h1 := hmid (m + 1) (by omega) (le_refl _)
      rw [List.getD_eq_getElem?_getD, List.getElem?_eq_getElem hm] at h1
      simp only [Option.getD_some] at h1
      rw [if_pos h1]
      exact ih (by omega) (by omega) (fun j h1 h2 => hmid j h1 (by omega))

theorem runeDown_some (text : List Nat) (m : Nat) (hm : m < text.length) :
    ∃ r, runeDown text m = some r ∧ r ≤ m ∧ (r = 0 ∨ isCont (text.getD r 0) = false) := by
  induction m with
  | zero => exact ⟨0, rfl, le_refl _, Or.inl rfl⟩
  | succ m ih =>
    unfold runeDown
    rw [List.getElem?_eq_getElem hm]
    simp only []
    by_cases hc : isCont text[m + 1] = true
    · rw [if_pos hc]
      obtain ⟨r, hr, hle, hb⟩ := ih (by omega)
      exact ⟨r, hr, by omega, hb⟩
    · rw [if_neg hc]
      refine ⟨m + 1, rfl, le_refl _, Or.inr ?_⟩
      rw [List.getD_eq_getElem?_getD, List.getElem?_eq_getElem hm]
      simpa using hc

theorem nextrune_roundtrip (text : List Nat) (c n : Nat)
    (hb : c = 0 ∨ isCont (text.getD c 0) = false) (h : nextrune text c 1 = some n) :
    nextrune text n (-1) = some c := by
  unfold nextrune at h
  rw [if_pos rfl] at h
  obtain ⟨h1, h2, _, h4⟩ := runeUp_some _ _ _ h
  simp only [List.length_drop] at h2
  unfold nextrune
  rw [if_neg (by decide), if_neg (by omega)]
  apply runeDown_back text c (n - 1) (by omega) (by omega) hb
  intro j hj1 hj2
  have := h4 (j - (c + 1)) (by omega)
  rw [List.getD_eq_getElem?_getD, List.getElem?_drop] at this
  rw [List.getD_eq_getElem?_getD]
  have e : c + 1 + (j - (c + 1)) = j := by omega
  rw [e] at this
  exact this

theorem isCont_zero : isCont 0 = false := by decide

theorem getD_strlen (text : List Nat) : text.getD (strlen text) 0 = 0 := by
  unfold strlen cstr
  induction text with
  | nil => rfl
  | cons b t ih =>
    by_cases hb : b = 0
    · subst hb; simp [List.takeWhile]
    · have hb1 : (b != 0) = true := by simpa using hb
      simp only [List.takeWhile_cons, hb1, if_true, List.length_cons]
      simpa using ih

theorem nextrune_up_defined (text : List Nat) (c : Nat) (hterm : strlen text < text.length)
    (hc : c < strlen text) : ∃ n, nextrune text c 1 = some n ∧ c < n ∧ n ≤ strlen text := by
  unfold nextrune
  rw [if_pos rfl]
  obtain ⟨r, hr, hle⟩ := runeUp_defined (text.drop (c + 1)) (c + 1) (strlen text - (c + 1))
    (by simp; omega)
    (by
      rw [List.getD_eq_getElem?_getD, List.getElem?_drop]
      have e : c + 1 + (strlen text - (c + 1)) = strlen text := by omega
      rw [e, ← List.getD_eq_getElem?_getD, getD_strlen, isCont_zero])
  have := (runeUp_some _ _ _ hr).1
  exact ⟨r, hr, by omega, by omega⟩


/-! ## Accept and cancel -/

@[simp] theorem calcoffsets_text (cfg : Config) (s : State) : (calcoffsets cfg s).text = s.text := by
  unfold calcoffsets; split <;> rfl
@[simp] theorem calcoffsets_cursor (cfg : Config) (s : State) :
    (calcoffsets cfg s).cursor = s.cursor := by
  unfold calcoffsets; split <;> rfl
@[simp] theorem calcoffsets_running (cfg : Config) (s : State) :
    (calcoffsets cfg s).running = s.running := by
  unfold calcoffsets; split <;> rfl
@[simp] theorem calcoffsets_ret (cfg : Config) (s : State) : (calcoffsets cfg s).ret = s.ret := by
  unfold calcoffsets; split <;> rfl
@[simp] theorem calcoffsets_out (cfg : Config) (s : State) : (calcoffsets cfg s).out = s.out := by
  unfold calcoffsets; split <;> rfl
@[simp] theorem calcoffsets_sel (cfg : Config) (s : State) : (calcoffsets cfg s).sel = s.sel := by
  unfold calcoffsets; split <;> rfl
@[simp] theorem calcoffsets_curr (cfg : Config) (s : State) : (calcoffsets cfg s).curr = s.curr := by
  unfold calcoffsets; split <;> rfl

theorem kDown_frame (cfg : Config) (s : State) :
    (kDown cfg s).running = s.running ∧ (kDown cfg s).ret = s.ret ∧ (kDown cfg s).out = s.out ∧
      (kDown cfg s).text = s.text ∧ (kDown cfg s).cursor = s.cursor ∧
      (kDown cfg s).mlist = s.mlist := by
  unfold kDown
  split
  · simp
  · split
    · simp
    · split <;> simp [calcoffsets_mlist]

theorem kHome_frame (cfg : Config) (s : State) :
    (kHome cfg s).running = s.running ∧ (kHome cfg s).ret = s.ret ∧ (kHome cfg s).out = s.out ∧
      (kHome cfg s).text = s.text ∧ (kHome cfg s).mlist = s.mlist := by
  unfold kHome
  split <;> simp [calcoffsets_mlist]

theorem text_at_cursor (s : State) (hterm : strlen s.text < s.text.length)
    (hcur : s.cursor ≤ strlen s.text) :
    ∃ b, s.text[s.cursor]? = some b ∧ (b ≠ 0 → s.cursor < strlen s.text) := by
  have hlt : s.cursor < s.text.length := by omega
  refine ⟨s.text[s.cursor], List.getElem?_eq_getElem hlt, ?_⟩
  intro hb
  by_contra hc
  have e : s.cursor = strlen s.text := by omega
  have h0 := getD_strlen s.text
  rw [← e, List.getD_eq_getElem?_getD, List.getElem?_eq_getElem hlt] at h0
  exact hb (by simpa using h0)

theorem kRight_defined (cfg : Config) (s : State) (hterm : strlen s.text < s.text.length)
    (hcur : s.cursor ≤ strlen s.text) :
    ∃ s1, kRight cfg s = some s1 ∧ s1.running = s.running ∧ s1.ret = s.ret ∧ s1.out = s.out := by
  obtain ⟨b, hb, hlt⟩ := text_at_cursor s hterm hcur
  unfold kRight
  rw [hb]
  simp only []
  by_cases hb0 : b = 0
  · rw [if_neg (by simpa using hb0)]
    split
    · exact ⟨s, rfl, rfl, rfl, rfl⟩
    · have := kDown_frame cfg s
      exact ⟨kDown cfg s, rfl, this.1, this.2.1, this.2.2.1⟩
  · rw [if_pos hb0]
    obtain ⟨n, hn, _⟩ := nextrune_up_defined s.text s.cursor hterm (hlt hb0)
    rw [hn]
    exact ⟨_, rfl, rfl, rfl, rfl⟩

theorem run_stopped (cfg : Config) (s : State) (h : s.running = false) (evs : List Event) :
    run cfg s evs = some s := by
  cases evs with
  | nil => rfl
  | cons e evs => simp [run, h]

theorem keypress_accept (cfg : Config) (s : State) (ev : XKeyEvent) (hacc : isAccept ev = true) :
    keypress cfg s ev =
      kRight cfg { s with out := s.out ++ [outLine cfg s ev], ret := EXIT_SUCCESS,
                          running := false } := by
  obtain ⟨ksym, overflow, control, mod1, shift, buf, len⟩ := ev
  cases overflow <;> cases control <;> cases mod1 <;> cases ksym <;>
    simp [isAccept] at hacc <;> simp [keypress, controlSwitch, mainSwitch, outLine]

theorem keypress_cancel (cfg : Config) (s : State) (ev : XKeyEvent) (hc : isCancel ev = true) :
    keypress cfg s ev = some (kHome cfg { s with ret := EXIT_FAILURE, running := false }) := by
  obtain ⟨ksym, overflow, control, mod1, shift, buf, len⟩ := ev
  cases overflow <;> cases control <;> cases mod1 <;> cases ksym <;>
    simp [isCancel] at hc <;> simp [keypress, controlSwitch, mainSwitch]

/-- C9: for a running state whose array holds a string with the cursor inside
it, the accept command returns, stops the session (`running` is false, so `run`
handles no further event) with `EXIT_SUCCESS`, and passes exactly one string to
`puts`: the text of the selected candidate when there is one and Shift is not
held, the typed text when nothing is selected, and the typed text whenever
Shift is held (accept-alternate). -/
theorem C9_accept (cfg : Config) (s : State) (ev : XKeyEvent) (hrun : s.running = true)
    (hterm : strlen s.text < s.text.length) (hcur : s.cursor ≤ strlen s.text)
    (hacc : isAccept ev = true) :
    ∃ s1, (∀ evs, run cfg s (Event.key ev :: evs) = some s1) ∧ s1.running = false ∧
      s1.ret = EXIT_SUCCESS ∧
      (∀ p, s.sel = some p → ev.shift = false → s1.out = s.out ++ [nodeText cfg s.mlist p]) ∧
      (s.sel = none → s1.out = s.out ++ [cstr s.text]) ∧
      (ev.shift = true → s1.out = s.out ++ [cstr s.text]) := by
  obtain ⟨s1, h1, hr, hret, hout⟩ := kRight_defined cfg
    { s with out := s.out ++ [outLine cfg s ev], ret := EXIT_SUCCESS, running := false }
    hterm hcur
  refine ⟨s1, ?_, hr, hret, ?_, ?_, ?_⟩
  · intro evs
    simp only [run, hrun, if_true, handle]
    rw [keypress_accept cfg s ev hacc, h1]
    exact run_stopped cfg s1 hr evs
  · intro p hp hs
    rw [hout]; simp [outLine, hp, hs]
  · intro hp
    rw [hout]; simp [outLine, hp]
  · intro hs
    rw [hout]; cases hsel : s.sel <;> simp [outLine, hsel, hs]

/-- C10: for every running state, whatever the text and the selection, the
cancel command returns, stops the session with `EXIT_FAILURE` and passes
nothing to `puts`. -/
theorem C10_cancel (cfg : Config) (s : State) (ev : XKeyEvent) (hrun : s.running = true)
    (hc : isCancel ev = true) :
    ∃ s1, (∀ evs, run cfg s (Event.key ev :: evs) = some s1) ∧ s1.running = false ∧
      s1.ret = EXIT_FAILURE ∧ s1.out = s.out := by
  have hf := kHome_frame cfg { s with ret := EXIT_FAILURE, running := false }
  refine ⟨kHome cfg { s with ret := EXIT_FAILURE, running := false }, ?_, hf.1, hf.2.1, hf.2.2.1⟩
  intro evs
  simp only [run, hrun, if_true, handle]
  rw [keypress_cancel cfg s ev hc]
  exact run_stopped cfg _ hf.1 evs


/-! ## Statements about insert and nextrune -/

theorem C9_accept_witness :
    ∃ s1, (∀ evs, run demoCfg (init demoCfg) (Event.key (plainKey .XK_Return) :: evs) = some s1) ∧
      s1.running = false ∧ s1.ret = EXIT_SUCCESS ∧
      (∀ p, (init demoCfg).sel = some p → (plainKey .XK_Return).shift = false →
        s1.out = (init demoCfg).out ++ [nodeText demoCfg (init demoCfg).mlist p]) ∧
      ((init demoCfg).sel = none → s1.out = (init demoCfg).out ++ [cstr (init demoCfg).text]) ∧
      ((plainKey .XK_Return).shift = true →
        s1.out = (init demoCfg).out ++ [cstr (init demoCfg).text]) :=
  C9_accept demoCfg (init demoCfg) (plainKey .XK_Return) (by decide) (by decide) (by decide)
    (by decide)

theorem C10_cancel_witness :
    ∃ s1, (∀ evs, run demoCfg demoState (Event.key (plainKey .XK_Escape) :: evs) = some s1) ∧
      s1.running = false ∧ s1.ret = EXIT_FAILURE ∧ s1.out = demoState.out :=
  C10_cancel demoCfg demoState (plainKey .XK_Escape) (by decide) (by decide)

/-- C8: an insertion of `n > 0` bytes that would make the string longer than
`sizeof text - 1` returns at once: the state (text, cursor, match list, anchor,
selection, exit status, output) is the one before the call. -/
theorem C8_insert_full (cfg : Config) (s : State) (str : List Nat) (n : Int) (hn : 0 < n)
    (hn2 : n < 2 ^ 63) (hlen : 0 < s.text.length) (hsz : s.text.length < 2 ^ 63)
    (hover : (strlen s.text : Int) + n > (s.text.length : Int) - 1) :
    insert cfg s str n = some s := by
  unfold insert
  have h := strlen_le s.text
  rw [if_pos (by omega)]

theorem C8_insert_full_witness :
    (0 : Int) < 1 ∧ (strlen fullState.text : Int) + 1 > (fullState.text.length : Int) - 1 ∧
      insert demoCfg fullState [98] 1 = some fullState :=
  ⟨by decide, by decide,
    C8_insert_full demoCfg fullState [98] 1 (by decide) (by decide) (by decide) (by decide)
      (by decide)⟩

@[simp] theorem match_text (cfg : Config) (s : State) : (match_ cfg s).text = s.text := by
  unfold match_; simp
@[simp] theorem match_cursor (cfg : Config) (s : State) : (match_ cfg s).cursor = s.cursor := by
  unfold match_; simp

/-- C7: in a state whose array holds a string (of fewer than 2^63 bytes) with
the cursor inside it, `insert(str, k)` with `k > 0` bytes of text (no NUL among
them) that fit puts them at the cursor and moves the cursor right by `k`;
`insert(str, -k)` with `0 < k <= cursor` removes the `k` bytes left of the
cursor and moves the cursor left by `k`.  In both cases the new state is the
one `match` computes for the new text, so its match list is that of the new
text. -/
theorem C7_insert (cfg : Config) (s : State) (str : List Nat) (k : Nat) (hk : 0 < k)
    (hterm : strlen s.text < s.text.length) (hsz : s.text.length < 2 ^ 63)
    (hcur : s.cursor ≤ strlen s.text) :
    (k ≤ str.length → (∀ b ∈ str.take k, b ≠ 0) → strlen s.text + k ≤ s.text.length - 1 →
      ∃ s1, insert cfg s str (k : Int) = some s1 ∧
        cstr s1.text = (cstr s.text).take s.cursor ++ str.take k ++ (cstr s.text).drop s.cursor ∧
        s1.cursor = s.cursor + k ∧
        s1 = match_ cfg { s with text := s1.text, cursor := s1.cursor } ∧
        s1.mlist = matchList cfg.ci cfg.items (cstr s1.text)) ∧
    (k ≤ s.cursor →
      ∃ s1, insert cfg s str (-(k : Int)) = some s1 ∧
        cstr s1.text = (cstr s.text).take (s.cursor - k) ++ (cstr s.text).drop s.cursor ∧
        s1.cursor = s.cursor - k ∧
        s1 = match_ cfg { s with text := s1.text, cursor := s1.cursor } ∧
        s1.mlist = matchList cfg.ci cfg.items (cstr s1.text)) := by
  obtain ⟨g, hg⟩ := cstr_decomp s.text hterm
  have hw := cstr_nul_free s.text
  have hc : s.cursor ≤ (cstr s.text).length := hcur
  constructor
  · intro hkl hnul hfit
    obtain ⟨g1, h1, _⟩ := insert_ins cfg s str (cstr s.text) g k hg hw hc hkl hk
      (by unfold strlen at hfit; omega) hsz
    refine ⟨_, h1, ?_, ?_, ?_, ?_⟩
    · rw [match_text]
      apply cstr_append_nul
      intro b hb
      simp only [List.mem_append] at hb
      rcases hb with (hb | hb) | hb
      · exact hw b (List.mem_of_mem_take hb)
      · exact hnul b hb
      · exact hw b (List.mem_of_mem_drop hb)
    · rw [match_cursor]
    · simp
    · rw [match_mlist, match_text]
  · intro hkc
    obtain ⟨g1, h1, _⟩ := insert_del cfg s str (cstr s.text) g k hg hw hc hkc hsz
    refine ⟨_, h1, ?_, ?_, ?_, ?_⟩
    · rw [match_text]
      apply cstr_append_nul
      intro b hb
      simp only [List.mem_append] at hb
      rcases hb with hb | hb
      · exact hw b (List.mem_of_mem_take hb)
      · exact hw b (List.mem_of_mem_drop hb)
    · rw [match_cursor]
    · simp
    · rw [match_mlist, match_text]

theorem C7_insert_witness :
    (∃ s1, insert demoCfg demoState [112, 112] ((2 : Nat) : Int) = some s1 ∧
        cstr s1.text = (cstr demoState.text).take demoState.cursor ++ [112, 112].take 2 ++
          (cstr demoState.text).drop demoState.cursor ∧
        s1.cursor = demoState.cursor + 2 ∧
        s1 = match_ demoCfg { demoState with text := s1.text, cursor := s1.cursor } ∧
        s1.mlist = matchList demoCfg.ci demoCfg.items (cstr s1.text)) ∧
    (∃ s1, insert demoCfg demoState [112, 112] (-((1 : Nat) : Int)) = some s1 ∧
        cstr s1.text = (cstr demoState.text).take (demoState.cursor - 1) ++
          (cstr demoState.text).drop demoState.cursor ∧
        s1.cursor = demoState.cursor - 1 ∧
        s1 = match_ demoCfg { demoState with text := s1.text, cursor := s1.cursor } ∧
        s1.mlist = matchList demoCfg.ci demoCfg.items (cstr s1.text)) :=
  ⟨(C7_insert demoCfg demoState [112, 112] 2 (by decide) (by decide) (by decide) (by decide)).1
      (by decide) (by decide) (by decide),
    (C7_insert demoCfg demoState [112, 112] 1 (by decide) (by decide) (by decide) (by decide)).2
      (by decide)⟩

/-- C5 (amended): for every array `text` and every cursor `c` on a rune boundary
(`c = 0` or `text[c]` is not a continuation byte): when the array holds a
string and `c` is before its end, `nextrune(+1)` returns an offset `n` with
`c < n <= strlen(text)` and `nextrune(-1)` evaluated at `n` returns `c`; and in
any case, the cursor at the end of the string included, whenever the scan of
`nextrune(+1)` stays inside the array and returns `n`, `nextrune(-1)` evaluated
at `n` returns `c`. -/
theorem C5_nextrune_roundtrip (text : List Nat) (c : Nat)
    (hb : c = 0 ∨ isCont (text.getD c 0) = false) :
    (strlen text < text.length → c < strlen text →
      ∃ n, nextrune text c 1 = some n ∧ c < n ∧ n ≤ strlen text ∧
        nextrune text n (-1) = some c) ∧
    (∀ n, nextrune text c 1 = some n → nextrune text n (-1) = some c) := by
  constructor
  · intro hterm hc
    obtain ⟨n, hn, h1, h2⟩ := nextrune_up_defined text c hterm hc
    exact ⟨n, hn, h1, h2, nextrune_roundtrip text c n hb hn⟩
  · intro n hn
    exact nextrune_roundtrip text c n hb hn

theorem C5_nextrune_roundtrip_witness :
    (∃ n, nextrune demoState.text 1 1 = some n ∧ 1 < n ∧ n ≤ strlen demoState.text ∧
        nextrune demoState.text n (-1) = some 1) ∧
    (∀ n, nextrune demoState.text 1 1 = some n → nextrune demoState.text n (-1) = some 1) :=
  ⟨(C5_nextrune_roundtrip demoState.text 1 (by decide)).1 (by decide) (by decide),
    (C5_nextrune_roundtrip demoState.text 1 (by decide)).2⟩

theorem full_array (N : Nat) :
    strlen (List.replicate N 97 ++ [0]) = N ∧ (List.replicate N 97 ++ [0]).length = N + 1 ∧
      isCont ((List.replicate N 97 ++ [0]).getD N 0) = false ∧
      nextrune (List.replicate N 97 ++ [0]) N 1 = none := by
  have hl : (List.replicate N 97 ++ [0]).length = N + 1 := by
    rw [List.length_append, List.length_replicate, List.length_singleton]
  refine ⟨?_, hl, ?_, ?_⟩
  · unfold strlen
    rw [cstr_append_nul _ [] (by intro b hb; rw [List.eq_of_mem_replicate hb]; decide),
      List.length_replicate]
  · rw [List.getD_eq_getElem?_getD, List.getElem?_append_right (by rw [List.length_replicate]),
      List.length_replicate, Nat.sub_self]
    exact isCont_zero
  · unfold nextrune
    rw [if_pos rfl, List.drop_eq_nil_of_le (by rw [hl])]
    rfl

/-- C5 as stated fails: with `BUFSIZ = 8192` and a text of 8191 bytes `a`, the
cursor 8191 is a rune boundary with `cursor = strlen(text)`, and `nextrune(+1)`
has no value there: its first test reads `text[8192]`, outside the array. -/
theorem C5_counterexample :
    strlen (List.replicate 8191 97 ++ [0]) = 8191 ∧
      (List.replicate 8191 97 ++ [0]).length = 8192 ∧
      isCont ((List.replicate 8191 97 ++ [0]).getD 8191 0) = false ∧
      nextrune (List.replicate 8191 97 ++ [0]) 8191 1 = none :=
  full_array 8191


/-! ## The two loops of calcoffsets -/

theorem wsum_cons (cfg : Config) (it : Nat) (l : List Nat) :
    wsum cfg (it :: l) = itemw cfg it + wsum cfg l := by
  simp [wsum]

theorem wsum_nil (cfg : Config) : wsum cfg [] = 0 := rfl

theorem toInt_eq (x : Int) (h0 : -2 ^ 31 ≤ x) (h1 : x < 2 ^ 31) : toInt x = x := by
  unfold toInt
  split <;> omega

theorem noWrap_budget (cfg : Config) (hf : NoWrap cfg) : 0 ≤ budget cfg :=
  le_trans (hf.2.1 0) (hf.1 0)

theorem noWrap_step (cfg : Config) (hf : NoWrap cfg) (i : Int) (it : Nat) (hi0 : 0 ≤ i)
    (hib : i ≤ budget cfg) : toInt (i + itemw cfg it) = i + itemw cfg it := by
  have h1 := hf.2.1 it
  have h2 := hf.2.2 it
  exact toInt_eq _ (by omega) (by omega)

theorem nextLoop_cons (cfg : Config) (hf : NoWrap cfg) (it : Nat) (rest : List Nat) (p : Nat)
    (i : Int) (hi0 : 0 ≤ i) (hib : i ≤ budget cfg) :
    nextLoop cfg (it :: rest) p i =
      if i + itemw cfg it > budget cfg then some p
      else nextLoop cfg rest (p + 1) (i + itemw cfg it) := by
  rw [nextLoop, noWrap_step cfg hf i it hi0 hib]

theorem nextLoop_some (cfg : Config) (hf : NoWrap cfg) (rest : List Nat) (p : Nat) (i : Int)
    (q : Nat) (hi0 : 0 ≤ i) (hib : i ≤ budget cfg) (h : nextLoop cfg rest p i = some q) :
    p ≤ q ∧ q - p < rest.length ∧
      (∀ m, 1 ≤ m → m ≤ q - p → i + wsum cfg (rest.take m) ≤ budget cfg) ∧
      i + wsum cfg (rest.take (q - p + 1)) > budget cfg := by
  induction rest generalizing p i with
  | nil => simp [nextLoop] at h
  | cons it rest ih =>
    rw [nextLoop_cons cfg hf it rest p i hi0 hib] at h
    have hw := hf.2.1 it
    split at h
    · rename_i hgt
      simp at h; subst h
      refine ⟨le_refl _, by simp, ?_, ?_⟩
      · intro m h1 h2; omega
      · simp [wsum_cons, wsum_nil]; omega
    · rename_i hle
      obtain ⟨h1, h2, h3, h4⟩ := ih (p + 1) (i + itemw cfg it) (by omega) (by omega) h
      refine ⟨by omega, by simp; omega, ?_, ?_⟩
      · intro m hm1 hm2
        cases m with
        | zero => omega
        | succ m =>
          rw [List.take_succ_cons, wsum_cons]
          cases m with
          | zero => simp [wsum_nil]; omega
          | succ m =>
            have := h3 (m + 1) (by omega) (by omega)
            omega
      · have e : q - p + 1 = (q - (p + 1) + 1) + 1 := by omega
        rw [e, List.take_succ_cons, wsum_cons]
        omega

theorem nextLoop_none (cfg : Config) (hf : NoWrap cfg) (rest : List Nat) (p : Nat) (i : Int)
    (hi0 : 0 ≤ i) (hib : i ≤ budget cfg) (h : nextLoop cfg rest p i = none) :
    ∀ m, 1 ≤ m → m ≤ rest.length → i + wsum cfg (rest.take m) ≤ budget cfg := by
  induction rest generalizing p i with
  | nil => intro m h1 h2; simp at h2; omega
  | cons it rest ih =>
    rw [nextLoop_cons cfg hf it rest p i hi0 hib] at h
    have hw := hf.2.1 it
    split at h
    · simp at h
    · rename_i hle
      intro m hm1 hm2
      cases m with
      | zero => omega
      | succ m =>
        rw [List.take_succ_cons, wsum_cons]
        cases m with
        | zero => simp [wsum_nil]; omega
        | succ m =>
          have := ih (p + 1) (i + itemw cfg it) (by omega) (by omega) h (m + 1) (by omega)
            (by simpa using hm2)
          omega

theorem nextLoop_fit (cfg : Config) (hf : NoWrap cfg) (rest : List Nat) (p : Nat) (i : Int)
    (hi0 : 0 ≤ i) (hib : i ≤ budget cfg)
    (h : ∀ m, 1 ≤ m → m ≤ rest.length → i + wsum cfg (rest.take m) ≤ budget cfg) :
    nextLoop cfg rest p i = none := by
  induction rest generalizing p i with
  | nil => rfl
  | cons it rest ih =>
    rw [nextLoop_cons cfg hf it rest p i hi0 hib]
    have hw := hf.2.1 it
    have h1 := h 1 (le_refl _) (by simp)
    simp only [List.take_succ_cons, List.take_zero, wsum_cons, wsum_nil, add_zero] at h1
    rw [if_neg (by linarith)]
    apply ih _ _ (by omega) h1
    intro m hm1 hm2
    have := h (m + 1) (by omega) (by simp; omega)
    simp only [List.take_succ_cons, wsum_cons] at this
    linarith

theorem prevLoop_le (cfg : Config) (lefts : List Nat) (p : Nat) (i : Int) :
    prevLoop cfg lefts p i ≤ p := by
  induction lefts generalizing p i with
  | nil => exact le_refl _
  | cons it lefts ih =>
    unfold prevLoop
    split
    · exact le_refl _
    · exact le_trans (ih (p - 1) _) (Nat.sub_le _ _)

theorem wsum_take_one (cfg : Config) (hfit : NoWrap cfg) (l : List Nat) :
    wsum cfg (l.take 1) ≤ budget cfg ∨ l = [] := by
  cases l with
  | nil => right; rfl
  | cons it l => left; simp [wsum_cons, wsum_nil]; exact hfit.1 it

theorem nextOf_gt (cfg : Config) (hfit : NoWrap cfg) (ml : List Nat)
    (c q : Nat) (h : nextOf cfg ml c = some q) : c < q ∧ q < ml.length := by
  unfold nextOf at h
  obtain ⟨h1, h2, _, h4⟩ := nextLoop_some cfg hfit _ _ _ _ (le_refl _) (noWrap_budget cfg hfit) h
  simp only [List.length_drop] at h2
  refine ⟨?_, by omega⟩
  by_contra hc
  have e : q = c := by omega
  subst e
  simp only [Nat.sub_self, Nat.zero_add] at h4
  rcases wsum_take_one cfg hfit (ml.drop q) with h5 | h5
  · omega
  · have := congrArg List.length h5
    simp at this
    omega

theorem prevOf_le (cfg : Config) (ml : List Nat) (c : Nat) :
    prevOf cfg ml c ≤ c := by
  unfold prevOf
  exact prevLoop_le cfg _ c 0

theorem bounded_budget (cfg : Config) (hb : cfg.Bounded) :
    budget cfg = (if cfg.lines > 0 then (cfg.lines : Int) * cfg.bh
      else cfg.mw - (cfg.inputw + cfg.textw [60] + cfg.textw [62])) ∧ 0 ≤ budget cfg := by
  unfold Config.Bounded at hb
  unfold budget
  by_cases hl : cfg.lines > 0
  · rw [if_pos hl] at hb
    rw [if_pos hl, if_pos hl]
    obtain ⟨h0, h1⟩ := hb
    have h2 : (0 : Int) ≤ (cfg.lines : Int) * cfg.bh := mul_nonneg (by omega) h0
    have e : toInt ((cfg.lines : Int) * cfg.bh) = (cfg.lines : Int) * cfg.bh :=
      toInt_eq _ (by omega) (by nlinarith)
    rw [e]
    exact ⟨rfl, h2⟩
  · rw [if_neg hl] at hb
    rw [if_neg hl, if_neg hl]
    obtain ⟨_, _, h0, h1, _⟩ := hb
    have e : toInt (cfg.mw - (cfg.inputw + cfg.textw [60] + cfg.textw [62]))
        = cfg.mw - (cfg.inputw + cfg.textw [60] + cfg.textw [62]) :=
      toInt_eq _ (by omega) (by omega)
    rw [e]
    exact ⟨rfl, h0⟩

theorem bounded_noWrap (cfg : Config) (hb : cfg.Bounded) : NoWrap cfg := by
  obtain ⟨e, h0⟩ := bounded_budget cfg hb
  unfold Config.Bounded at hb
  by_cases hl : cfg.lines > 0
  · rw [if_pos hl] at hb e
    obtain ⟨hb0, hb1⟩ := hb
    have hw : ∀ it, itemw cfg it = cfg.bh := fun it => by simp [itemw, hl]
    have h1 : (1 : Int) ≤ cfg.lines := by omega
    refine ⟨fun it => ?_, fun it => ?_, fun it => ?_⟩
    · rw [hw, e]; nlinarith
    · rw [hw]; exact hb0
    · rw [hw, e]; nlinarith
  · rw [if_neg hl] at hb e
    obtain ⟨_, _, hb0, hb1, hb2⟩ := hb
    have hw : ∀ it, itemw cfg it = min (cfg.textw (itemText cfg it)) (budget cfg) :=
      fun it => by simp [itemw, hl]
    refine ⟨fun it => ?_, fun it => ?_, fun it => ?_⟩
    · rw [hw]; exact min_le_right _ _
    · rw [hw]; exact le_min (hb2 _) h0
    · have : itemw cfg it ≤ budget cfg := by rw [hw]; exact min_le_right _ _
      rw [e] at this ⊢
      omega


/-! ## The page invariant -/

theorem pageInv_anchor (cfg : Config) (s : State)
    (c p : Nat) (hc : c < s.mlist.length) (hcp : c ≤ p) (hp : p < s.mlist.length)
    (hq : ∀ q, nextOf cfg s.mlist c = some q → p < q) :
    PageInv cfg (calcoffsets cfg { s with sel := some p, curr := some c }) := by
  simp only [PageInv, calcoffsets]
  exact ⟨hc, trivial, trivial, p, rfl, hcp, hp, hq⟩

theorem pageInv_first (cfg : Config) (hfit : NoWrap cfg) (s : State) :
    PageInv cfg (calcoffsets cfg { s with sel := listHead s.mlist, curr := listHead s.mlist }) := by
  by_cases hnil : s.mlist = []
  · simp [PageInv, calcoffsets, listHead, hnil]
  · have hlen : 0 < s.mlist.length := List.length_pos.mpr hnil
    simp only [listHead, if_neg hnil]
    exact pageInv_anchor cfg s 0 0 hlen (le_refl _) hlen
      (fun q hq => (nextOf_gt cfg hfit _ _ _ hq).1)

theorem pageInv_match (cfg : Config) (hfit : NoWrap cfg) (s : State) :
    PageInv cfg (match_ cfg s) := by
  unfold match_
  exact pageInv_first cfg hfit { s with mlist := matchList cfg.ci cfg.items (cstr s.text) }

theorem pageInv_frame (cfg : Config) (s t : State) (h : PageInv cfg s) (h1 : t.mlist = s.mlist)
    (h2 : t.curr = s.curr) (h3 : t.next = s.next) (h4 : t.prev = s.prev) (h5 : t.sel = s.sel) :
    PageInv cfg t := by
  unfold PageInv at *
  rw [h1, h2, h3, h4, h5]
  exact h

theorem pageInv_kDown (cfg : Config) (hfit : NoWrap cfg) (s : State)
    (h : PageInv cfg s) : PageInv cfg (kDown cfg s) := by
  unfold kDown
  split
  · exact h
  · rename_i p hp
    split
    · exact h
    · rename_i q hq
      unfold right at hq
      split at hq
      · rename_i hlt
        simp at hq; subst hq
        unfold PageInv at h
        split at h
        · rw [hp] at h; simp at h
        · rename_i c hc
          obtain ⟨h1, h2, h3, p1, hp1, h4, h5, h6⟩ := h
          rw [hp] at hp1; simp at hp1; subst hp1
          split
          · rename_i hn
            rw [← hn]
            exact pageInv_anchor cfg s (p + 1) (p + 1) hlt (le_refl _) hlt
              (fun q hq => (nextOf_gt cfg hfit _ _ _ hq).1)
          · rename_i hn
            simp only [PageInv, hc]
            refine ⟨h1, h2, h3, p + 1, rfl, by omega, hlt, ?_⟩
            intro q hq
            have := h6 q hq
            have : q ≠ p + 1 := by
              intro e; subst e; exact hn hq.symm
            omega
      · simp at hq

theorem endLoop_spec (cfg : Config) (fuel : Nat) (s : State) (c : Nat) (hc : s.curr = some c)
    (hfuel : s.mlist.length - c < fuel) :
    ∃ s3, endLoop cfg fuel s = some s3 ∧ s3.mlist = s.mlist ∧ s3.text = s.text ∧
      s3.cursor = s.cursor ∧ s3.running = s.running ∧ s3.ret = s.ret ∧ s3.out = s.out ∧
      s3.sel = s.sel ∧
      (NoWrap cfg → c < s.mlist.length →
        s.next = nextOf cfg s.mlist c → s.prev = some (prevOf cfg s.mlist c) →
        ∃ c3, s3.curr = some c3 ∧ c3 < s.mlist.length ∧ s3.next = none ∧
          nextOf cfg s.mlist c3 = none ∧ s3.prev = some (prevOf cfg s.mlist c3)) := by
  induction fuel generalizing s c with
  | zero => omega
  | succ fuel ih =>
    unfold endLoop
    cases hn : s.next with
    | none =>
      refine ⟨s, rfl, rfl, rfl, rfl, rfl, rfl, rfl, rfl, ?_⟩
      intro _ hlt hnx hpv
      exact ⟨c, hc, hlt, hn, hnx.symm, hpv⟩
    | some q =>
      simp only [hc]
      cases hr : right s.mlist c with
      | none =>
        refine ⟨_, rfl, rfl, rfl, rfl, rfl, rfl, rfl, rfl, ?_⟩
        intro hfit hlt hnx _
        have := nextOf_gt cfg hfit _ _ _ hnx.symm
        unfold right at hr
        rw [if_pos (by omega)] at hr
        simp at hr
      | some c1 =>
        simp only []
        have hc1 : c1 = c + 1 ∧ c + 1 < s.mlist.length := by
          unfold right at hr
          split at hr
          · simp at hr; exact ⟨hr.symm, by assumption⟩
          · simp at hr
        obtain ⟨e, hlt1⟩ := hc1
        subst e
        obtain ⟨s3, h1, h2, h3, h4, h5, h6, h7, h8, h9⟩ :=
          ih (calcoffsets cfg { s with curr := some (c + 1) }) (c + 1) (by simp)
            (by rw [calcoffsets_mlist]; simp only []; omega)
        rw [calcoffsets_mlist] at h2 h9
        simp only [calcoffsets_text, calcoffsets_cursor, calcoffsets_running, calcoffsets_ret,
          calcoffsets_out, calcoffsets_sel] at h3 h4 h5 h6 h7 h8
        refine ⟨s3, h1, h2, h3, h4, h5, h6, h7, h8, ?_⟩
        intro hfit _ _ _
        exact h9 hfit hlt1 (by simp [calcoffsets]) (by simp [calcoffsets])

theorem matchend_some (ml : List Nat) (h : ml ≠ []) : matchend ml = some (ml.length - 1) := by
  unfold matchend; rw [if_neg h]

theorem endStart_frame (cfg : Config) (s : State) :
    (endStart cfg s).mlist = s.mlist ∧ (endStart cfg s).text = s.text ∧
      (endStart cfg s).cursor = s.cursor ∧ (endStart cfg s).running = s.running ∧
      (endStart cfg s).ret = s.ret ∧ (endStart cfg s).out = s.out := by
  unfold endStart
  simp [calcoffsets_mlist]

theorem endStart_nil (cfg : Config) (s : State) (h : s.mlist = []) :
    (endStart cfg s).next = none := by
  unfold endStart
  simp [matchend, h, calcoffsets]

theorem endStart_cons (cfg : Config) (s : State) (h : s.mlist ≠ []) :
    (endStart cfg s).curr = some (prevOf cfg s.mlist (s.mlist.length - 1)) ∧
      (endStart cfg s).next = nextOf cfg s.mlist (prevOf cfg s.mlist (s.mlist.length - 1)) ∧
      (endStart cfg s).prev =
        some (prevOf cfg s.mlist (prevOf cfg s.mlist (s.mlist.length - 1))) := by
  unfold endStart
  simp [matchend_some _ h, calcoffsets]

theorem kEnd_spec (cfg : Config) (s : State) (b : Nat) (hb : s.text[s.cursor]? = some b) :
    ∃ s1, kEnd cfg s = some s1 ∧ s1.text = s.text ∧ s1.running = s.running ∧ s1.ret = s.ret ∧
      s1.out = s.out ∧ s1.mlist = s.mlist ∧
      (s1.cursor = s.cursor ∨ s1.cursor = strlen s.text) ∧
      (NoWrap cfg → PageInv cfg s → PageInv cfg s1) := by
  unfold kEnd
  rw [hb]
  simp only []
  by_cases hb0 : b = 0
  · rw [if_neg (by simpa using hb0)]
    cases hn : s.next with
    | none =>
      refine ⟨_, rfl, rfl, rfl, rfl, rfl, rfl, Or.inl rfl, ?_⟩
      intro _ hinv
      unfold PageInv at hinv ⊢
      simp only []
      split at hinv
      · obtain ⟨h1, _, _, h4⟩ := hinv
        simp [h1, matchend, h4]
      · obtain ⟨h1, h2, h3, _⟩ := hinv
        have hne : s.mlist ≠ [] := by
          intro e; rw [e] at h1; simp at h1
        refine ⟨h1, hn ▸ h2, h3, s.mlist.length - 1, matchend_some _ hne, by omega, by omega, ?_⟩
        intro q hq; simp at hq
    | some q =>
      simp only []
      obtain ⟨f1, f2, f3, f4, f5, f6⟩ := endStart_frame cfg s
      by_cases hne : s.mlist = []
      · have e2 : endLoop cfg ((endStart cfg s).mlist.length + 1) (endStart cfg s) =
            some (endStart cfg s) := by
          unfold endLoop
          rw [endStart_nil cfg s hne]
        rw [e2]
        refine ⟨_, rfl, f2, f4, f5, f6, f1, Or.inl f3, ?_⟩
        intro hfit hinv
        unfold PageInv at hinv
        split at hinv
        · rw [hn] at hinv; simp at hinv
        · rw [hne] at hinv; simp at hinv
      · have hlen : 0 < s.mlist.length := List.length_pos.mpr hne
        have hple := prevOf_le cfg s.mlist (s.mlist.length - 1)
        obtain ⟨g1, g2, g3⟩ := endStart_cons cfg s hne
        obtain ⟨s3, h1, h2, h3, h4, h5, h6, h7, h8, h9⟩ := endLoop_spec cfg
          ((endStart cfg s).mlist.length + 1) (endStart cfg s)
          (prevOf cfg s.mlist (s.mlist.length - 1)) g1 (by rw [f1]; omega)
        rw [h1]
        rw [f1] at h2 h9
        refine ⟨_, rfl, h3.trans f2, h5.trans f4, h6.trans f5, h7.trans f6, h2,
          Or.inl (h4.trans f3), ?_⟩
        intro hfit _
        obtain ⟨c3, k1, k2, k3, k4, k5⟩ := h9 hfit (by omega) g2 g3
        simp only [PageInv, k1, h2]
        refine ⟨k2, by rw [k3, k4], k5, s.mlist.length - 1, matchend_some _ hne, by omega,
          by omega, ?_⟩
        intro q hq; rw [k3] at hq; simp at hq
  · rw [if_pos hb0]
    refine ⟨_, rfl, rfl, rfl, rfl, rfl, rfl, Or.inr rfl, ?_⟩
    intro _ hinv
    exact pageInv_frame cfg s _ hinv rfl rfl rfl rfl rfl


/-! ## The page invariant along run -/

theorem mod1Switch_state (s : State) (ev : XKeyEvent) :
    (∀ s1, mod1Switch s ev = Flow.done s1 → s1 = s) ∧
    (∀ s1 k, mod1Switch s ev = Flow.sym s1 k → s1 = s) := by
  unfold mod1Switch
  constructor
  · intro s1 h; split at h <;> simp at h; exact h.symm
  · intro s1 k h; split at h <;> simp at h <;> exact h.1.symm

theorem demoCfg_bounded : demoCfg.Bounded := by
  unfold Config.Bounded IntRange
  rw [if_neg (by decide)]
  refine ⟨by decide, by decide, by decide, by decide, fun t => ?_⟩
  show (0 : Int) ≤ 5 * (t.length : Int) + 4
  omega

/-- The arithmetic of `calcoffsets` outside the bounded layouts: with three
rows of height `2^30` the product `lines * bh` wraps to `-2^30`, the first
amount added exceeds it, and `next` is the anchor itself: the page is empty. -/
theorem budget_wraps :
    budget { demoCfg with lines := 3, bh := 2 ^ 30 } = -1073741824 ∧
      (init { demoCfg with lines := 3, bh := 2 ^ 30 }).curr = some 0 ∧
      (init { demoCfg with lines := 3, bh := 2 ^ 30 }).next = some 0 := by
  decide

set_option maxRecDepth 100000 in
theorem isCont_range : ∀ b, b < 256 → (isCont b = true ↔ 128 ≤ b ∧ b < 192) := by
  decide

theorem isCont_lead (b : Nat) (h : (1 ≤ b ∧ b < 0x80) ∨ (0xc2 ≤ b ∧ b < 0xf5)) :
    isCont b = false := by
  have := isCont_range b (by omega)
  cases hc : isCont b with
  | false => rfl
  | true => rw [hc] at this; simp at this; omega

theorem isCont_ne_zero (b : Nat) (h : isCont b = true) : b ≠ 0 := by
  intro e; subst e; simp [isCont_zero] at h

theorem utf8Scan_nul_free (k : Nat) (l : List Nat) (h : utf8Scan k l = true) : ∀ b ∈ l, b ≠ 0 := by
  induction l generalizing k with
  | nil => intro b hb; simp at hb
  | cons a l ih =>
    intro b hb
    cases k with
    | zero =>
      unfold utf8Scan at h
      simp only [List.mem_cons] at hb
      split at h
      · rcases hb with hb | hb
        · omega
        · exact ih 0 h b hb
      · split at h
        · rcases hb with hb | hb
          · omega
          · exact ih 1 h b hb
        · split at h
          · rcases hb with hb | hb
            · omega
            · exact ih 2 h b hb
          · split at h
            · rcases hb with hb | hb
              · omega
              · exact ih 3 h b hb
            · simp at h
    | succ k =>
      unfold utf8Scan at h
      simp only [Bool.and_eq_true] at h
      simp only [List.mem_cons] at hb
      rcases hb with hb | hb
      · subst hb; exact isCont_ne_zero _ h.1
      · exact ih k h.2 b hb

theorem utf8_nul_free (l : List Nat) (h : utf8 l = true) : ∀ b ∈ l, b ≠ 0 :=
  utf8Scan_nul_free 0 l h

theorem utf8_head (l rest : List Nat) (h : utf8 l = true) :
    isCont ((l ++ rest).getD 0 0) = false ∨ l = [] := by
  cases l with
  | nil => right; rfl
  | cons a l =>
    left
    unfold utf8 utf8Scan at h
    simp only [List.cons_append, List.getD_cons_zero]
    split at h
    · exact isCont_lead a (by omega)
    · split at h
      · exact isCont_lead a (by omega)
      · split at h
        · exact isCont_lead a (by omega)
        · split at h
          · exact isCont_lead a (by omega)
          · simp at h

theorem getD_append_nul (w g : List Nat) (i : Nat) (hi : i ≤ w.length) :
    (w ++ 0 :: g).getD i 0 = (w ++ [0]).getD i 0 := by
  rw [List.getD_eq_getElem?_getD, List.getD_eq_getElem?_getD]
  by_cases h : i < w.length
  · rw [List.getElem?_append_left h, List.getElem?_append_left h]
  · have e : i = w.length := by omega
    subst e
    rw [List.getElem?_append_right (le_refl _), List.getElem?_append_right (le_refl _)]
    simp

theorem textInv_decomp (cfg : Config) (s : State) (h : TextInv cfg s) :
    ∃ w g, s.text = w ++ 0 :: g ∧ (∀ b ∈ w, b ≠ 0) ∧ strlen s.text = w.length ∧
      s.cursor ≤ w.length ∧ isCont ((w ++ [0]).getD s.cursor 0) = false ∧
      isCont ((w ++ [0]).getD 0 0) = false := by
  obtain ⟨_, _, h3, h4, h5, h6⟩ := h
  obtain ⟨g, hg⟩ := cstr_decomp s.text h3
  refine ⟨cstr s.text, g, hg, cstr_nul_free _, rfl, h4, ?_, ?_⟩
  · rw [← getD_append_nul _ g _ h4, ← hg]; exact h5
  · rw [← getD_append_nul _ g _ (Nat.zero_le _), ← hg]; exact h6

theorem textInv_mk (cfg : Config) (s : State) (w g : List Nat) (ht : s.text = w ++ 0 :: g)
    (hw : ∀ b ∈ w, b ≠ 0) (hL : s.text.length = cfg.BUFSIZ) (hB : cfg.BUFSIZ < 2 ^ 63)
    (hc : s.cursor ≤ w.length) (hb : isCont ((w ++ [0]).getD s.cursor 0) = false)
    (hf : isCont ((w ++ [0]).getD 0 0) = false) : TextInv cfg s := by
  have hlen : strlen s.text = w.length := by
    unfold strlen; rw [ht, cstr_append_nul w g hw]
  refine ⟨hL, hB, ?_, by omega, ?_, ?_⟩
  · rw [hlen, ht]; simp
  · rw [ht, getD_append_nul _ _ _ hc]; exact hb
  · rw [ht, getD_append_nul _ _ _ (Nat.zero_le _)]; exact hf

theorem textInv_frame (cfg : Config) (s t : State) (h : TextInv cfg s) (h1 : t.text = s.text)
    (h2 : t.cursor = s.cursor) : TextInv cfg t := by
  unfold TextInv at *
  rw [h1, h2]; exact h

theorem textInv_match (cfg : Config) (s : State) (h : TextInv cfg s) : TextInv cfg (match_ cfg s) :=
  textInv_frame cfg s _ h (match_text cfg s) (match_cursor cfg s)


theorem getD_after (a c : List Nat) : (a ++ c).getD a.length 0 = c.getD 0 0 := by
  rw [List.getD_eq_getElem?_getD, List.getD_eq_getElem?_getD,
    List.getElem?_append_right (le_refl _), Nat.sub_self]

theorem getD_zero_left (a c : List Nat) (h : 0 < a.length) : (a ++ c).getD 0 0 = a.getD 0 0 := by
  rw [List.getD_eq_getElem?_getD, List.getD_eq_getElem?_getD, List.getElem?_append_left h]

theorem getD_drop_nul (w : List Nat) (c : Nat) (hc : c ≤ w.length) :
    (w.drop c ++ [0]).getD 0 0 = (w ++ [0]).getD c 0 := by
  have hl : (w.take c).length = c := by simp; omega
  have e : (w ++ [0]).getD c 0 = (w.take c ++ (w.drop c ++ [0])).getD (w.take c).length 0 := by
    rw [hl, ← List.append_assoc, List.take_append_drop]
  rw [e, getD_after]

theorem getD_take_pos (w r : List Nat) (c : Nat) (h0 : 0 < c) (hc : c ≤ w.length) :
    (w.take c ++ r).getD 0 0 = (w ++ [0]).getD 0 0 := by
  rw [getD_zero_left _ _ (by simp; omega), getD_zero_left _ _ (by omega)]
  cases w with
  | nil => simp at hc; omega
  | cons a w =>
    cases c with
    | zero => omega
    | succ c => simp

theorem insert_noop (cfg : Config) (s : State) (str : List Nat) (k : Nat)
    (hsz : s.text.length < 2 ^ 63) (hk : k < 2 ^ 63) (hlen : 0 < s.text.length)
    (hover : ¬ strlen s.text + k < s.text.length) : insert cfg s str (k : Int) = some s := by
  unfold insert
  have h := strlen_le s.text
  rw [if_pos (by omega)]

theorem insert_textInv_ins (cfg : Config) (s : State) (str : List Nat) (k : Nat)
    (h : TextInv cfg s) (hk0 : 0 < k) (hk : k ≤ str.length) (hk63 : k < 2 ^ 63)
    (hu : utf8 (str.take k) = true) :
    ∃ s1, insert cfg s str (k : Int) = some s1 ∧ TextInv cfg s1 := by
  obtain ⟨w, g, ht, hw, hlen, hc, hb, hf⟩ := textInv_decomp cfg s h
  obtain ⟨hL, hB, hterm, _, _, _⟩ := h
  by_cases hfit : w.length + k < s.text.length
  · obtain ⟨g1, h1, h2⟩ := insert_ins cfg s str w g k ht hw hc hk hk0 hfit (by omega)
    refine ⟨_, h1, textInv_match cfg _ ?_⟩
    have hcl : (w.take s.cursor).length = s.cursor := by simp; omega
    have hkl : (str.take k).length = k := by simp; omega
    apply textInv_mk cfg _ (w.take s.cursor ++ str.take k ++ w.drop s.cursor) g1 rfl
    · intro b hb1
      simp only [List.mem_append] at hb1
      rcases hb1 with (hb1 | hb1) | hb1
      · exact hw b (List.mem_of_mem_take hb1)
      · exact utf8_nul_free _ hu b hb1
      · exact hw b (List.mem_of_mem_drop hb1)
    · exact h2.trans hL
    · exact hB
    · simp; omega
    · show isCont ((w.take s.cursor ++ str.take k ++ w.drop s.cursor ++ [0]).getD
        (s.cursor + k) 0) = false
      have e : s.cursor + k = (w.take s.cursor ++ str.take k).length := by
        rw [List.length_append, hcl, hkl]
      rw [e, List.append_assoc, getD_after, getD_drop_nul w _ hc]
      exact hb
    · by_cases hc0 : s.cursor = 0
      · rw [hc0, List.take_zero, List.nil_append, List.append_assoc]
        rcases utf8_head (str.take k) (w.drop 0 ++ [0]) hu with h3 | h3
        · exact h3
        · rw [h3] at hkl; simp at hkl; omega
      · rw [List.append_assoc, List.append_assoc, getD_take_pos w _ _ (by omega) hc]
        exact hf
  · exact ⟨s, insert_noop cfg s str k (by omega) hk63 (by omega) (by rw [hlen]; exact hfit),
      ⟨hL, hB, hterm, by assumption, by assumption, by assumption⟩⟩

theorem insert_textInv_del (cfg : Config) (s : State) (str : List Nat) (k : Nat)
    (h : TextInv cfg s) (hk : k ≤ s.cursor) :
    ∃ s1, insert cfg s str (-(k : Int)) = some s1 ∧ TextInv cfg s1 ∧
      s1.cursor = s.cursor - k := by
  obtain ⟨w, g, ht, hw, hlen, hc, hb, hf⟩ := textInv_decomp cfg s h
  obtain ⟨hL, hB, hterm, _, _, _⟩ := h
  obtain ⟨g1, h1, h2⟩ := insert_del cfg s str w g k ht hw hc hk (by omega)
  refine ⟨_, h1, textInv_match cfg _ ?_, by rw [match_cursor]⟩
  have hcl : (w.take (s.cursor - k)).length = s.cursor - k := by simp; omega
  apply textInv_mk cfg _ (w.take (s.cursor - k) ++ w.drop s.cursor) g1 rfl
  · intro b hb1
    simp only [List.mem_append] at hb1
    rcases hb1 with hb1 | hb1
    · exact hw b (List.mem_of_mem_take hb1)
    · exact hw b (List.mem_of_mem_drop hb1)
  · exact h2.trans hL
  · exact hB
  · simp; omega
  · show isCont ((w.take (s.cursor - k) ++ w.drop s.cursor ++ [0]).getD (s.cursor - k) 0) = false
    have e : (w.take (s.cursor - k) ++ w.drop s.cursor ++ [0]).getD (s.cursor - k) 0 =
        (w.take (s.cursor - k) ++ (w.drop s.cursor ++ [0])).getD (w.take (s.cursor - k)).length 0 := by
      rw [hcl, List.append_assoc]
    rw [e, getD_after, getD_drop_nul w _ hc]
    exact hb
  · by_cases hc0 : s.cursor - k = 0
    · rw [hc0, List.take_zero, List.nil_append, getD_drop_nul w _ hc]
      exact hb
    · rw [List.append_assoc, getD_take_pos w _ _ (by omega) (by omega)]
      exact hf

theorem toSsize_neg (k : Nat) (hk : k < 2 ^ 63) : toSsize (-(k : Int)) = -(k : Int) := by
  unfold toSsize
  split <;> omega

theorem textInv_cursor_lt (cfg : Config) (s : State) (h : TextInv cfg s) :
    s.cursor < s.text.length ∧ s.text.length < 2 ^ 63 := by
  obtain ⟨hL, hB, hterm, hc, _, _⟩ := h
  omega

theorem back_textInv (cfg : Config) (s : State) (h : TextInv cfg s) (h0 : 0 < s.cursor) :
    ∃ r, nextrune s.text s.cursor (-1) = some r ∧ r < s.cursor ∧
      ∃ s1, insert cfg s [] (toSsize ((r : Int) - s.cursor)) = some s1 ∧ TextInv cfg s1 ∧
        s1.cursor = r := by
  obtain ⟨hlt, hsz⟩ := textInv_cursor_lt cfg s h
  obtain ⟨r, hr, hle, _⟩ := runeDown_some s.text (s.cursor - 1) (by omega)
  refine ⟨r, ?_, by omega, ?_⟩
  · unfold nextrune
    rw [if_neg (by decide), if_neg (by omega)]
    exact hr
  · have e : (r : Int) - s.cursor = -((s.cursor - r : Nat) : Int) := by omega
    rw [e, toSsize_neg _ (by omega)]
    obtain ⟨s1, h1, h2, h3⟩ := insert_textInv_del cfg s [] (s.cursor - r) h (by omega)
    exact ⟨s1, h1, h2, by rw [h3]; omega⟩

theorem deleteBack_textInv (cfg : Config) (s : State) (h : TextInv cfg s) (h0 : 0 < s.cursor) :
    ∃ s1, deleteBack cfg s = some s1 ∧ TextInv cfg s1 := by
  obtain ⟨r, hr, _, s1, h1, h2, _⟩ := back_textInv cfg s h h0
  unfold deleteBack
  rw [hr]
  exact ⟨s1, h1, h2⟩

theorem kBackSpace_textInv (cfg : Config) (s : State) (h : TextInv cfg s) :
    ∃ s1, kBackSpace cfg s = some s1 ∧ TextInv cfg s1 := by
  unfold kBackSpace
  split
  · exact ⟨s, rfl, h⟩
  · exact deleteBack_textInv cfg s h (by omega)

theorem wordLoop_textInv (cfg : Config) (sp : Bool) (fuel : Nat) (s : State) (h : TextInv cfg s)
    (hfuel : s.cursor < fuel) : ∃ s1, wordLoop cfg sp fuel s = some s1 ∧ TextInv cfg s1 := by
  induction fuel generalizing s with
  | zero => omega
  | succ fuel ih =>
    unfold wordLoop
    split
    · rename_i h0
      obtain ⟨r, hr, hlt, s1, h1, h2, h3⟩ := back_textInv cfg s h h0
      rw [hr]
      simp only []
      have hr2 : r < s.text.length := by
        have := (textInv_cursor_lt cfg s h).1
        omega
      rw [List.getElem?_eq_getElem hr2]
      simp only []
      split
      · rw [h1]
        exact ih s1 h2 (by omega)
      · exact ⟨s, rfl, h⟩
    · exact ⟨s, rfl, h⟩


theorem insert_textInv (cfg : Config) (s : State) (str : List Nat) (n : Int)
    (h : TextInv cfg s) (h0 : 0 ≤ n) (hn : n ≤ str.length) (h63 : n < 2 ^ 63)
    (hu : utf8 (str.take n.toNat) = true) :
    ∃ s1, insert cfg s str n = some s1 ∧ TextInv cfg s1 := by
  obtain ⟨k, rfl⟩ := Int.eq_ofNat_of_zero_le h0
  simp only [Int.toNat_ofNat] at hu
  by_cases hk : k = 0
  · subst hk
    obtain ⟨s1, h1, h2, _⟩ := insert_textInv_del cfg s str 0 h (Nat.zero_le _)
    exact ⟨s1, by simpa using h1, h2⟩
  · exact insert_textInv_ins cfg s str k h (by omega) (by omega) (by omega) hu

theorem pasted_take (p : List Nat) : p.take (pasted p).length = pasted p := by
  have h1 : pasted p <+: cstr p := List.takeWhile_prefix _
  have h2 : cstr p <+: p := List.takeWhile_prefix _
  exact (List.prefix_iff_eq_take.mp (h1.trans h2)).symm

theorem pasted_length_le (p : List Nat) : (pasted p).length ≤ p.length := by
  have h1 : pasted p <+: cstr p := List.takeWhile_prefix _
  have h2 : cstr p <+: p := List.takeWhile_prefix _
  exact (h1.trans h2).length_le

theorem paste_textInv (cfg : Config) (s : State) (p : List Nat) (h : TextInv cfg s)
    (hp : Event.WF (Event.selection p)) : ∃ s1, paste cfg s p = some s1 ∧ TextInv cfg s1 := by
  unfold paste
  apply insert_textInv cfg s p _ h (by omega)
  · exact_mod_cast pasted_length_le p
  · have := hp.1
    show (((pasted p).length : Nat) : Int) < 2 ^ 63
    omega
  · show utf8 (p.take (((pasted p).length : Nat) : Int).toNat) = true
    rw [Int.toNat_ofNat, pasted_take]
    exact hp.2

theorem nextrune_up_boundary (text : List Nat) (c n : Nat) (h : nextrune text c 1 = some n) :
    c < n ∧ isCont (text.getD n 0) = false := by
  unfold nextrune at h
  rw [if_pos rfl] at h
  obtain ⟨h1, _, h3, _⟩ := runeUp_some _ _ _ h
  refine ⟨by omega, ?_⟩
  rw [List.getD_eq_getElem?_getD, List.getElem?_drop] at h3
  rw [List.getD_eq_getElem?_getD]
  have e : c + 1 + (n - (c + 1)) = n := by omega
  rw [e] at h3
  exact h3

theorem right_textInv (cfg : Config) (s : State) (h : TextInv cfg s) (b : Nat)
    (hb : s.text[s.cursor]? = some b) (hb0 : b ≠ 0) :
    ∃ n, nextrune s.text s.cursor 1 = some n ∧ TextInv cfg { s with cursor := n } := by
  obtain ⟨hL, hB, hterm, hc, hbd, hf⟩ := h
  obtain ⟨b1, hb1, hlt⟩ := text_at_cursor s hterm hc
  rw [hb] at hb1
  simp at hb1; subst hb1
  obtain ⟨n, hn, h1, h2⟩ := nextrune_up_defined s.text s.cursor hterm (hlt hb0)
  exact ⟨n, hn, hL, hB, hterm, h2, (nextrune_up_boundary _ _ _ hn).2, hf⟩

theorem kDown_text (cfg : Config) (s : State) :
    (kDown cfg s).text = s.text ∧ (kDown cfg s).cursor = s.cursor :=
  ⟨(kDown_frame cfg s).2.2.2.1, (kDown_frame cfg s).2.2.2.2.1⟩

theorem kUp_text (cfg : Config) (s : State) :
    (kUp cfg s).text = s.text ∧ (kUp cfg s).cursor = s.cursor := by
  unfold kUp
  split
  · simp
  · split
    · simp
    · split <;> simp

theorem kRight_textInv (cfg : Config) (s : State) (h : TextInv cfg s) :
    ∃ s1, kRight cfg s = some s1 ∧ TextInv cfg s1 := by
  have hlt := (textInv_cursor_lt cfg s h).1
  unfold kRight
  rw [List.getElem?_eq_getElem hlt]
  simp only []
  split
  · rename_i hb0
    obtain ⟨n, hn, h1⟩ := right_textInv cfg s h _ (List.getElem?_eq_getElem hlt) hb0
    rw [hn]
    exact ⟨_, rfl, h1⟩
  · split
    · exact ⟨s, rfl, h⟩
    · exact ⟨_, rfl, textInv_frame cfg s _ h (kDown_text cfg s).1 (kDown_text cfg s).2⟩

theorem kLeft_textInv (cfg : Config) (s : State) (h : TextInv cfg s) :
    ∃ s1, kLeft cfg s = some s1 ∧ TextInv cfg s1 := by
  unfold kLeft
  split
  · rename_i hcond
    obtain ⟨hlt, hsz⟩ := textInv_cursor_lt cfg s h
    obtain ⟨r, hr, hle, hbd⟩ := runeDown_some s.text (s.cursor - 1) (by omega)
    have e : nextrune s.text s.cursor (-1) = some r := by
      unfold nextrune
      rw [if_neg (by decide), if_neg (by omega)]
      exact hr
    rw [e]
    obtain ⟨hL, hB, hterm, hc, _, hf⟩ := h
    refine ⟨_, rfl, hL, hB, hterm, ?_, ?_, hf⟩
    · show r ≤ strlen s.text
      omega
    · show isCont (s.text.getD r 0) = false
      rcases hbd with hbd | hbd
      · rw [hbd]; exact hf
      · exact hbd
  · split
    · exact ⟨s, rfl, h⟩
    · exact ⟨_, rfl, textInv_frame cfg s _ h (kUp_text cfg s).1 (kUp_text cfg s).2⟩

theorem textInv_cursor_zero (cfg : Config) (s t : State) (h : TextInv cfg s)
    (h1 : t.text = s.text) (h2 : t.cursor = 0) : TextInv cfg t := by
  obtain ⟨hL, hB, hterm, hc, _, hf⟩ := h
  unfold TextInv
  rw [h1, h2]
  exact ⟨hL, hB, hterm, Nat.zero_le _, hf, hf⟩

theorem kHome_textInv (cfg : Config) (s : State) (h : TextInv cfg s) :
    TextInv cfg (kHome cfg s) := by
  unfold kHome
  split
  · exact textInv_cursor_zero cfg s _ h rfl rfl
  · exact textInv_frame cfg s _ h (by simp) (by simp)

theorem kEnd_textInv (cfg : Config) (s : State) (h : TextInv cfg s) :
    ∃ s1, kEnd cfg s = some s1 ∧ TextInv cfg s1 := by
  have hlt := (textInv_cursor_lt cfg s h).1
  obtain ⟨s1, h1, h2, _, _, _, _, h7, _⟩ := kEnd_spec cfg s _ (List.getElem?_eq_getElem hlt)
  refine ⟨s1, h1, ?_⟩
  rcases h7 with h7 | h7
  · exact textInv_frame cfg s _ h h2 h7
  · obtain ⟨hL, hB, hterm, hc, _, hf⟩ := h
    unfold TextInv
    rw [h2, h7]
    exact ⟨hL, hB, hterm, le_refl _, by rw [getD_strlen]; exact isCont_zero, hf⟩

theorem setNul_textInv (cfg : Config) (s : State) (h : TextInv cfg s) :
    TextInv cfg { s with text := s.text.set s.cursor 0 } := by
  obtain ⟨w, g, ht, hw, hlen, hc, hb, hf⟩ := textInv_decomp cfg s h
  have hlt := (textInv_cursor_lt cfg s h).1
  obtain ⟨hL, hB, hterm, _, _, _⟩ := h
  have e : s.text.set s.cursor 0 = w.take s.cursor ++ 0 :: s.text.drop (s.cursor + 1) := by
    rw [List.set_eq_take_append_cons_drop, if_pos hlt]
    congr 1
    rw [ht, List.take_append_of_le_length hc]
  apply textInv_mk cfg _ (w.take s.cursor) (s.text.drop (s.cursor + 1)) e
  · intro b hb1; exact hw b (List.mem_of_mem_take hb1)
  · show (s.text.set s.cursor 0).length = cfg.BUFSIZ
    rw [List.length_set]; exact hL
  · exact hB
  · simp; omega
  · show isCont ((w.take s.cursor ++ [0]).getD s.cursor 0) = false
    have hl : (w.take s.cursor).length = s.cursor := by simp; omega
    have e2 : (w.take s.cursor ++ [0]).getD s.cursor 0 =
        (w.take s.cursor ++ [0]).getD (w.take s.cursor).length 0 := by rw [hl]
    rw [e2, getD_after]
    exact isCont_zero
  · by_cases hc0 : s.cursor = 0
    · rw [hc0]; exact isCont_zero
    · rw [getD_take_pos w _ _ (by omega) hc]
      exact hf

theorem nodeText_wf (cfg : Config) (hcfg : cfg.WF) (ml : List Nat) (p : Nat) :
    utf8 (nodeText cfg ml p) = true ∧ (nodeText cfg ml p).length < cfg.BUFSIZ := by
  unfold nodeText itemText
  rw [List.getD_eq_getElem?_getD]
  cases h : cfg.items[ml.getD p 0]? with
  | none => exact ⟨rfl, hcfg.1⟩
  | some t => exact hcfg.2.2 t (List.getElem?_mem h)

theorem tab_textInv (cfg : Config) (s : State) (h : TextInv cfg s) (t : List Nat)
    (hu : utf8 t = true) (hl : t.length < cfg.BUFSIZ) :
    TextInv cfg { s with text := strncpy s.text t s.text.length,
                         cursor := strlen (strncpy s.text t s.text.length) } := by
  obtain ⟨hL, hB, _, _, _, _⟩ := h
  have hnul := utf8_nul_free t hu
  have e : strncpy s.text t s.text.length =
      t ++ 0 :: List.replicate (s.text.length - t.length - 1) 0 := by
    unfold strncpy
    rw [List.drop_length, List.append_nil, List.take_append_eq_append_take,
      List.take_of_length_le (by omega), List.take_replicate]
    congr 1
    have : min (s.text.length - t.length) s.text.length = (s.text.length - t.length - 1) + 1 := by
      omega
    rw [this, List.replicate_succ]
  have hs : strlen (strncpy s.text t s.text.length) = t.length := by
    unfold strlen; rw [e, cstr_append_nul _ _ hnul]
  apply textInv_mk cfg _ t _ e hnul
  · show (strncpy s.text t s.text.length).length = cfg.BUFSIZ
    rw [e]; simp; omega
  · exact hB
  · show strlen (strncpy s.text t s.text.length) ≤ t.length
    omega
  · show isCont ((t ++ [0]).getD (strlen (strncpy s.text t s.text.length)) 0) = false
    rw [hs, getD_after]
    exact isCont_zero
  · rcases utf8_head t [0] hu with h1 | h1
    · exact h1
    · rw [h1]; exact isCont_zero


theorem toSsize_zero_sub (c : Nat) (hc : c < 2 ^ 63) :
    toSsize (0 - (c : Int)) = -(c : Int) := by
  rw [Int.zero_sub]; exact toSsize_neg c hc

theorem controlSwitch_textInv (cfg : Config) (s : State) (ev : XKeyEvent) (h : TextInv cfg s) :
    (∃ s1, controlSwitch cfg s ev = some (Flow.done s1) ∧ TextInv cfg s1) ∨
    (∃ s1 k, controlSwitch cfg s ev = some (Flow.sym s1 k) ∧ TextInv cfg s1) := by
  obtain ⟨hlt, hsz⟩ := textInv_cursor_lt cfg s h
  unfold controlSwitch
  split
  any_goals exact Or.inr ⟨s, _, rfl, h⟩
  · -- XK_k
    rw [if_pos hlt]
    exact Or.inr ⟨_, _, rfl, textInv_match cfg _ (setNul_textInv cfg s h)⟩
  · -- XK_u
    rw [toSsize_zero_sub _ (by omega)]
    obtain ⟨s1, h1, h2, _⟩ := insert_textInv_del cfg s [] s.cursor h (le_refl _)
    rw [h1]
    exact Or.inr ⟨s1, _, rfl, h2⟩
  · -- XK_w
    obtain ⟨s1, h1, h2⟩ := wordLoop_textInv cfg true (s.cursor + 1) s h (by omega)
    rw [h1]
    obtain ⟨s2, h3, h4⟩ := wordLoop_textInv cfg false (s1.cursor + 1) s1 h2 (by omega)
    simp only []
    rw [h3]
    exact Or.inr ⟨s2, _, rfl, h4⟩
  · exact Or.inl ⟨s, rfl, h⟩

theorem mainSwitch_textInv (cfg : Config) (hcfg : cfg.WF) (s : State) (ev : XKeyEvent)
    (k : KeySym) (h : TextInv cfg s) (hev : ev.WF) :
    ∃ s1, mainSwitch cfg s ev k = some s1 ∧ TextInv cfg s1 := by
  have hlt := (textInv_cursor_lt cfg s h).1
  unfold mainSwitch
  split
  · -- XK_Delete
    rw [List.getElem?_eq_getElem hlt]
    simp only []
    split
    · exact ⟨s, rfl, h⟩
    · rename_i hb0
      obtain ⟨n, hn, h1⟩ := right_textInv cfg s h _ (List.getElem?_eq_getElem hlt) hb0
      rw [hn]
      exact kBackSpace_textInv cfg _ h1
  · exact kBackSpace_textInv cfg s h
  · exact kEnd_textInv cfg s h
  · exact ⟨_, rfl, kHome_textInv cfg _ (textInv_frame cfg s _ h rfl rfl)⟩
  · exact ⟨_, rfl, kHome_textInv cfg _ h⟩
  · exact kLeft_textInv cfg s h
  · exact ⟨_, rfl, textInv_frame cfg s _ h (kUp_text cfg s).1 (kUp_text cfg s).2⟩
  · split
    · exact ⟨s, rfl, h⟩
    · exact ⟨_, rfl, textInv_frame cfg s _ h (by simp) (by simp)⟩
  · split
    · exact ⟨s, rfl, h⟩
    · exact ⟨_, rfl, textInv_frame cfg s _ h (by simp) (by simp)⟩
  · exact kRight_textInv cfg _ (textInv_frame cfg s _ h rfl rfl)
  · exact kRight_textInv cfg _ (textInv_frame cfg s _ h rfl rfl)
  · exact kRight_textInv cfg s h
  · exact ⟨_, rfl, textInv_frame cfg s _ h (kDown_text cfg s).1 (kDown_text cfg s).2⟩
  · -- XK_Tab
    split
    · exact ⟨s, rfl, h⟩
    · rename_i p hp
      obtain ⟨hu, hl⟩ := nodeText_wf cfg hcfg s.mlist p
      rw [if_pos (by rw [h.1]; exact hl)]
      exact ⟨_, rfl, textInv_match cfg _ (tab_textInv cfg s h _ hu hl)⟩
  · split
    · exact ⟨s, rfl, h⟩
    · rename_i hctl
      obtain ⟨h0, h1, h2, h3⟩ := hev
      exact insert_textInv cfg s ev.buf ev.len h h0 h1 (by omega) (h3 (by simpa using hctl))

theorem keypress_textInv (cfg : Config) (hcfg : cfg.WF) (s : State) (ev : XKeyEvent)
    (h : TextInv cfg s) (hev : ev.WF) : ∃ s1, keypress cfg s ev = some s1 ∧ TextInv cfg s1 := by
  unfold keypress
  by_cases hov : ev.overflow = true
  · rw [if_pos hov]; exact ⟨s, rfl, h⟩
  · rw [if_neg hov]
    by_cases hctl : ev.control = true
    · rw [if_pos hctl]
      rcases controlSwitch_textInv cfg s ev h with ⟨s1, h1, h2⟩ | ⟨s1, k, h1, h2⟩
      · rw [h1]; exact ⟨s1, rfl, h2⟩
      · rw [h1]; exact mainSwitch_textInv cfg hcfg s1 ev k h2 hev
    · rw [if_neg hctl]
      by_cases hmod : ev.mod1 = true
      · rw [if_pos hmod]
        cases hm : mod1Switch s ev with
        | done s1 =>
          rw [(mod1Switch_state s ev).1 _ hm]
          exact ⟨s, rfl, h⟩
        | sym s1 k =>
          rw [(mod1Switch_state s ev).2 _ _ hm]
          exact mainSwitch_textInv cfg hcfg s ev k h hev
      · rw [if_neg hmod]
        exact mainSwitch_textInv cfg hcfg s ev _ h hev

theorem init_textInv (cfg : Config) (hcfg : cfg.WF) : TextInv cfg (init cfg) := by
  unfold init
  apply textInv_match
  obtain ⟨h0, hB, _⟩ := hcfg
  have e : List.replicate cfg.BUFSIZ 0 = ([] : List Nat) ++ 0 :: List.replicate (cfg.BUFSIZ - 1) 0 := by
    rw [List.nil_append, ← List.replicate_succ]
    congr 1; omega
  exact textInv_mk cfg _ [] _ e (by simp) (by simp) hB (by simp) isCont_zero isCont_zero

theorem run_textInv (cfg : Config) (hcfg : cfg.WF) (evs : List Event) (s : State)
    (h : TextInv cfg s) (hev : ∀ e ∈ evs, e.WF) :
    ∃ s1, run cfg s evs = some s1 ∧ TextInv cfg s1 := by
  induction evs generalizing s with
  | nil => exact ⟨s, rfl, h⟩
  | cons e evs ih =>
    unfold run
    split
    · have he := hev e (List.mem_cons_self _ _)
      have : ∃ s1, handle cfg s e = some s1 ∧ TextInv cfg s1 := by
        cases e with
        | key ev => exact keypress_textInv cfg hcfg s ev h he
        | selection p => exact paste_textInv cfg s p h he
      obtain ⟨s1, h1, h2⟩ := this
      rw [h1]
      exact ih s1 h2 (fun e1 he1 => hev e1 (List.mem_cons_of_mem _ he1))
    · exact ⟨s, rfl, h⟩


theorem demoCfg_wf : demoCfg.WF := by
  unfold Config.WF
  decide

theorem demoEdits_wf : ∀ e ∈ demoEdits, e.WF := by
  intro e he
  simp only [demoEdits, List.mem_cons, List.mem_singleton, List.not_mem_nil, or_false] at he
  rcases he with h | h | h | h | h | h | h | h | h <;> subst h <;>
    simp only [Event.WF, XKeyEvent.WF] <;> decide

/-- C6: for candidates that are well-formed UTF-8 text (as `readstdin` stores
them, shorter than `BUFSIZ`) and every sequence of key events and pastes whose
inserted bytes are well-formed UTF-8 text, `run` reaches a state from the
initial empty buffer, and in that state `0 <= cursor <= strlen(text)` and the
cursor is on a rune boundary: it is 0 or the byte at the cursor is not a
continuation byte. -/
theorem C6_cursor_on_boundary (cfg : Config) (hcfg : cfg.WF) (evs : List Event)
    (hev : ∀ e ∈ evs, e.WF) :
    ∃ s, run cfg (init cfg) evs = some s ∧ 0 ≤ s.cursor ∧ s.cursor ≤ strlen s.text ∧
      (s.cursor = 0 ∨ isCont (s.text.getD s.cursor 0) = false) := by
  obtain ⟨s, h1, h2⟩ := run_textInv cfg hcfg evs (init cfg) (init_textInv cfg hcfg) hev
  exact ⟨s, h1, Nat.zero_le _, h2.2.2.2.1, Or.inr h2.2.2.2.2.1⟩


theorem C6_cursor_on_boundary_witness :
    ∃ s, run demoCfg (init demoCfg) demoEdits = some s ∧ 0 ≤ s.cursor ∧
      s.cursor ≤ strlen s.text ∧ (s.cursor = 0 ∨ isCont (s.text.getD s.cursor 0) = false) :=
  C6_cursor_on_boundary demoCfg demoCfg_wf demoEdits demoEdits_wf

/-! ## Tokens -/

/-- C11 as stated fails: for the query "an an" over the candidates "banana" and
"orange", matched case-insensitively, the match list is not "banana" alone:
"orange" is in it. -/
theorem C11_counterexample :
    matchTexts true [bytes "banana", bytes "orange"] (bytes "an an") ≠ [bytes "banana"] ∧
      1 ∈ matchList true [bytes "banana", bytes "orange"] (bytes "an an") := by
  decide

/-- C11 (amended): for the query "an an" over the candidates "banana" and
"orange", matched case-insensitively, both tokens are "an", "an" occurs in
"banana" and in "orange" (or-AN-ge), and the match list holds both candidates
in store order: "banana", "orange". -/
theorem C11_match_an_an :
    tokens (bytes "an an") = [bytes "an", bytes "an"] ∧
      Occurs true (bytes "an") (bytes "banana") ∧ Occurs true (bytes "an") (bytes "orange") ∧
      matchList true [bytes "banana", bytes "orange"] (bytes "an an") = [0, 1] ∧
      matchTexts true [bytes "banana", bytes "orange"] (bytes "an an")
        = [bytes "banana", bytes "orange"] := by
  decide

theorem strtok_splitOnP (s cur : List Nat) :
    strtok s cur = (List.splitOnP.go (fun b => b == 32) s cur).filter (fun t => !t.isEmpty) := by
  induction s generalizing cur with
  | nil =>
    cases cur <;> simp [strtok, List.splitOnP.go]
  | cons c s ih =>
    by_cases hc : c = 32
    · subst hc
      cases cur <;> simp [strtok, List.splitOnP.go, ih]
    · simp [strtok, List.splitOnP.go, hc, ih]

theorem strtok_eq_nil (s cur : List Nat) :
    strtok s cur = [] ↔ cur = [] ∧ ∀ b ∈ s, b = 32 := by
  induction s generalizing cur with
  | nil => cases cur <;> simp [strtok]
  | cons c s ih =>
    by_cases hc : c = 32
    · subst hc
      cases cur <;> simp [strtok, ih]
    · simp [strtok, hc, ih]

theorem matchLoop_all (ci : Bool) (items : List (List Nat)) (idx : Nat) (acc : Tiers) :
    matchLoop ci [] items idx acc
      = { acc with exact := acc.exact ++ List.range' idx items.length } := by
  induction items generalizing idx acc with
  | nil => simp [matchLoop]
  | cons t rest ih =>
    simp [matchLoop, ih, matchItem, appenditem, List.range'_succ]

theorem matchList_whole (ci : Bool) (items : List (List Nat)) (text : List Nat)
    (h : tokens text = []) : matchList ci items text = List.range items.length := by
  simp [matchList, h, matchLoop_all, linkTiers, List.range_eq_range']

/-- C12 as stated fails: the tab is not a separator.  The query that is a single
tab has one token, the tab itself, where runs of non-whitespace give none; and
over the candidates "a" and "b" its match list is empty, not the whole store. -/
theorem C12_counterexample :
    tokens [9] = [[9]] ∧ whitespaceRuns [9] = [] ∧
      matchList false [bytes "a", bytes "b"] [9] = [] ∧
      matchList false [bytes "a", bytes "b"] [9] ≠ List.range 2 := by
  decide

/-- C12 (amended): the tokens of the query are the maximal runs of bytes other
than the space (0x20), in order; the tab and every other byte belong to tokens.
The token sequence is empty exactly when the text is empty or holds spaces
only, and then the match list is the whole candidate store in store order. -/
theorem C12_tokens (ci : Bool) (items : List (List Nat)) (text : List Nat) :
    tokens text = spaceRuns text ∧
      (tokens text = [] ↔ ∀ b ∈ text, b = 32) ∧
      ((∀ b ∈ text, b = 32) → matchList ci items text = List.range items.length) := by
  refine ⟨?_, ?_, ?_⟩
  · simp [tokens, spaceRuns, strtok_splitOnP, List.splitOnP]
  · simp [tokens, strtok_eq_nil]
  · intro h
    exact matchList_whole ci items text ((strtok_eq_nil text []).2 ⟨rfl, h⟩)

theorem C12_tokens_witness :
    tokens [32, 32] = spaceRuns [32, 32] ∧
      (tokens [32, 32] = [] ↔ ∀ b ∈ ([32, 32] : List Nat), b = 32) ∧
      matchList true demoCfg.items [32, 32] = List.range demoCfg.items.length :=
  ⟨(C12_tokens true demoCfg.items [32, 32]).1, (C12_tokens true demoCfg.items [32, 32]).2.1,
    (C12_tokens true demoCfg.items [32, 32]).2.2 (by decide)⟩

/-! ## The range of nextrune -/

theorem runeDown_mid (text : List Nat) (m r : Nat) (h : runeDown text m = some r) :
    r ≤ m ∧ (r = 0 ∨ isCont (text.getD r 0) = false) ∧
      ∀ j, r < j → j ≤ m → isCont (text.getD j 0) = true := by
  induction m with
  | zero =>
    simp only [runeDown, Option.some.injEq] at h
    subst h
    exact ⟨le_refl _, Or.inl rfl, fun j h1 h2 => by omega⟩
  | succ m ih =>
    unfold runeDown at h
    cases hb : text[m + 1]? with
    | none => rw [hb] at h; simp at h
    | some b =>
      rw [hb] at h
      simp only [] at h
      by_cases hc : isCont b = true
      · rw [if_pos hc] at h
        obtain ⟨h1, h2, h3⟩ := ih h
        refine ⟨by omega, h2, fun j hj1 hj2 => ?_⟩
        by_cases hj : j = m + 1
        · subst hj
          rw [List.getD_eq_getElem?_getD, hb]
          exact hc
        · exact h3 j hj1 (by omega)
      · rw [if_neg hc] at h
        simp only [Option.some.injEq] at h
        subst h
        refine ⟨le_refl _, Or.inr ?_, fun j h1 h2 => by omega⟩
        rw [List.getD_eq_getElem?_getD, hb]
        simpa using hc

theorem nextrune_down (text : List Nat) (c : Nat) (h0 : 0 < c) (hc : c ≤ text.length) :
    ∃ r, nextrune text c (-1) = some r ∧ r < c ∧ (r = 0 ∨ isCont (text.getD r 0) = false) ∧
      ∀ j, r < j → j < c → isCont (text.getD j 0) = true := by
  unfold nextrune
  rw [if_neg (by decide), if_neg (by omega)]
  obtain ⟨r, hr, _, _⟩ := runeDown_some text (c - 1) (by omega)
  obtain ⟨h1, h2, h3⟩ := runeDown_mid text (c - 1) r hr
  exact ⟨r, hr, by omega, h2, fun j hj1 hj2 => h3 j hj1 (by omega)⟩

theorem nextrune_up_mid (text : List Nat) (c n : Nat) (h : nextrune text c 1 = some n) :
    ∀ j, c < j → j < n → isCont (text.getD j 0) = true := by
  unfold nextrune at h
  rw [if_pos rfl] at h
  obtain ⟨h1, _, _, h4⟩ := runeUp_some _ _ _ h
  intro j hj1 hj2
  have := h4 (j - (c + 1)) (by omega)
  rw [List.getD_eq_getElem?_getD, List.getElem?_drop] at this
  rw [List.getD_eq_getElem?_getD]
  have e : c + 1 + (j - (c + 1)) = j := by omega
  rw [e] at this
  exact this

/-- C19 as stated fails: in the array holding the string "a", `nextrune(-1)` at
cursor 0 returns `(size_t)-1`, and `nextrune(+1)` at cursor 1, the end of the
string, returns 2: both outside the range from 0 to `strlen(text) = 1`. -/
theorem C19_counterexample :
    strlen [97, 0, 0, 0] = 1 ∧ nextrune [97, 0, 0, 0] 0 (-1) = some (2 ^ 64 - 1) ∧
      nextrune [97, 0, 0, 0] 1 1 = some 2 := by
  decide

/-- C19 (amended): for every array `text` that holds a string, malformed UTF-8
included, and every cursor `c` with `0 <= c <= strlen(text)`: when `c > 0`,
`nextrune(-1)` returns an offset `r` with `0 <= r < c`, the nearest offset below
`c` that is 0 or not a continuation byte; when `c < strlen(text)`, `nextrune(+1)`
returns an offset `n` with `c < n <= strlen(text)`, the nearest offset above `c`
that is not a continuation byte.  (At `c = 0` backward and at `c = strlen(text)`
forward nothing clamps the result; the callers test for these cases.) -/
theorem C19_nextrune_range (text : List Nat) (c : Nat) (hterm : strlen text < text.length)
    (hc : c ≤ strlen text) :
    (0 < c → ∃ r, nextrune text c (-1) = some r ∧ r < c ∧
      (r = 0 ∨ isCont (text.getD r 0) = false) ∧
      ∀ j, r < j → j < c → isCont (text.getD j 0) = true) ∧
    (c < strlen text → ∃ n, nextrune text c 1 = some n ∧ c < n ∧ n ≤ strlen text ∧
      isCont (text.getD n 0) = false ∧
      ∀ j, c < j → j < n → isCont (text.getD j 0) = true) := by
  constructor
  · intro h0
    exact nextrune_down text c h0 (by omega)
  · intro h1
    obtain ⟨n, hn, h2, h3⟩ := nextrune_up_defined text c hterm h1
    exact ⟨n, hn, h2, h3, (nextrune_up_boundary text c n hn).2, nextrune_up_mid text c n hn⟩

theorem C19_nextrune_range_witness :
    (∃ r, nextrune [97, 195, 169, 0] 3 (-1) = some r ∧ r < 3 ∧
      (r = 0 ∨ isCont (([97, 195, 169, 0] : List Nat).getD r 0) = false) ∧
      ∀ j, r < j → j < 3 → isCont (([97, 195, 169, 0] : List Nat).getD j 0) = true) ∧
    (∃ n, nextrune [97, 195, 169, 0] 1 1 = some n ∧ 1 < n ∧ n ≤ strlen [97, 195, 169, 0] ∧
      isCont (([97, 195, 169, 0] : List Nat).getD n 0) = false ∧
      ∀ j, 1 < j → j < n → isCont (([97, 195, 169, 0] : List Nat).getD j 0) = true) :=
  ⟨(C19_nextrune_range [97, 195, 169, 0] 3 (by decide) (by decide)).1 (by decide),
   (C19_nextrune_range [97, 195, 169, 0] 1 (by decide) (by decide)).2 (by decide)⟩

/-! ## Statements about calcoffsets -/

theorem wsum_flow (cfg : Config) (hl : cfg.lines = 0) (l : List Nat) :
    wsum cfg l = cappedSum cfg (budget cfg) l := by
  have e : itemw cfg = fun it => min (cfg.textw (itemText cfg it)) (budget cfg) := by
    funext it
    simp [itemw, hl]
  unfold wsum cappedSum
  rw [e]

/-- C15 as stated fails: in a horizontal list with budget 62 whose first
candidate measures 104 pixels, `calcoffsets` does not stop at the anchor, where
the total of the measured widths already exceeds the budget: `next` is the
second candidate, and the page holds the first one, wider than the budget. -/
theorem C15_counterexample :
    wideCfg.lines = 0 ∧ budget wideCfg = 62 ∧
      (match_ wideCfg (init wideCfg)).mlist = [0, 1] ∧
      (match_ wideCfg (init wideCfg)).curr = some 0 ∧
      measuredSum wideCfg [0] = 104 ∧
      (match_ wideCfg (init wideCfg)).next = some 1 ∧
      page (match_ wideCfg (init wideCfg)) = [0] ∧
      measuredSum wideCfg (page (match_ wideCfg (init wideCfg))) > budget wideCfg := by
  decide

/-- C15 (amended): in a horizontal list (`lines = 0`) with budget `W` that is
bounded (no text has a negative width, `0 <= W`, and no `int` of `calcoffsets`
leaves its range: `2 * W <= INT_MAX`), for every match list, anchor and width
oracle, `calcoffsets` adds up the measured widths
each capped at `W` (`MIN(textw, n)`): `next` is the first node after the anchor
at which the running total of the capped widths, accumulated from the anchor,
exceeds `W`, and `NULL` if the total never exceeds `W`.  The page `[curr, next)`
is never empty, the capped widths of its nodes sum to at most `W`, and so do
their measured widths when none of them is wider than `W`. -/
theorem C15_flow_mode (cfg : Config) (s : State) (a : Nat) (hl : cfg.lines = 0)
    (hb : cfg.Bounded) (ha : s.curr = some a) (hlen : a < s.mlist.length) :
    (∀ q, (calcoffsets cfg s).next = some q →
      a < q ∧ q < s.mlist.length ∧
      (∀ m, 1 ≤ m → m ≤ q - a →
        cappedSum cfg (budget cfg) ((s.mlist.drop a).take m) ≤ budget cfg) ∧
      cappedSum cfg (budget cfg) ((s.mlist.drop a).take (q - a + 1)) > budget cfg) ∧
    ((calcoffsets cfg s).next = none →
      ∀ m, 1 ≤ m → m ≤ s.mlist.length - a →
        cappedSum cfg (budget cfg) ((s.mlist.drop a).take m) ≤ budget cfg) ∧
    page (calcoffsets cfg s) ≠ [] ∧
    cappedSum cfg (budget cfg) (page (calcoffsets cfg s)) ≤ budget cfg ∧
    ((∀ it ∈ page (calcoffsets cfg s), cfg.textw (itemText cfg it) ≤ budget cfg) →
      measuredSum cfg (page (calcoffsets cfg s)) ≤ budget cfg) := by
  have hf := bounded_noWrap cfg hb
  have hb0 := noWrap_budget cfg hf
  have hnext : (calcoffsets cfg s).next = nextOf cfg s.mlist a := by
    simp only [calcoffsets, ha]
  have hsome : ∀ q, nextOf cfg s.mlist a = some q →
      a < q ∧ q < s.mlist.length ∧
      (∀ m, 1 ≤ m → m ≤ q - a →
        cappedSum cfg (budget cfg) ((s.mlist.drop a).take m) ≤ budget cfg) ∧
      cappedSum cfg (budget cfg) ((s.mlist.drop a).take (q - a + 1)) > budget cfg := by
    intro q hq
    obtain ⟨h1, h2⟩ := nextOf_gt cfg hf s.mlist a q hq
    obtain ⟨_, _, h5, h6⟩ := nextLoop_some cfg hf _ _ _ _ (le_refl _) hb0 hq
    refine ⟨h1, h2, fun m hm1 hm2 => ?_, ?_⟩
    · have := h5 m hm1 hm2
      rw [wsum_flow cfg hl] at this
      linarith
    · rw [wsum_flow cfg hl] at h6
      linarith
  have hnone : nextOf cfg s.mlist a = none →
      ∀ m, 1 ≤ m → m ≤ s.mlist.length - a →
        cappedSum cfg (budget cfg) ((s.mlist.drop a).take m) ≤ budget cfg := by
    intro hq m hm1 hm2
    have := nextLoop_none cfg hf _ _ _ (le_refl _) hb0 hq m hm1 (by simpa using hm2)
    rw [wsum_flow cfg hl] at this
    linarith
  have hpage : page (calcoffsets cfg s) ≠ [] ∧
      cappedSum cfg (budget cfg) (page (calcoffsets cfg s)) ≤ budget cfg := by
    cases hq : nextOf cfg s.mlist a with
    | none =>
      have e : page (calcoffsets cfg s) = (s.mlist.drop a).take (s.mlist.length - a) := by
        simp only [page, calcoffsets, ha, hq, Option.getD_none, List.take_length]
        rw [List.take_of_length_le (by simp)]
      rw [e]
      refine ⟨?_, hnone hq _ (by omega) (le_refl _)⟩
      intro h
      have := congrArg List.length h
      simp at this
      omega
    | some q =>
      obtain ⟨h1, h2, h3, _⟩ := hsome q hq
      have e : page (calcoffsets cfg s) = (s.mlist.drop a).take (q - a) := by
        simp only [page, calcoffsets, ha, hq, Option.getD_some]
        rw [List.drop_take]
      rw [e]
      refine ⟨?_, h3 _ (by omega) (le_refl _)⟩
      intro h
      have := congrArg List.length h
      simp at this
      omega
  refine ⟨fun q hq => hsome q (hnext ▸ hq), fun hq => hnone (hnext ▸ hq), hpage.1, hpage.2, ?_⟩
  intro hall
  have e : measuredSum cfg (page (calcoffsets cfg s))
      = cappedSum cfg (budget cfg) (page (calcoffsets cfg s)) := by
    unfold measuredSum cappedSum
    congr 1
    apply List.map_congr_left
    intro it hit
    rw [min_eq_left (hall it hit)]
  rw [e]
  exact hpage.2

theorem C15_flow_mode_witness :
    (∀ q, (calcoffsets demoCfg (anchorState demoCfg)).next = some q →
      1 < q ∧ q < (anchorState demoCfg).mlist.length ∧
      (∀ m, 1 ≤ m → m ≤ q - 1 →
        cappedSum demoCfg (budget demoCfg) (((anchorState demoCfg).mlist.drop 1).take m)
          ≤ budget demoCfg) ∧
      cappedSum demoCfg (budget demoCfg) (((anchorState demoCfg).mlist.drop 1).take (q - 1 + 1))
        > budget demoCfg) ∧
    ((calcoffsets demoCfg (anchorState demoCfg)).next = none →
      ∀ m, 1 ≤ m → m ≤ (anchorState demoCfg).mlist.length - 1 →
        cappedSum demoCfg (budget demoCfg) (((anchorState demoCfg).mlist.drop 1).take m)
          ≤ budget demoCfg) ∧
    page (calcoffsets demoCfg (anchorState demoCfg)) ≠ [] ∧
    cappedSum demoCfg (budget demoCfg) (page (calcoffsets demoCfg (anchorState demoCfg)))
      ≤ budget demoCfg ∧
    ((∀ it ∈ page (calcoffsets demoCfg (anchorState demoCfg)),
        demoCfg.textw (itemText demoCfg it) ≤ budget demoCfg) →
      measuredSum demoCfg (page (calcoffsets demoCfg (anchorState demoCfg))) ≤ budget demoCfg) :=
  C15_flow_mode demoCfg (anchorState demoCfg) 1 (by decide) demoCfg_bounded (by decide)
    (by decide)

/-- C16 as stated fails: after typing "b" over the sample candidates the match
list is the single candidate "banana", it fits on one page, `next` is `NULL`,
but `prev` is not `NULL`: it is the anchor itself, the first node. -/
theorem C16_counterexample :
    (run demoCfg (init demoCfg) [Event.key (charKey 98)]).map
        (fun s => (s.mlist, page s, s.curr, s.next, s.prev))
      = some ([3], [3], some 0, none, some 0) := by
  decide

/-- C16 (amended): `match` ends with `curr = sel = matches; calcoffsets();`, and
for every layout, after these statements: when the match list is empty, `curr`,
`prev` and `next` are all `NULL`; when it is not empty, `curr` is its first node
and `prev` is that same first node, never `NULL`, and when `next` is `NULL` the
page is the whole list.  In a bounded layout (no negative measurement, no `int`
of `calcoffsets` out of range) `next` is `NULL` exactly when every running total
of the amounts `calcoffsets` adds up stays within the budget. -/
theorem C16_single_page (cfg : Config) (s : State) :
    match_ cfg s = atFirst cfg { s with mlist := matchList cfg.ci cfg.items (cstr s.text) } ∧
    (s.mlist = [] →
      (atFirst cfg s).curr = none ∧ (atFirst cfg s).prev = none ∧
        (atFirst cfg s).next = none) ∧
    (s.mlist ≠ [] →
      (atFirst cfg s).curr = some 0 ∧ (atFirst cfg s).prev = some 0 ∧
      (cfg.Bounded → ((atFirst cfg s).next = none ↔
        ∀ m, 1 ≤ m → m ≤ s.mlist.length → wsum cfg (s.mlist.take m) ≤ budget cfg)) ∧
      ((atFirst cfg s).next = none → page (atFirst cfg s) = s.mlist)) := by
  refine ⟨rfl, ?_, ?_⟩
  · intro h
    simp [atFirst, calcoffsets, listHead, h]
  · intro h
    have hn : (atFirst cfg s).next = nextLoop cfg s.mlist 0 0 := by
      simp [atFirst, calcoffsets, listHead, h, nextOf]
    refine ⟨by simp [atFirst, listHead, h], ?_, ?_, ?_⟩
    · simp [atFirst, calcoffsets, listHead, h, prevOf, prevLoop]
    · intro hb
      have hf := bounded_noWrap cfg hb
      have hb0 := noWrap_budget cfg hf
      rw [hn]
      constructor
      · intro h1 m hm1 hm2
        have := nextLoop_none cfg hf _ _ _ (le_refl _) hb0 h1 m hm1 hm2
        linarith
      · intro h1
        apply nextLoop_fit cfg hf _ _ _ (le_refl _) hb0
        intro m hm1 hm2
        have := h1 m hm1 hm2
        linarith
    · intro h1
      simp [page, h1]
      simp [atFirst, listHead, h, calcoffsets_mlist]

theorem C16_single_page_witness :
    (atFirst demoCfg (anchorState demoCfg)).curr = some 0 ∧
      (atFirst demoCfg (anchorState demoCfg)).prev = some 0 ∧
      ((atFirst demoCfg (anchorState demoCfg)).next = none ↔
        ∀ m, 1 ≤ m → m ≤ (anchorState demoCfg).mlist.length →
          wsum demoCfg ((anchorState demoCfg).mlist.take m) ≤ budget demoCfg) ∧
      ((atFirst demoCfg (anchorState demoCfg)).next = none →
        page (atFirst demoCfg (anchorState demoCfg)) = (anchorState demoCfg).mlist) :=
  ⟨((C16_single_page demoCfg (anchorState demoCfg)).2.2 (by decide)).1,
    ((C16_single_page demoCfg (anchorState demoCfg)).2.2 (by decide)).2.1,
    ((C16_single_page demoCfg (anchorState demoCfg)).2.2 (by decide)).2.2.1 demoCfg_bounded,
    ((C16_single_page demoCfg (anchorState demoCfg)).2.2 (by decide)).2.2.2⟩

theorem keypress_pageUp (cfg : Config) (s : State) (ev : XKeyEvent)
    (h : isPageUp ev = true) : keypress cfg s ev = mainSwitch cfg s ev .XK_Prior := by
  unfold isPageUp at h
  unfold keypress
  cases ho : ev.overflow <;> simp [ho] at h ⊢
  cases hc : ev.control <;> simp [hc] at h ⊢
  cases hm : ev.mod1 <;> simp [hm] at h ⊢
  · simp [h]
  · simp [h, mod1Switch]

/-- Page-up on the first page, in general: `calcoffsets` leaves `prev = curr`
there, so the case `XK_Prior` sets the selection to the first node and changes
nothing else. -/
theorem prior_first_page (cfg : Config) (s : State) (ev : XKeyEvent) (hc : s.curr = some 0)
    (hp : s.prev = some 0) (hn : s.next = nextOf cfg s.mlist 0) :
    mainSwitch cfg s ev .XK_Prior = some { s with sel := some 0 } := by
  have e : calcoffsets cfg { s with sel := some 0, curr := some 0 } = { s with sel := some 0 } := by
    cases s
    simp only [calcoffsets] at hc hp hn ⊢
    subst hc hp hn
    simp [prevOf, prevLoop]
  simp only [mainSwitch, hp]
  rw [hp] at e
  rw [e]

/-- C17 as stated fails: in a vertical list of three rows over four candidates,
after cursor-down the anchor is the first node, so there is no previous page,
the selection is the second node, and `prev` is the first node, not `NULL`;
page-up then is not ignored: `sel = curr = prev` moves the selection to the
first node.  Text, cursor, anchor, `prev` and `next` stay the same. -/
theorem C17_page_up_first_page :
    (run linesCfg (init linesCfg) [Event.key (plainKey .XK_Down)]).map
        (fun s => (s.mlist, s.sel, s.curr, s.prev, s.next))
      = some ([0, 1, 2, 3], some 1, some 0, some 0, some 3) ∧
    (run linesCfg (init linesCfg)
        [Event.key (plainKey .XK_Down), Event.key (plainKey .XK_Prior)]).map
        (fun s => (s.mlist, s.sel, s.curr, s.prev, s.next))
      = some ([0, 1, 2, 3], some 0, some 0, some 0, some 3) ∧
    (run linesCfg (init linesCfg) [Event.key (plainKey .XK_Down)]).map
        (fun s => (s.running, s.text, s.cursor))
      = (run linesCfg (init linesCfg)
        [Event.key (plainKey .XK_Down), Event.key (plainKey .XK_Prior)]).map
        (fun s => (s.running, s.text, s.cursor)) := by
  refine ⟨by decide, by decide, by decide⟩

/-! ## Statements about the cursor keys and completion -/

/-- C17 (amended): for every state whose pointers are the ones `calcoffsets`
leaves (the page invariant, which holds in every state `run` reaches) and in
which there is no previous page (the anchor is the first node of the match
list, or the list is empty), and every key event that is the page-up command:
text, cursor, anchor, `prev` and `next` are the same after it as before, and
the selection becomes the anchor, the first candidate of the list.  So the
state is unchanged when the list is empty or the first candidate was selected,
and the selection moves to the first candidate otherwise. -/
theorem C17_page_up_no_previous (cfg : Config) (s : State) (ev : XKeyEvent)
    (hev : isPageUp ev = true) (hinv : PageInv cfg s)
    (hfirst : s.curr = some 0 ∨ s.mlist = []) :
    keypress cfg s ev = some { s with sel := s.curr } ∧
      (s.mlist = [] ∨ s.sel = some 0 → keypress cfg s ev = some s) := by
  rw [keypress_pageUp cfg s ev hev]
  obtain ⟨text, cursor, mlist, prev, curr, next, sel, running, ret, out⟩ := s
  unfold PageInv at hinv
  simp only [] at hinv hfirst ⊢
  cases curr with
  | none =>
    simp only [] at hinv
    obtain ⟨_, h2, _, h4⟩ := hinv
    subst h2 h4
    simp [mainSwitch]
  | some c =>
    simp only [] at hinv
    obtain ⟨h1, h2, h3, _⟩ := hinv
    have hc0 : c = 0 := by
      rcases hfirst with h | h
      · exact Option.some.inj h
      · rw [h] at h1
        simp at h1
    subst hc0
    have hp : prev = some 0 := by
      rw [h3]
      simp [prevOf, prevLoop]
    rw [prior_first_page cfg _ ev rfl hp h2]
    refine ⟨rfl, fun h => ?_⟩
    rcases h with h | h
    · rw [h] at h1
      simp at h1
    · rw [h]

theorem linesCfg_bounded : linesCfg.Bounded := by
  unfold Config.Bounded
  rw [if_pos (by decide)]
  decide

theorem C17_page_up_no_previous_witness :
    keypress linesCfg (kDown linesCfg (init linesCfg)) (plainKey .XK_Prior)
        = some { kDown linesCfg (init linesCfg) with
                  sel := (kDown linesCfg (init linesCfg)).curr } ∧
      ((kDown linesCfg (init linesCfg)).mlist = [] ∨
          (kDown linesCfg (init linesCfg)).sel = some 0 →
        keypress linesCfg (kDown linesCfg (init linesCfg)) (plainKey .XK_Prior)
          = some (kDown linesCfg (init linesCfg))) :=
  C17_page_up_no_previous linesCfg (kDown linesCfg (init linesCfg)) (plainKey .XK_Prior)
    (by decide)
    (pageInv_kDown linesCfg (bounded_noWrap linesCfg linesCfg_bounded) _
      (pageInv_match linesCfg (bounded_noWrap linesCfg linesCfg_bounded) _))
    (Or.inl (by decide))

theorem keypress_left (cfg : Config) (s : State) (ev : XKeyEvent) (h : isLeft ev = true) :
    keypress cfg s ev = kLeft cfg s := by
  unfold isLeft at h
  unfold keypress
  cases ho : ev.overflow <;> simp [ho] at h ⊢
  cases hc : ev.control <;> simp [hc] at h ⊢
  · simp [h.1, h.2, mainSwitch]
  · simp [h, controlSwitch, mainSwitch]

theorem keypress_right (cfg : Config) (s : State) (ev : XKeyEvent) (h : isRight ev = true) :
    keypress cfg s ev = kRight cfg s := by
  unfold isRight at h
  unfold keypress
  cases ho : ev.overflow <;> simp [ho] at h ⊢
  cases hc : ev.control <;> simp [hc] at h ⊢
  · simp [h.1, h.2, mainSwitch]
  · simp [h, controlSwitch, mainSwitch]

theorem keypress_complete (cfg : Config) (s : State) (ev : XKeyEvent)
    (h : isComplete ev = true) : keypress cfg s ev = mainSwitch cfg s ev .XK_Tab := by
  unfold isComplete at h
  unfold keypress
  cases ho : ev.overflow <;> simp [ho] at h ⊢
  cases hc : ev.control <;> simp [hc] at h ⊢
  · simp [h.1, h.2]
  · simp [h, controlSwitch]

theorem kUp_sel (cfg : Config) (s : State) (p : Nat) (h : s.sel = some (p + 1)) :
    (kUp cfg s).sel = some p := by
  unfold kUp
  rw [h]
  simp only [left]
  rw [if_neg (by omega)]
  simp only [Nat.add_sub_cancel]
  split <;> simp

/-- C18 as stated fails: in a horizontal list, after typing "a" and pressing
cursor-right at the end of the text the second match is selected and the cursor
is at offset 1, not at the start; cursor-left then leaves the cursor at 1 and
moves the selection (and the anchor) to the first match. -/
theorem C18_counterexample :
    demoCfg.lines = 0 ∧
    (run demoCfg (init demoCfg) [Event.key (charKey 97), Event.key (plainKey .XK_Right)]).map
        (fun s => (cstr s.text, s.cursor, s.sel, s.curr))
      = some ([97], 1, some 1, some 1) ∧
    (run demoCfg (init demoCfg) [Event.key (charKey 97), Event.key (plainKey .XK_Right),
        Event.key (plainKey .XK_Left)]).map
        (fun s => (cstr s.text, s.cursor, s.sel, s.curr))
      = some ([97], 1, some 0, some 0) := by
  refine ⟨by decide, by decide, by decide⟩

/-- C18 (amended): for every state whose array holds a string with the cursor
inside it.  Cursor-left, with the cursor not at the start, moves the cursor to
the previous rune boundary and leaves everything else, `sel` and `curr`
included, unchanged when no candidate is selected, or the selected candidate is
the first of the match list, or the list is vertical.  In a horizontal list with
a selected candidate that has a left neighbour, cursor-left moves the selection
to that neighbour, wherever the cursor is, and leaves text and cursor unchanged.
Cursor-right, with the cursor not at the end of the text, moves the cursor to
the next rune boundary and leaves everything else unchanged, in both layouts;
cursor-right changes the selection only with the cursor at the end of the text
in a horizontal list. -/
theorem C18_cursor_keys (cfg : Config) (s : State) (ev : XKeyEvent)
    (hterm : strlen s.text < s.text.length) (hcur : s.cursor ≤ strlen s.text) :
    (isLeft ev = true → 0 < s.cursor → (s.sel = none ∨ s.sel = some 0 ∨ 0 < cfg.lines) →
      ∃ r, keypress cfg s ev = some { s with cursor := r } ∧ r < s.cursor ∧
        (r = 0 ∨ isCont (s.text.getD r 0) = false) ∧
        ∀ j, r < j → j < s.cursor → isCont (s.text.getD j 0) = true) ∧
    (isLeft ev = true → cfg.lines = 0 → ∀ p, s.sel = some (p + 1) →
      keypress cfg s ev = some (kUp cfg s) ∧ (kUp cfg s).sel = some p ∧
        (kUp cfg s).text = s.text ∧ (kUp cfg s).cursor = s.cursor) ∧
    (isRight ev = true → s.cursor < strlen s.text →
      ∃ n, keypress cfg s ev = some { s with cursor := n } ∧ s.cursor < n ∧ n ≤ strlen s.text ∧
        isCont (s.text.getD n 0) = false ∧
        ∀ j, s.cursor < j → j < n → isCont (s.text.getD j 0) = true) ∧
    (isRight ev = true → ∀ s1, keypress cfg s ev = some s1 → s1.sel ≠ s.sel →
      s.cursor = strlen s.text ∧ cfg.lines = 0) := by
  refine ⟨?_, ?_, ?_, ?_⟩
  · intro hev h0 hsel
    obtain ⟨r, hr, h1, h2, h3⟩ := nextrune_down s.text s.cursor h0 (by omega)
    refine ⟨r, ?_, h1, h2, h3⟩
    rw [keypress_left cfg s ev hev]
    unfold kLeft
    have hc : s.cursor > 0 ∧ (s.sel = none ∨ s.sel.bind left = none ∨ cfg.lines > 0) := by
      refine ⟨h0, ?_⟩
      rcases hsel with h | h | h
      · exact Or.inl h
      · right; left; rw [h]; rfl
      · exact Or.inr (Or.inr h)
    rw [if_pos hc, hr]
  · intro hev hl p hp
    refine ⟨?_, kUp_sel cfg s p hp, (kUp_text cfg s).1, (kUp_text cfg s).2⟩
    rw [keypress_left cfg s ev hev]
    unfold kLeft
    have hc : ¬ (s.cursor > 0 ∧ (s.sel = none ∨ s.sel.bind left = none ∨ cfg.lines > 0)) := by
      rw [hp, hl]
      simp [left]
    rw [if_neg hc, if_neg (by omega)]
  · intro hev hlt
    obtain ⟨n, hn, h1, h2⟩ := nextrune_up_defined s.text s.cursor hterm hlt
    refine ⟨n, ?_, h1, h2, (nextrune_up_boundary _ _ _ hn).2, nextrune_up_mid _ _ _ hn⟩
    obtain ⟨b, hb, _⟩ := text_at_cursor s hterm hcur
    have hb0 : b ≠ 0 := by
      intro h0
      subst h0
      have hmem : s.text.getD s.cursor 0 ∈ cstr s.text := by
        have hlt2 : s.cursor < (cstr s.text).length := hlt
        have : (cstr s.text)[s.cursor]? = s.text[s.cursor]? := by
          obtain ⟨g, hg⟩ := cstr_decomp s.text hterm
          conv_rhs => rw [hg]
          rw [List.getElem?_append_left hlt2]
        rw [List.getD_eq_getElem?_getD, ← this, List.getElem?_eq_getElem hlt2]
        exact List.getElem_mem _
      rw [List.getD_eq_getElem?_getD, hb] at hmem
      exact cstr_nul_free s.text 0 hmem rfl
    rw [keypress_right cfg s ev hev]
    unfold kRight
    rw [hb]
    simp only []
    rw [if_pos hb0, hn]
  · intro hev s1 hs1 hne
    rw [keypress_right cfg s ev hev] at hs1
    obtain ⟨b, hb, hlt⟩ := text_at_cursor s hterm hcur
    unfold kRight at hs1
    rw [hb] at hs1
    simp only [] at hs1
    by_cases hb0 : b = 0
    · rw [if_neg (by simpa using hb0)] at hs1
      by_cases hl : cfg.lines > 0
      · rw [if_pos hl] at hs1
        simp only [Option.some.injEq] at hs1
        subst hs1
        exact absurd rfl hne
      · refine ⟨?_, by omega⟩
        subst hb0
        by_contra hc
        have hlt2 : s.cursor < (cstr s.text).length := by unfold strlen at hcur hc; omega
        have hmem : s.text.getD s.cursor 0 ∈ cstr s.text := by
          have : (cstr s.text)[s.cursor]? = s.text[s.cursor]? := by
            obtain ⟨g, hg⟩ := cstr_decomp s.text hterm
            conv_rhs => rw [hg]
            rw [List.getElem?_append_left hlt2]
          rw [List.getD_eq_getElem?_getD, ← this, List.getElem?_eq_getElem hlt2]
          exact List.getElem_mem _
        rw [List.getD_eq_getElem?_getD, hb] at hmem
        exact cstr_nul_free s.text 0 hmem rfl
    · rw [if_pos hb0] at hs1
      obtain ⟨n, hn, _⟩ := nextrune_up_defined s.text s.cursor hterm (hlt hb0)
      rw [hn] at hs1
      simp only [Option.some.injEq] at hs1
      subst hs1
      exact absurd rfl hne

theorem C18_cursor_keys_witness :
    (∃ r, keypress demoCfg demoState (plainKey .XK_Left) = some { demoState with cursor := r } ∧
        r < demoState.cursor ∧ (r = 0 ∨ isCont (demoState.text.getD r 0) = false) ∧
        ∀ j, r < j → j < demoState.cursor → isCont (demoState.text.getD j 0) = true) ∧
    (keypress demoCfg selState (plainKey .XK_Left) = some (kUp demoCfg selState) ∧
        (kUp demoCfg selState).sel = some 0 ∧ (kUp demoCfg selState).text = selState.text ∧
        (kUp demoCfg selState).cursor = selState.cursor) ∧
    (∃ n, keypress demoCfg demoState (plainKey .XK_Right) = some { demoState with cursor := n } ∧
        demoState.cursor < n ∧ n ≤ strlen demoState.text ∧
        isCont (demoState.text.getD n 0) = false ∧
        ∀ j, demoState.cursor < j → j < n → isCont (demoState.text.getD j 0) = true) :=
  ⟨(C18_cursor_keys demoCfg demoState (plainKey .XK_Left) (by decide) (by decide)).1
      (by decide) (by decide) (Or.inl rfl),
    (C18_cursor_keys demoCfg selState (plainKey .XK_Left) (by decide) (by decide)).2.1
      (by decide) (by decide) 0 rfl,
    (C18_cursor_keys demoCfg demoState (plainKey .XK_Right) (by decide) (by decide)).2.2.1
      (by decide) (by decide)⟩

theorem strncpy_string (dst t : List Nat) (h : t.length < dst.length) :
    strncpy dst t dst.length = t ++ 0 :: List.replicate (dst.length - t.length - 1) 0 := by
  unfold strncpy
  rw [List.drop_length, List.append_nil, List.take_append_eq_append_take,
    List.take_of_length_le (by omega), List.take_replicate]
  congr 1
  have : min (dst.length - t.length) dst.length = (dst.length - t.length - 1) + 1 := by
    omega
  rw [this, List.replicate_succ]

theorem match_first (cfg : Config) (s : State) :
    (match_ cfg s).mlist = matchList cfg.ci cfg.items (cstr s.text) ∧
      (match_ cfg s).curr = listHead (match_ cfg s).mlist ∧
      (match_ cfg s).sel = listHead (match_ cfg s).mlist ∧
      (match_ cfg s).running = s.running ∧ (match_ cfg s).ret = s.ret ∧
      (match_ cfg s).out = s.out := by
  simp [match_, calcoffsets_mlist]

/-- C20: for every state and every key event that is the complete command (Tab,
or Control-i).  With a selected candidate whose text is a string shorter than
the array `text`, `keypress` returns a state in which the text is the
candidate's text, the cursor is its byte length, and the match list, `curr`,
`sel`, `prev` and `next` are those `match` computes for the new text: `curr` and
`sel` are the first match.  With no selected candidate the state is unchanged. -/
theorem C20_complete (cfg : Config) (s : State) (ev : XKeyEvent) (hev : isComplete ev = true) :
    (s.sel = none → keypress cfg s ev = some s) ∧
    (∀ p, s.sel = some p → (∀ b ∈ nodeText cfg s.mlist p, b ≠ 0) →
      (nodeText cfg s.mlist p).length < s.text.length →
      ∃ s1, keypress cfg s ev = some s1 ∧
        cstr s1.text = nodeText cfg s.mlist p ∧
        s1.text.length = s.text.length ∧
        s1.cursor = (nodeText cfg s.mlist p).length ∧
        s1 = match_ cfg { s with text := s1.text, cursor := s1.cursor } ∧
        s1.mlist = matchList cfg.ci cfg.items (nodeText cfg s.mlist p) ∧
        s1.curr = listHead s1.mlist ∧ s1.sel = listHead s1.mlist ∧
        s1.running = s.running ∧ s1.ret = s.ret ∧ s1.out = s.out) := by
  rw [keypress_complete cfg s ev hev]
  constructor
  · intro h
    simp [mainSwitch, h]
  · intro p hp hnul hlen
    have e := strncpy_string s.text (nodeText cfg s.mlist p) hlen
    have hc : cstr (strncpy s.text (nodeText cfg s.mlist p) s.text.length)
        = nodeText cfg s.mlist p := by
      rw [e, cstr_append_nul _ _ hnul]
    have hs : strlen (strncpy s.text (nodeText cfg s.mlist p) s.text.length)
        = (nodeText cfg s.mlist p).length := by
      unfold strlen; rw [hc]
    have hlen2 : (strncpy s.text (nodeText cfg s.mlist p) s.text.length).length
        = s.text.length := by
      rw [e]; simp; omega
    simp only [mainSwitch, hp]
    rw [if_pos hlen]
    refine ⟨_, rfl, ?_, ?_, ?_, ?_, ?_, ?_⟩
    · rw [match_text]; exact hc
    · rw [match_text]; exact hlen2
    · rw [match_cursor]; exact hs
    · simp only [match_text, match_cursor]
    · rw [(match_first cfg _).1]
      simp only [hc]
    · exact (match_first cfg _).2

theorem C20_complete_witness :
    ∃ s1, keypress demoCfg selState (plainKey .XK_Tab) = some s1 ∧
        cstr s1.text = nodeText demoCfg selState.mlist 1 ∧
        s1.text.length = selState.text.length ∧
        s1.cursor = (nodeText demoCfg selState.mlist 1).length ∧
        s1 = match_ demoCfg { selState with text := s1.text, cursor := s1.cursor } ∧
        s1.mlist = matchList demoCfg.ci demoCfg.items (nodeText demoCfg selState.mlist 1) ∧
        s1.curr = listHead s1.mlist ∧ s1.sel = listHead s1.mlist ∧
        s1.running = selState.running ∧ s1.ret = selState.ret ∧ s1.out = selState.out :=
  (C20_complete demoCfg selState (plainKey .XK_Tab) (by decide)).2 1 (by decide) (by decide)
    (by decide)

/-! ## The links that match leaves in the items -/

theorem linked_congr (lk lk1 : Links) (l : List Nat) (p : Option Nat)
    (h : ∀ y ∈ l, lk1.left y = lk.left y ∧ lk1.right y = lk.right y) (hl : Linked lk p l) :
    Linked lk1 p l := by
  induction l generalizing p with
  | nil => trivial
  | cons x l ih =>
    obtain ⟨h1, h2, h3⟩ := hl
    have hx := h x (by simp)
    exact ⟨by rw [hx.1, h1], by rw [hx.2, h2], ih (some x) (fun y hy => h y (by simp [hy])) h3⟩

theorem linked_toList (lk : Links) (l : List Nat) (p : Option Nat) (fuel : Nat)
    (hl : Linked lk p l) (hf : l.length ≤ fuel) : Ptr.toList lk fuel l.head? = l := by
  induction l generalizing p fuel with
  | nil => cases fuel <;> rfl
  | cons x l ih =>
    obtain ⟨_, h2, h3⟩ := hl
    cases fuel with
    | zero => simp at hf
    | succ fuel =>
      simp only [List.head?_cons, Ptr.toList]
      rw [h2, ih (some x) fuel h3 (by simpa using hf)]

theorem linked_snoc (lk : Links) (l : List Nat) (p : Option Nat) (x z : Nat)
    (hl : Linked lk p l) (hx : x ∉ l) (hnd : l.Nodup) (hz : l.getLast? = some z) :
    Linked { left := Function.update lk.left x (some z),
             right := Function.update (Function.update lk.right z (some x)) x none }
      p (l ++ [x]) := by
  induction l generalizing p with
  | nil => simp at hz
  | cons a l ih =>
    obtain ⟨h1, h2, h3⟩ := hl
    have hax : a ≠ x := fun h => hx (by simp [h])
    cases l with
    | nil =>
      simp only [List.getLast?_singleton, Option.some.injEq] at hz
      subst hz
      refine ⟨?_, ?_, ?_, ?_, trivial⟩
      · simp [Function.update, hax, h1]
      · simp [Function.update, hax]
      · simp [Function.update]
      · simp [Function.update]
    | cons b l =>
      have hz2 : (b :: l).getLast? = some z := by simpa [List.getLast?_cons_cons] using hz
      have hza : z ≠ a := by
        intro h
        have hm : z ∈ b :: l := List.mem_of_getLast?_eq_some hz2
        rw [h] at hm
        exact (List.nodup_cons.1 hnd).1 hm
      refine ⟨?_, ?_, ?_⟩
      · simp [Function.update, hax, h1]
      · simp only [List.cons_append, List.head?_cons]
        simp only [List.head?_cons] at h2
        simp [Function.update, hax, Ne.symm hza, h2]
      · exact ih (some a) h3 (fun h => hx (by simp [h])) (List.nodup_cons.1 hnd).2 hz2

theorem appenditem_represents (lk : Links) (e : Ends) (A : List Nat) (x : Nat)
    (hr : Represents lk e A) (hx : x ∉ A) (hnd : A.Nodup) :
    Represents (Ptr.appenditem x lk e).1 (Ptr.appenditem x lk e).2 (A ++ [x]) := by
  obtain ⟨h1, h2, h3⟩ := hr
  unfold Ptr.appenditem
  cases hl : A.getLast? with
  | none =>
    have hA : A = [] := List.getLast?_eq_none_iff.1 hl
    subst hA
    rw [h2, hl]
    refine ⟨rfl, rfl, ?_, ?_, trivial⟩
    · simp [Function.update]
    · simp [Function.update]
  | some z =>
    rw [h2, hl]
    have hA : A ≠ [] := by
      intro h
      rw [h] at hl
      simp at hl
    refine ⟨?_, ?_, linked_snoc lk A none x z h3 hx hnd hl⟩
    · show e.first = (A ++ [x]).head?
      rw [h1]
      cases A with
      | nil => exact absurd rfl hA
      | cons a A => rfl
    · show some x = (A ++ [x]).getLast?
      simp

theorem appenditem_frame (lk : Links) (e : Ends) (A : List Nat) (x y : Nat)
    (hr : Represents lk e A) (hy : y ≠ x) (hyA : y ∉ A) :
    (Ptr.appenditem x lk e).1.left y = lk.left y ∧
      (Ptr.appenditem x lk e).1.right y = lk.right y := by
  obtain ⟨_, h2, _⟩ := hr
  unfold Ptr.appenditem
  cases hl : e.last with
  | none => simp [Function.update, hy]
  | some z =>
    have hz : z ∈ A := List.mem_of_getLast?_eq_some (h2 ▸ hl)
    have hyz : y ≠ z := fun h => hyA (h ▸ hz)
    simp [Function.update, hy, hyz]

theorem linked_splice (lk : Links) (A B : List Nat) (p : Option Nat) (me lf : Nat)
    (hA : Linked lk p A) (hB : Linked lk none B) (hme : A.getLast? = some me)
    (hlf : B.head? = some lf) (hnd : (A ++ B).Nodup) :
    Linked { left := Function.update lk.left lf (some me),
             right := Function.update lk.right me (some lf) } p (A ++ B) := by
  induction A generalizing p with
  | nil => simp at hme
  | cons a A ih =>
    obtain ⟨h1, h2, h3⟩ := hA
    have hnd2 := hnd
    simp only [List.cons_append, List.nodup_cons, List.mem_append, not_or] at hnd2
    obtain ⟨⟨haA, haB⟩, hrest⟩ := hnd2
    have hlfB : lf ∈ B := List.mem_of_mem_head? hlf
    have half : a ≠ lf := fun h => haB (h ▸ hlfB)
    cases A with
    | nil =>
      simp only [List.getLast?_singleton, Option.some.injEq] at hme
      subst hme
      cases B with
      | nil => simp at hlf
      | cons b B =>
        simp only [List.head?_cons, Option.some.injEq] at hlf
        subst hlf
        obtain ⟨g1, g2, g3⟩ := hB
        simp only [List.nil_append, List.nodup_cons] at hrest
        refine ⟨?_, ?_, ?_, ?_, ?_⟩
        · simp [Function.update, half, h1]
        · simp [Function.update]
        · simp [Function.update]
        · simp [Function.update, Ne.symm half, g2]
        · apply linked_congr lk _ B (some b) _ g3
          intro y hy
          have hyb : y ≠ b := fun h => hrest.1 (h ▸ hy)
          have hya : y ≠ a := fun h => haB (by rw [← h]; simp [hy])
          simp [Function.update, hyb, hya]
    | cons c A =>
      have hme2 : (c :: A).getLast? = some me := by simpa [List.getLast?_cons_cons] using hme
      have hmeA : me ∈ c :: A := List.mem_of_getLast?_eq_some hme2
      have hame : a ≠ me := fun h => haA (h ▸ hmeA)
      refine ⟨?_, ?_, ?_⟩
      · simp [Function.update, half, h1]
      · simp only [List.head?_cons] at h2
        simp [Function.update, hame, h2]
      · exact ih (some a) h3 hme2 hrest

theorem splice_represents (lk : Links) (m l : Ends) (A B : List Nat)
    (hA : Represents lk m A) (hB : Represents lk l B) (hnd : (A ++ B).Nodup) :
    ∃ r, Ptr.splice lk m l = some r ∧ Represents r.1 r.2 (A ++ B) ∧
      ∀ y, y ∉ A ++ B → r.1.left y = lk.left y ∧ r.1.right y = lk.right y := by
  obtain ⟨a1, a2, a3⟩ := hA
  obtain ⟨b1, b2, b3⟩ := hB
  unfold Ptr.splice
  cases B with
  | nil =>
    rw [b1]
    simp only [List.head?_nil, List.append_nil]
    exact ⟨_, rfl, ⟨a1, a2, a3⟩, fun y _ => ⟨rfl, rfl⟩⟩
  | cons b B =>
    rw [b1]
    simp only [List.head?_cons]
    cases A with
    | nil =>
      rw [a1]
      simp only [List.head?_nil, List.nil_append]
      exact ⟨_, rfl, ⟨rfl, b2, b3⟩, fun y _ => ⟨rfl, rfl⟩⟩
    | cons a A =>
      rw [a1]
      simp only [List.head?_cons]
      obtain ⟨me, hme⟩ : ∃ me, (a :: A).getLast? = some me :=
        ⟨(a :: A).getLast (by simp), List.getLast?_eq_getLast _ _⟩
      rw [a2, hme]
      refine ⟨_, rfl, ⟨rfl, ?_, linked_splice lk (a :: A) (b :: B) none me b a3 b3 hme rfl hnd⟩, ?_⟩
      · show l.last = (a :: A ++ b :: B).getLast?
        rw [b2, List.getLast?_append_of_ne_nil _ (by simp)]
      · intro y hy
        have hme1 : me ∈ a :: A := List.mem_of_getLast?_eq_some hme
        have hyb : y ≠ b := fun h => hy (by rw [h]; simp)
        have hym : y ≠ me := fun h => hy (by rw [h]; exact List.mem_append_left _ hme1)
        simp [Function.update, hyb, hym]

theorem tiers_nodup (E P S : List Nat) (h : (E ++ P ++ S).Nodup) :
    E.Nodup ∧ P.Nodup ∧ S.Nodup ∧ (∀ y ∈ E, y ∉ P) ∧ (∀ y ∈ E, y ∉ S) ∧ (∀ y ∈ P, y ∉ S) := by
  rw [List.nodup_append, List.nodup_append] at h
  obtain ⟨⟨hE, hP, hEP⟩, hS, hEPS⟩ := h
  refine ⟨hE, hP, hS, fun y hy hy2 => hEP hy hy2, fun y hy hy2 => ?_, fun y hy hy2 => ?_⟩
  · exact hEPS (List.mem_append_left _ hy) hy2
  · exact hEPS (List.mem_append_right _ hy) hy2

theorem matchItem_represents (ci : Bool) (tokv : List (List Nat)) (st : PtrState) (t : Tiers)
    (idx : Nat) (txt : List Nat)
    (hE : Represents st.links st.exact t.exact) (hP : Represents st.links st.pfx t.pfx)
    (hS : Represents st.links st.substr t.substr)
    (hlt : ∀ x ∈ t.exact ++ t.pfx ++ t.substr, x < idx)
    (hnd : (t.exact ++ t.pfx ++ t.substr).Nodup) :
    Represents (Ptr.matchItem ci tokv st idx txt).links (Ptr.matchItem ci tokv st idx txt).exact
        (matchItem ci tokv t idx txt).exact ∧
      Represents (Ptr.matchItem ci tokv st idx txt).links (Ptr.matchItem ci tokv st idx txt).pfx
        (matchItem ci tokv t idx txt).pfx ∧
      Represents (Ptr.matchItem ci tokv st idx txt).links
        (Ptr.matchItem ci tokv st idx txt).substr (matchItem ci tokv t idx txt).substr ∧
      (∀ x ∈ (matchItem ci tokv t idx txt).exact ++ (matchItem ci tokv t idx txt).pfx
          ++ (matchItem ci tokv t idx txt).substr, x < idx + 1) ∧
      ((matchItem ci tokv t idx txt).exact ++ (matchItem ci tokv t idx txt).pfx
          ++ (matchItem ci tokv t idx txt).substr).Nodup := by
  obtain ⟨nE, nP, nS, dEP, dES, dPS⟩ := tiers_nodup _ _ _ hnd
  have hidx : idx ∉ t.exact ++ t.pfx ++ t.substr := fun h => Nat.lt_irrefl _ (hlt idx h)
  have hiE : idx ∉ t.exact := fun h => hidx (by simp [h])
  have hiP : idx ∉ t.pfx := fun h => hidx (by simp [h])
  have hiS : idx ∉ t.substr := fun h => hidx (by simp [h])
  have hne : ∀ y ∈ t.exact ++ t.pfx ++ t.substr, y ≠ idx := fun y hy h => hidx (h ▸ hy)
  have hcons : (idx :: (t.exact ++ t.pfx ++ t.substr)).Nodup := List.nodup_cons.2 ⟨hidx, hnd⟩
  have hlt1 : ∀ x ∈ idx :: (t.exact ++ t.pfx ++ t.substr), x < idx + 1 := by
    intro x hx
    rcases List.mem_cons.1 hx with h | h
    · omega
    · exact Nat.lt_succ_of_lt (hlt x h)
  unfold Ptr.matchItem matchItem appenditem
  simp only []
  by_cases hall : (tokv.all fun tok => fstrstr ci txt tok) = true
  · rw [if_pos hall, if_pos hall]
    by_cases hex : (tokv.isEmpty ||
        fstrncmp ci (tokv.headD []) txt ((tokv.headD []).length + 1)) = true
    · rw [if_pos hex, if_pos hex]
      have hperm : (t.exact ++ [idx] ++ t.pfx ++ t.substr).Perm
          (idx :: (t.exact ++ t.pfx ++ t.substr)) := by
        simp
      refine ⟨appenditem_represents _ _ _ _ hE hiE nE, ⟨hP.1, hP.2.1, ?_⟩, ⟨hS.1, hS.2.1, ?_⟩,
        fun x hx => hlt1 x (hperm.mem_iff.1 hx), hperm.nodup_iff.2 hcons⟩
      · exact linked_congr _ _ _ _ (fun y hy => appenditem_frame _ _ _ _ _ hE
          (hne y (by simp [hy])) (fun h => dEP y h hy)) hP.2.2
      · exact linked_congr _ _ _ _ (fun y hy => appenditem_frame _ _ _ _ _ hE
          (hne y (by simp [hy])) (fun h => dES y h hy)) hS.2.2
    · rw [if_neg hex, if_neg hex]
      by_cases hpre : fstrncmp ci (tokv.headD []) txt (tokv.headD []).length = true
      · rw [if_pos hpre, if_pos hpre]
        have hperm : (t.exact ++ (t.pfx ++ [idx]) ++ t.substr).Perm
            (idx :: (t.exact ++ t.pfx ++ t.substr)) := by
          have := @List.perm_middle _ idx (t.exact ++ t.pfx) t.substr
          simpa using this
        refine ⟨⟨hE.1, hE.2.1, ?_⟩, appenditem_represents _ _ _ _ hP hiP nP,
          ⟨hS.1, hS.2.1, ?_⟩, fun x hx => hlt1 x (hperm.mem_iff.1 hx),
          hperm.nodup_iff.2 hcons⟩
        · exact linked_congr _ _ _ _ (fun y hy => appenditem_frame _ _ _ _ _ hP
            (hne y (by simp [hy])) (dEP y hy)) hE.2.2
        · exact linked_congr _ _ _ _ (fun y hy => appenditem_frame _ _ _ _ _ hP
            (hne y (by simp [hy])) (fun h => dPS y h hy)) hS.2.2
      · rw [if_neg hpre, if_neg hpre]
        have hperm : (t.exact ++ t.pfx ++ (t.substr ++ [idx])).Perm
            (idx :: (t.exact ++ t.pfx ++ t.substr)) := by
          have := @List.perm_middle _ idx (t.exact ++ t.pfx ++ t.substr) []
          simpa using this
        refine ⟨⟨hE.1, hE.2.1, ?_⟩, ⟨hP.1, hP.2.1, ?_⟩,
          appenditem_represents _ _ _ _ hS hiS nS, fun x hx => hlt1 x (hperm.mem_iff.1 hx),
          hperm.nodup_iff.2 hcons⟩
        · exact linked_congr _ _ _ _ (fun y hy => appenditem_frame _ _ _ _ _ hS
            (hne y (by simp [hy])) (dES y hy)) hE.2.2
        · exact linked_congr _ _ _ _ (fun y hy => appenditem_frame _ _ _ _ _ hS
            (hne y (by simp [hy])) (dPS y hy)) hP.2.2
  · rw [if_neg hall, if_neg hall]
    exact ⟨hE, hP, hS, fun x hx => Nat.lt_succ_of_lt (hlt x hx), hnd⟩

theorem matchLoop_represents (ci : Bool) (tokv : List (List Nat)) (items : List (List Nat))
    (idx : Nat) (st : PtrState) (t : Tiers)
    (hE : Represents st.links st.exact t.exact) (hP : Represents st.links st.pfx t.pfx)
    (hS : Represents st.links st.substr t.substr)
    (hlt : ∀ x ∈ t.exact ++ t.pfx ++ t.substr, x < idx)
    (hnd : (t.exact ++ t.pfx ++ t.substr).Nodup) :
    Represents (Ptr.matchLoop ci tokv items idx st).links
        (Ptr.matchLoop ci tokv items idx st).exact (matchLoop ci tokv items idx t).exact ∧
      Represents (Ptr.matchLoop ci tokv items idx st).links
        (Ptr.matchLoop ci tokv items idx st).pfx (matchLoop ci tokv items idx t).pfx ∧
      Represents (Ptr.matchLoop ci tokv items idx st).links
        (Ptr.matchLoop ci tokv items idx st).substr (matchLoop ci tokv items idx t).substr ∧
      ((matchLoop ci tokv items idx t).exact ++ (matchLoop ci tokv items idx t).pfx
          ++ (matchLoop ci tokv items idx t).substr).Nodup := by
  induction items generalizing idx st t with
  | nil => exact ⟨hE, hP, hS, hnd⟩
  | cons txt rest ih =>
    obtain ⟨h1, h2, h3, h4, h5⟩ := matchItem_represents ci tokv st t idx txt hE hP hS hlt hnd
    exact ih (idx + 1) _ _ h1 h2 h3 h4 h5

theorem ptr_matchList (ci : Bool) (items : List (List Nat)) (text : List Nat) (lk0 : Links) :
    ∃ r, Ptr.matchList ci items text lk0 = some r ∧
      Represents r.1 r.2 (matchList ci items text) := by
  have hnil : Represents lk0 ⟨none, none⟩ [] := ⟨rfl, rfl, trivial⟩
  obtain ⟨hE, hP, hS, hnd⟩ := matchLoop_represents ci (tokens text) items 0
    { links := lk0, exact := ⟨none, none⟩, pfx := ⟨none, none⟩, substr := ⟨none, none⟩ }
    ⟨[], [], []⟩ hnil hnil hnil (by simp) (by simp)
  obtain ⟨nE, nP, nS, dEP, dES, dPS⟩ := tiers_nodup _ _ _ hnd
  have hnd1 := (List.nodup_append.1 hnd).1
  obtain ⟨r1, hr1, hrep1, hframe1⟩ := splice_represents _ _ _ _ _ hE hP hnd1
  have hS1 : Represents r1.1 _ _ := ⟨hS.1, hS.2.1, linked_congr _ _ _ _ (fun y hy =>
    hframe1 y (fun h => by
      rcases List.mem_append.1 h with h | h
      · exact dES y h hy
      · exact dPS y h hy)) hS.2.2⟩
  obtain ⟨r2, hr2, hrep2, _⟩ := splice_represents _ _ _ _ _ hrep1 hS1 hnd
  refine ⟨r2, ?_, ?_⟩
  · unfold Ptr.matchList
    simp only []
    rw [hr1]
    exact hr2
  · unfold matchList
    rw [linkTiers_eq]
    exact hrep2

theorem match_idem (cfg : Config) (s : State) : match_ cfg (match_ cfg s) = match_ cfg s := by
  unfold match_ calcoffsets
  cases h : listHead (matchList cfg.ci cfg.items (cstr s.text)) <;> simp [h]

/-- C13: for every state, running `match` twice in succession gives the same
state as running it once: the same match list, `curr`, `sel`, `prev` and `next`.
And the result does not depend on the links an earlier call left in the items:
run on items whose `left` and `right` fields hold anything at all, the
statements of `match` end without dereferencing `NULL`, with `matches` and
`matchend` the first and last node of that same match list and its nodes
doubly linked in its order, so that following `right` from `matches` reads
exactly that list. -/
theorem C13_match_idempotent (cfg : Config) (s : State) (lk0 : Links) :
    match_ cfg (match_ cfg s) = match_ cfg s ∧
    (match_ cfg s).mlist = matchList cfg.ci cfg.items (cstr s.text) ∧
    ∃ r, Ptr.matchList cfg.ci cfg.items (cstr s.text) lk0 = some r ∧
      Represents r.1 r.2 (match_ cfg s).mlist ∧
      ∀ fuel, (match_ cfg s).mlist.length ≤ fuel →
        Ptr.toList r.1 fuel r.2.first = (match_ cfg s).mlist := by
  refine ⟨match_idem cfg s, match_mlist cfg s, ?_⟩
  obtain ⟨r, hr, hrep⟩ := ptr_matchList cfg.ci cfg.items (cstr s.text) lk0
  rw [match_mlist]
  refine ⟨r, hr, hrep, fun fuel hf => ?_⟩
  rw [hrep.1]
  exact linked_toList r.1 _ none fuel hrep.2.2 hf

/-! ## Statements about the case XK_End -/

theorem strtok_snoc (c : Nat) (s cur : List Nat) :
    ∀ tok ∈ strtok s cur, ∃ tok1 ∈ strtok (s ++ [c]) cur, tok <+: tok1 := by
  induction s generalizing cur with
  | nil =>
    intro tok htok
    by_cases hcur : cur = []
    · simp [strtok, hcur] at htok
    · simp only [strtok, if_neg hcur, List.mem_singleton] at htok
      subst htok
      by_cases hc : c = 32
      · refine ⟨cur.reverse, ?_, List.prefix_refl _⟩
        simp [strtok, hc, hcur]
      · refine ⟨(c :: cur).reverse, ?_, ?_⟩
        · simp [strtok, hc]
        · simp
  | cons a s ih =>
    intro tok htok
    by_cases ha : a = 32
    · subst ha
      by_cases hcur : cur = []
      · simp only [strtok, if_pos, hcur] at htok
        obtain ⟨tok1, h1, h2⟩ := ih [] tok (by simpa using htok)
        exact ⟨tok1, by simpa [strtok, hcur] using h1, h2⟩
      · simp only [strtok, if_neg hcur, if_true, List.mem_cons] at htok
        rcases htok with htok | htok
        · subst htok
          exact ⟨cur.reverse, by simp [strtok, hcur], List.prefix_refl _⟩
        · obtain ⟨tok1, h1, h2⟩ := ih [] tok htok
          exact ⟨tok1, by simp [strtok, hcur, h1], h2⟩
    · simp only [strtok, if_neg ha] at htok
      obtain ⟨tok1, h1, h2⟩ := ih (a :: cur) tok htok
      exact ⟨tok1, by simpa [strtok, ha] using h1, h2⟩

theorem occurs_of_pfx (ci : Bool) (tok tok1 s : List Nat) (hp : tok <+: tok1)
    (h : Occurs ci tok1 s) : Occurs ci tok s := by
  unfold Occurs at h ⊢
  have h1 : caseFold ci tok <+: caseFold ci tok1 := by
    unfold caseFold
    split
    · exact hp.map _
    · exact hp
  exact List.IsInfix.trans h1.isInfix h

/-- C22: for every candidate store, both comparison modes, every query text `t`
and every byte `c`, each candidate of the match list computed for `t` followed
by `c` is also in the match list computed for `t`: every token of `t` starts a
token of `t` followed by `c`, and a candidate that contains the longer token
contains the shorter one. -/
theorem C22_typing_narrows (ci : Bool) (items : List (List Nat)) (t : List Nat) (c i : Nat)
    (h : i ∈ matchList ci items (t ++ [c])) : i ∈ matchList ci items t := by
  rw [matchList_mem] at h ⊢
  refine ⟨h.1, fun tok htok => ?_⟩
  obtain ⟨tok1, h1, h2⟩ := strtok_snoc c t [] tok htok
  exact occurs_of_pfx ci tok tok1 _ h2 (h.2 tok1 h1)

theorem C22_typing_narrows_witness :
    0 ∈ matchList true demoCfg.items (bytes "ap" ++ [112]) ∧
      0 ∈ matchList true demoCfg.items (bytes "ap") :=
  ⟨by decide, C22_typing_narrows true demoCfg.items (bytes "ap") 112 0 (by decide)⟩

end Dmenu
